import Mathlib

/-!
# Verification of the hathor-core consensus module

A shallow embedding of `hathor/consensus.py` (the consensus core of the
hathor-core node): the metadata model, the soft-void filter, the
transaction- and block-consensus operations (conflict resolution and the
voidance-propagation walks), the driver, and the block-scoring DFS.

Hashes are modelled as naturals, proof-of-work weights as rationals.
Fallible code (Python `assert`, storage lookups that may raise) returns
`Option`; the mutually recursive consensus operations are interpreted by a
fuel-indexed step function `run`.  Code of the repository that is not part
of the consensus module (the BFS walker, `sum_weights`,
`update_accumulated_weight`, the height index) is modelled from the
specification and marked as such.
-/

namespace Hathor

/-- Record hashes (Python `bytes`) are opaque identifiers compared for
equality; we model them as naturals. -/
abbrev Hash := Nat

/-- Weights and scores (`weight`, `score`, `accumulated_weight`) are
log-domain proofs of work; we model the numeric values as rationals. -/
abbrev Weight := ℚ

/-- `settings.WEIGHT_TOL`.  Modelled from the spec: the configured weight
comparison tolerance, `1e-10` (the literal also appears at
`consensus.py:617`); the settings module is not part of the sources. -/
def weightTol : ℚ := mkRat 1 10000000000

/-- The tolerance is the literal `1e-10`. -/
theorem weightTol_eq : weightTol = 1 / 10 ^ 10 := by
  norm_num [weightTol]

/-- Absolute value on the rationals, kernel-computable (Mathlib's `|q|`
goes through noncomputable lattice structure). -/
def ratAbs (q : ℚ) : ℚ := if q < 0 then -q else q

/-- `ratAbs` agrees with the standard absolute value. -/
theorem ratAbs_eq_abs (q : ℚ) : ratAbs q = |q| := by
  rw [ratAbs]
  by_cases h : q < 0
  · rw [if_pos h, abs_of_neg h]
  · rw [if_neg h, abs_of_nonneg (le_of_not_lt h)]

/-- The mutable per-record metadata (`hathor/transaction`'s
`TransactionMetadata`, as used by `consensus.py`): `voided_by` is
`Optional[Set[bytes]]`, `conflict_with` an optional ordered list,
`spent_outputs` maps an output index to the ordered list of spender
hashes, `children` is the verification-DAG children list used by the
walker.  Fields of the metadata that the consensus module never touches
(`twins`, `height`, ...) are omitted. -/
structure TxMeta where
  voided_by : Option (Finset Hash) := none
  conflict_with : Option (List Hash) := none
  spent_outputs : List (Nat × List Hash) := []
  first_block : Option Hash := none
  score : ℚ := 0
  accumulated_weight : ℚ := 0
  children : List Hash := []
  deriving DecidableEq

/-- A record of the DAG (block or transaction).  Its hash is the key under
which it is stored, so it is not repeated here. -/
structure Record where
  is_block : Bool := false
  parents : List Hash := []
  inputs : List (Hash × Nat) := []
  weight : ℚ := 1
  timestamp : Int := 0
  meta : TxMeta := {}
  deriving DecidableEq

/-- Observable side effects of a consensus update: the `mark_as_*` entry
logs, index updates and the PubSub messages. -/
inductive Event where
  | markAsVoided (h : Hash)
  | markAsWinner (h : Hash)
  | addToIndexes (h : Hash)
  | delFromIndexes (h : Hash)
  | indexesUpdate (h : Hash)
  | publishTxUpdate (h : Hash)
  | publishTxRemoved (h : Hash)
  | removeTransactions (hs : List Hash)
  | updateBestTipsCache (v : Option (List Hash))
  deriving DecidableEq

/-- The storage plus the per-update `ConsensusAlgorithmContext`: `recs` is
the record store (keyed by hash), `affected` the context's
`txs_affected` set (a Python set: each hash kept once, in insertion
order), `events` the emitted side effects. -/
structure St where
  recs : List (Hash × Record) := []
  affected : List Hash := []
  events : List Event := []
  deriving DecidableEq

/-- Python truthiness of an `Optional[Set[bytes]]`: `None` and the empty
set are falsy. -/
def oFinsetTruthy : Option (Finset Hash) → Bool
  | none => false
  | some s => ¬ s = ∅

/-- Python truthiness of an `Optional[List[bytes]]`. -/
def oListTruthy : Option (List Hash) → Bool
  | none => false
  | some l => ¬ l = []

/-- Association-list lookup (first match), the model of
`storage.get_transaction`. -/
def assocFind (h : Hash) : List (Hash × Record) → Option Record
  | [] => none
  | p :: rest => if p.1 = h then some p.2 else assocFind h rest

/-- `storage.get_transaction(h)` over the state. -/
def St.lookupRec (st : St) (h : Hash) : Option Record :=
  assocFind h st.recs

/-- Update the metadata of the record stored under `h` in place. -/
def St.setMeta (st : St) (h : Hash) (f : TxMeta → TxMeta) : St :=
  { st with recs := st.recs.map fun p =>
      if p.1 = h then (p.1, { p.2 with meta := f p.2.meta }) else p }

/-- `context.save(tx)`: the record joins the context's affected set (a
set: no duplicates) and its metadata is persisted. -/
def St.saveTx (st : St) (h : Hash) : St :=
  { st with affected := if h ∈ st.affected then st.affected else st.affected ++ [h] }

/-- Append an observable event. -/
def St.pushEvent (st : St) (e : Event) : St :=
  { st with events := st.events ++ [e] }

/-- The consensus configuration plus the external collaborators that are
not part of the consensus module.  `refreshAW` is modelled from the spec:
`BaseTransaction.update_accumulated_weight(stop_value)` recomputes a
transaction's accumulated weight from the immutable DAG around it (so it
is a function of the hash and the optional stop value).  `sumWeights` is
modelled from the spec: `sum_weights(a,b) = max(a,b) + log2(1+2^-|a-b|)`,
a binary operation on weights.  `heightTipHeight` and `becameInvalid` are
modelled from the spec: the height index's `get_height_tip()` first
component and `storage.get_transactions_that_became_invalid()`. -/
structure Env where
  SOFT_VOIDED_ID : Hash := 0
  soft_voided_tx_ids : Finset Hash := ∅
  refreshAW : Hash → Option ℚ → ℚ := fun _ _ => 0
  sumWeights : ℚ → ℚ → ℚ := fun a b => a + b
  heightTipHeight : St → Nat := fun _ => 0
  becameInvalid : St → List Hash := fun _ => []

/-! ## The soft-void filter (`ConsensusAlgorithm.filter_out_soft_voided_entries`,
`consensus.py:131-148`) -/

/-- The `for h in voided_by` loop of `filter_out_soft_voided_entries`
(lines 135-147): a hash survives unless it is the sentinel, the record's
own hash, or a member of `soft_voided_tx_ids`; otherwise its record is
fetched (failure aborts) and it survives exactly when that record's own
`voided_by` is disjoint from `soft_voided_tx_ids` (lines 146-147). -/
def filterSVEList (env : Env) (st : St) (txh : Hash) : List Hash → Option (Finset Hash)
  | [] => some ∅
  | h :: rest =>
    match filterSVEList env st txh rest with
    | none => none
    | some ret =>
      if h = env.SOFT_VOIDED_ID then some ret
      else if h = txh then some ret
      else if h ∈ env.soft_voided_tx_ids then some ret
      else
        match st.lookupRec h with
        | none => none
        | some tx3 =>
          if env.soft_voided_tx_ids ∩ tx3.meta.voided_by.getD ∅ = ∅
          then some (insert h ret)
          else some ret

/-- Iterate a Finset as a list.  Python iterates sets in an unspecified
order; we fix the ascending one (via insertion sort, which reduces in the
kernel) to stay executable. -/
def iterFinset (s : Finset Hash) : List Hash :=
  Quot.liftOn s.val (fun l => l.insertionSort (· ≤ ·)) fun _ _ h =>
    List.eq_of_perm_of_sorted
      ((List.perm_insertionSort _ _).trans (h.trans (List.perm_insertionSort _ _).symm))
      (List.sorted_insertionSort _ _) (List.sorted_insertionSort _ _)

/-- Iterating a finite set visits exactly its members. -/
theorem mem_iterFinset {a : Hash} {s : Finset Hash} : a ∈ iterFinset s ↔ a ∈ s := by
  rcases s with ⟨val, nodup⟩
  induction val using Quot.inductionOn with
  | h l =>
    show a ∈ (l.insertionSort (· ≤ ·)) ↔ _
    rw [(List.perm_insertionSort (· ≤ ·) l).mem_iff]
    rfl

/-- `ConsensusAlgorithm.filter_out_soft_voided_entries` (lines 131-148):
returns `voided_by` unchanged when it is disjoint from
`soft_voided_tx_ids`, and otherwise filters it entry by entry. -/
def filter_out_soft_voided_entries (env : Env) (st : St) (txh : Hash)
    (voided_by : Finset Hash) : Option (Finset Hash) :=
  if env.soft_voided_tx_ids ∩ voided_by = ∅ then some voided_by
  else filterSVEList env st txh (iterFinset voided_by)

/-- The `voided_by` of the record stored under `h`, `∅` when the record is
missing or the field absent (`tx3_meta.voided_by or set()`). -/
def vbOf (st : St) (h : Hash) : Finset Hash :=
  ((st.lookupRec h).map fun r => r.meta.voided_by.getD ∅).getD ∅

/-- The filter exactly as the claim words it (clause (d): exclude every
`h` whose record's own `voided_by` is disjoint from
`soft_voided_tx_ids`); written to compare against the source function. -/
def claimC1Filter (env : Env) (st : St) (txh : Hash) (voided_by : Finset Hash) :
    Finset Hash :=
  if env.soft_voided_tx_ids ∩ voided_by = ∅ then voided_by
  else voided_by.filter fun h =>
    h ≠ env.SOFT_VOIDED_ID ∧ h ≠ txh ∧ h ∉ env.soft_voided_tx_ids ∧
      ¬ env.soft_voided_tx_ids ∩ vbOf st h = ∅

/-- The filter with clause (d) corrected to what the source does: an entry
survives exactly when its record's own `voided_by` is disjoint from
`soft_voided_tx_ids` (it is excluded when they intersect). -/
def amendedC1Filter (env : Env) (st : St) (txh : Hash) (voided_by : Finset Hash) :
    Finset Hash :=
  if env.soft_voided_tx_ids ∩ voided_by = ∅ then voided_by
  else voided_by.filter fun h =>
    h ≠ env.SOFT_VOIDED_ID ∧ h ≠ txh ∧ h ∉ env.soft_voided_tx_ids ∧
      env.soft_voided_tx_ids ∩ vbOf st h = ∅

/-! ## State lemma library -/

theorem assocFind_map_setIf (l : List (Hash × Record)) (h : Hash) (f : TxMeta → TxMeta)
    (h' : Hash) :
    assocFind h' (l.map fun p => if p.1 = h then (p.1, { p.2 with meta := f p.2.meta }) else p) =
      if h' = h then (assocFind h' l).map (fun r => { r with meta := f r.meta })
      else assocFind h' l := by
  induction l with
  | nil => by_cases hh : h' = h <;> simp [assocFind, hh]
  | cons p rest ih =>
    simp only [List.map_cons]
    by_cases h1 : p.1 = h
    · subst h1
      by_cases h2 : h' = p.1
      · subst h2; simp [assocFind, ih]
      · have h3 : ¬ p.1 = h' := fun c => h2 c.symm
        simp [assocFind, h2, h3, ih]
    · by_cases h2 : p.1 = h'
      · subst h2
        simp [assocFind, h1]
      · simp only [if_neg h1, assocFind, if_neg h2, ih]

theorem lookupRec_setMeta (st : St) (h : Hash) (f : TxMeta → TxMeta) (h' : Hash) :
    (st.setMeta h f).lookupRec h' =
      if h' = h then (st.lookupRec h).map (fun r => { r with meta := f r.meta })
      else st.lookupRec h' := by
  show assocFind h' _ = _
  rw [show (st.setMeta h f).recs = st.recs.map (fun p =>
      if p.1 = h then (p.1, { p.2 with meta := f p.2.meta }) else p) from rfl,
    assocFind_map_setIf]
  by_cases hh : h' = h <;> simp [hh, St.lookupRec]

theorem lookupRec_setMeta_self (st : St) (h : Hash) (f : TxMeta → TxMeta) :
    (st.setMeta h f).lookupRec h = (st.lookupRec h).map (fun r => { r with meta := f r.meta }) := by
  rw [lookupRec_setMeta]; simp

theorem lookupRec_setMeta_other (st : St) (h : Hash) (f : TxMeta → TxMeta) (h' : Hash)
    (hne : h' ≠ h) : (st.setMeta h f).lookupRec h' = st.lookupRec h' := by
  rw [lookupRec_setMeta]; simp [hne]

@[simp] theorem lookupRec_saveTx (st : St) (h h' : Hash) :
    (st.saveTx h).lookupRec h' = st.lookupRec h' := rfl

@[simp] theorem lookupRec_pushEvent (st : St) (e : Event) (h' : Hash) :
    (st.pushEvent e).lookupRec h' = st.lookupRec h' := rfl

@[simp] theorem events_setMeta (st : St) (h : Hash) (f : TxMeta → TxMeta) :
    (st.setMeta h f).events = st.events := rfl

@[simp] theorem events_saveTx (st : St) (h : Hash) :
    (st.saveTx h).events = st.events := rfl

@[simp] theorem events_pushEvent (st : St) (e : Event) :
    (st.pushEvent e).events = st.events ++ [e] := rfl

@[simp] theorem affected_setMeta (st : St) (h : Hash) (f : TxMeta → TxMeta) :
    (st.setMeta h f).affected = st.affected := rfl

@[simp] theorem affected_pushEvent (st : St) (e : Event) :
    (st.pushEvent e).affected = st.affected := rfl

@[simp] theorem recs_saveTx (st : St) (h : Hash) : (st.saveTx h).recs = st.recs := rfl

@[simp] theorem recs_pushEvent (st : St) (e : Event) : (st.pushEvent e).recs = st.recs := rfl

/-! ### C1: the soft-void filter -/

/-- Membership characterisation of the filter loop: under presence of the
records it consults, an entry survives exactly when it is none of the
excluded hashes and its record's `voided_by` is disjoint from the
soft-voided set. -/
theorem filterSVEList_mem (env : Env) (st : St) (txh : Hash) (l : List Hash)
    (hpres : ∀ h ∈ l, h ≠ env.SOFT_VOIDED_ID → h ≠ txh →
      h ∉ env.soft_voided_tx_ids → (st.lookupRec h).isSome) :
    ∃ S, filterSVEList env st txh l = some S ∧
      ∀ a, a ∈ S ↔ a ∈ l ∧ a ≠ env.SOFT_VOIDED_ID ∧ a ≠ txh ∧
        a ∉ env.soft_voided_tx_ids ∧ env.soft_voided_tx_ids ∩ vbOf st a = ∅ := by
  induction l with
  | nil => exact ⟨∅, rfl, by simp⟩
  | cons h rest ih =>
    obtain ⟨S, hS, hmem⟩ := ih (fun x hx => hpres x (List.mem_cons_of_mem _ hx))
    by_cases h1 : h = env.SOFT_VOIDED_ID
    · refine ⟨S, by simp [filterSVEList, hS, h1], fun a => ?_⟩
      rw [hmem a]
      constructor
      · rintro ⟨ha, h2⟩; exact ⟨List.mem_cons_of_mem _ ha, h2⟩
      · rintro ⟨ha, h2⟩
        rcases List.mem_cons.mp ha with rfl | ha
        · exact absurd h1 (h1 ▸ h2.1)
        · exact ⟨ha, h2⟩
    · by_cases h2 : h = txh
      · refine ⟨S, by simp [filterSVEList, hS, h1, h2], fun a => ?_⟩
        rw [hmem a]
        constructor
        · rintro ⟨ha, h3⟩; exact ⟨List.mem_cons_of_mem _ ha, h3⟩
        · rintro ⟨ha, h3⟩
          rcases List.mem_cons.mp ha with rfl | ha
          · exact absurd h2 h3.2.1
          · exact ⟨ha, h3⟩
      · by_cases h3 : h ∈ env.soft_voided_tx_ids
        · refine ⟨S, by simp [filterSVEList, hS, h1, h2, h3], fun a => ?_⟩
          rw [hmem a]
          constructor
          · rintro ⟨ha, h4⟩; exact ⟨List.mem_cons_of_mem _ ha, h4⟩
          · rintro ⟨ha, h4⟩
            rcases List.mem_cons.mp ha with rfl | ha
            · exact absurd h3 h4.2.2.1
            · exact ⟨ha, h4⟩
        · obtain ⟨tx3, htx3⟩ := Option.isSome_iff_exists.mp
            (hpres h (List.mem_cons_self h rest) h1 h2 h3)
          have hvb : vbOf st h = tx3.meta.voided_by.getD ∅ := by
            simp [vbOf, htx3]
          by_cases h4 : env.soft_voided_tx_ids ∩ tx3.meta.voided_by.getD ∅ = ∅
          · refine ⟨insert h S, by simp [filterSVEList, hS, h1, h2, h3, htx3, h4],
              fun a => ?_⟩
            rw [Finset.mem_insert, hmem a]
            constructor
            · rintro (rfl | ⟨ha, h5⟩)
              · exact ⟨List.mem_cons_self _ _, h1, h2, h3, by rw [hvb]; exact h4⟩
              · exact ⟨List.mem_cons_of_mem _ ha, h5⟩
            · rintro ⟨ha, h5⟩
              rcases List.mem_cons.mp ha with rfl | ha
              · exact Or.inl rfl
              · exact Or.inr ⟨ha, h5⟩
          · refine ⟨S, by simp [filterSVEList, hS, h1, h2, h3, htx3, h4], fun a => ?_⟩
            rw [hmem a]
            constructor
            · rintro ⟨ha, h5⟩; exact ⟨List.mem_cons_of_mem _ ha, h5⟩
            · rintro ⟨ha, h5⟩
              rcases List.mem_cons.mp ha with rfl | ha
              · exact absurd h5.2.2.2 (by rw [hvb]; exact h4)
              · exact ⟨ha, h5⟩

/-- Concrete environment for C1: hash `0` is the sentinel, hash `1` is
soft-voided. -/
def envC1 : Env :=
  { SOFT_VOIDED_ID := 0, soft_voided_tx_ids := {1} }

/-- Concrete state for C1: a single record `3` whose `voided_by` is
absent (hence disjoint from the soft-voided set). -/
def stC1 : St :=
  { recs := [(3, {})] }

/-- C1, counterexample: on `V = {1, 3}` (not disjoint from the
soft-voided set `{1}`), record `3`'s own `voided_by` is disjoint from
`soft_voided_tx_ids`, so the claim's clause (d) excludes it and predicts
`∅` — but the source keeps exactly such entries and returns `{3}`. -/
theorem claimC1_counterexample :
    filter_out_soft_voided_entries envC1 stC1 2 {1, 3} = some {3} ∧
      claimC1Filter envC1 stC1 2 {1, 3} = ∅ := by
  constructor
  · decide
  · decide

/-- C1, amended: `filter_out_soft_voided_entries(r, V)` returns `V`
unchanged when `V` is disjoint from `soft_voided_tx_ids`; otherwise it
returns the subset of `V` obtained by excluding (a) the sentinel
`SOFT_VOIDED_ID`, (b) `r.hash`, (c) every member of `soft_voided_tx_ids`,
and (d) every `h ∈ V` whose record's own `voided_by` *intersects*
`soft_voided_tx_ids` (that is, it keeps exactly the entries whose record's
`voided_by` is disjoint from the soft-voided set), provided every
consulted record is present in storage. -/
theorem claimC1_amended (env : Env) (st : St) (txh : Hash) (V : Finset Hash)
    (hpres : ∀ h ∈ V, h ≠ env.SOFT_VOIDED_ID → h ≠ txh →
      h ∉ env.soft_voided_tx_ids → (st.lookupRec h).isSome) :
    filter_out_soft_voided_entries env st txh V = some (amendedC1Filter env st txh V) := by
  unfold filter_out_soft_voided_entries amendedC1Filter
  by_cases hd : env.soft_voided_tx_ids ∩ V = ∅
  · simp [hd]
  · simp only [hd, if_false]
    obtain ⟨S, hS, hmem⟩ := filterSVEList_mem env st txh (iterFinset V)
      (fun h hh => hpres h (mem_iterFinset.mp hh))
    rw [hS]
    congr 1
    ext a
    rw [hmem a, Finset.mem_filter, mem_iterFinset]

/-- C1 witness: a concrete run of the amended statement, on a state where
entry `3` is kept (its record's `voided_by` is disjoint from the
soft-voided set) and entries `1` (soft-voided) and `2` (`r.hash`) are
dropped. -/
theorem claimC1_amended_witness :
    filter_out_soft_voided_entries envC1 stC1 2 {1, 2, 3} =
      some (amendedC1Filter envC1 stC1 2 {1, 2, 3}) :=
  claimC1_amended envC1 stC1 2 {1, 2, 3} (by decide)

/-! ## `TransactionConsensusAlgorithm.mark_input_as_used` (`consensus.py:673-712`) -/

/-- Lookup in the `spent_outputs` mapping. -/
def assocNat (i : Nat) : List (Nat × List Hash) → Option (List Hash)
  | [] => none
  | p :: r => if p.1 = i then some p.2 else assocNat i r

/-- Set a key in the `spent_outputs` mapping (created when absent — it is
a `defaultdict(list)` in the source). -/
def setAssocNat (i : Nat) (v : List Hash) : List (Nat × List Hash) → List (Nat × List Hash)
  | [] => [(i, v)]
  | p :: r => if p.1 = i then (i, v) :: r else p :: setAssocNat i v r

/-- `spent_meta.spent_outputs[txin.index]`, defaulting to the empty
list. -/
def TxMeta.spentAt (m : TxMeta) (i : Nat) : List Hash :=
  (assocNat i m.spent_outputs).getD []

/-- Store a spender list under an output index. -/
def TxMeta.setSpentAt (m : TxMeta) (i : Nat) (v : List Hash) : TxMeta :=
  { m with spent_outputs := setAssocNat i v m.spent_outputs }

/-- The per-conflict update of lines 702-707: append `t` to the conflict
list unless it is already there; create the list when absent. -/
def miuConflictUpdate (t : Hash) (cw : Option (List Hash)) : Option (List Hash) :=
  if oListTruthy cw then
    if t ∈ cw.getD [] then cw else some (cw.getD [] ++ [t])
  else some [t]

/-- The `for h in spent_by` loop of `mark_input_as_used` (lines 698-708):
each conflicting transaction's `conflict_with` learns `t` and the record
is saved. -/
def miuConflictLoop (t : Hash) : List Hash → St → Option St
  | [], st => some st
  | h :: rest, st =>
    match st.lookupRec h with
    | none => none
    | some r =>
      let st :=
        if oListTruthy r.meta.conflict_with then
          if t ∈ r.meta.conflict_with.getD [] then st
          else st.setMeta h fun m =>
            { m with conflict_with := some (m.conflict_with.getD [] ++ [t]) }
        else st.setMeta h fun m => { m with conflict_with := some [t] }
      miuConflictLoop t rest (st.saveTx h)

/-- `TransactionConsensusAlgorithm.mark_input_as_used` (lines 673-712):
`t` is the new transaction's hash, `txin` its input `(tx_id, index)`. -/
def markInputAsUsed (st : St) (t : Hash) (txin : Hash × Nat) : Option St :=
  match st.lookupRec txin.1 with
  | none => none
  | some spentTx =>
    let spent_by := spentTx.meta.spentAt txin.2
    if t ∈ spent_by then none
    else
      match st.lookupRec t with
      | none => none
      | some _tx =>
        let st1 :=
          if spent_by = [] then st
          else
            st.setMeta t fun m =>
              { m with
                voided_by :=
                  if ¬ oFinsetTruthy m.voided_by then some {t}
                  else some (insert t (m.voided_by.getD ∅)),
                conflict_with :=
                  if oListTruthy m.conflict_with then
                    some (m.conflict_with.getD [] ++
                      (spent_by.filter (· ∉ m.conflict_with.getD [])).dedup)
                  else some spent_by }
        match miuConflictLoop t spent_by (st1.saveTx t) with
        | none => none
        | some st3 =>
          some ((st3.setMeta txin.1 fun m =>
            m.setSpentAt txin.2 (m.spentAt txin.2 ++ [t])).saveTx txin.1)

/-- Characterisation of the conflict loop: every member of `S` gets the
`miuConflictUpdate`, nothing else changes. -/
theorem miuConflictLoop_spec (t : Hash) (S : List Hash) (st : St)
    (hpres : ∀ h ∈ S, (st.lookupRec h).isSome) (hnd : S.Nodup) :
    ∃ st', miuConflictLoop t S st = some st' ∧
      (∀ h, st'.lookupRec h =
        if h ∈ S then
          (st.lookupRec h).map fun r =>
            { r with meta := { r.meta with
                conflict_with := miuConflictUpdate t r.meta.conflict_with } }
        else st.lookupRec h) ∧
      st'.events = st.events := by
  induction S generalizing st with
  | nil => exact ⟨st, rfl, fun h => by simp, rfl⟩
  | cons a rest ih =>
    obtain ⟨r, hr⟩ := Option.isSome_iff_exists.mp (hpres a (List.mem_cons_self a rest))
    have hnd' := hnd
    rw [List.nodup_cons] at hnd'
    set st1 : St :=
      (if oListTruthy r.meta.conflict_with then
        if t ∈ r.meta.conflict_with.getD [] then st
        else st.setMeta a fun m =>
          { m with conflict_with := some (m.conflict_with.getD [] ++ [t]) }
      else st.setMeta a fun m => { m with conflict_with := some [t] }) with hst1
    have hlook1 : ∀ x, st1.lookupRec x =
        if x = a then
          (st.lookupRec a).map fun rr =>
            { rr with meta := { rr.meta with
                conflict_with := miuConflictUpdate t rr.meta.conflict_with } }
        else st.lookupRec x := by
      intro x
      rw [hst1]
      by_cases hx : x = a
      · subst hx
        by_cases c1 : oListTruthy r.meta.conflict_with
        · by_cases c2 : t ∈ r.meta.conflict_with.getD []
          · simp [c1, c2, hr, miuConflictUpdate]
          · simp [c1, c2, hr, miuConflictUpdate, lookupRec_setMeta_self]
        · simp [c1, hr, miuConflictUpdate, lookupRec_setMeta_self]
      · by_cases c1 : oListTruthy r.meta.conflict_with
        · by_cases c2 : t ∈ r.meta.conflict_with.getD [] <;>
            simp [c1, c2, hx, lookupRec_setMeta_other _ _ _ _ hx]
        · simp [c1, hx, lookupRec_setMeta_other _ _ _ _ hx]
    have hev1 : st1.events = st.events := by
      rw [hst1]
      by_cases c1 : oListTruthy r.meta.conflict_with
      · by_cases c2 : t ∈ r.meta.conflict_with.getD [] <;> simp [c1, c2]
      · simp [c1]
    have hpres2 : ∀ h ∈ rest, ((st1.saveTx a).lookupRec h).isSome := by
      intro h hh
      rw [lookupRec_saveTx, hlook1 h]
      by_cases hha : h = a
      · subst hha; simp [hr]
      · simp [hha]; exact hpres h (List.mem_cons_of_mem _ hh)
    obtain ⟨st', hrun, hlook', hev'⟩ := ih (st1.saveTx a) hpres2 hnd'.2
    refine ⟨st', ?_, ?_, ?_⟩
    · show miuConflictLoop t (a :: rest) st = some st'
      rw [miuConflictLoop, hr]
      exact hrun
    · intro h
      rw [hlook' h]
      by_cases hha : h = a
      · subst hha
        have hna : h ∉ rest := hnd'.1
        simp only [hna, if_neg hna, lookupRec_saveTx, List.mem_cons, true_or, if_pos rfl,
          if_true]
        simp [hlook1 h]
      · by_cases hhr : h ∈ rest
        · simp only [hhr, if_pos hhr, lookupRec_saveTx, List.mem_cons]
          have : h ∈ a :: rest := List.mem_cons_of_mem _ hhr
          simp [this, hlook1 h, hha]
        · have : h ∉ a :: rest := by
            simp [List.mem_cons, hha, hhr]
          simp only [hhr, if_neg hhr, lookupRec_saveTx, this, if_neg this]
          simp [hlook1 h, hha]
    · rw [hev', events_saveTx, hev1]

/-! ### C5: `mark_input_as_used` -/

/-- Concrete state for C5: transaction `10` has output `0` already spent
by `5`; `5` already lists `7` among its conflicts (as happens when `7` and
`5` share a second input); `7` is the incoming transaction. -/
def stC5 : St :=
  { recs := [
      (10, { meta := { spent_outputs := [(0, [5])] } }),
      (5, { meta := { conflict_with := some [7] } }),
      (7, {}),
      (9, {})] }

/-- C5, counterexample: with `t = 7` already present in
`conflict_with(5)`, `mark_input_as_used` leaves `conflict_with(5) = [7]`
(lines 703-705 only append when absent), while the claim's unconditional
append would give `[7, 7]`. -/
theorem claimC5_counterexample :
    ((markInputAsUsed stC5 7 (10, 0)).bind fun st' =>
      (st'.lookupRec 5).map fun r => r.meta.conflict_with) = some (some [7]) ∧
    ¬ (some [7] : Option (List Hash)) = some ([7] ++ [7]) := by
  constructor
  · decide
  · decide

/-- C5, amended: for a new transaction `t` and input `(tid, idx)` with
`S := spent_outputs(tid)[idx]` and `t ∉ S` (the asserted precondition):
if `S` is non-empty, `voided_by(t)` gains `t` (created as `{t}` when
absent or empty) and `conflict_with(t)` is extended with exactly the
members of `S` not already present; for every `h ∈ S`, `t` is appended to
`conflict_with(h)` preserving insertion order *unless it is already
present* (created as `[t]` when absent); and `t` is appended to the end of
`S`.  All other records are untouched. -/
theorem claimC5_amended (st : St) (t tid : Hash) (idx : Nat) (spentRec txRec : Record)
    (S : List Hash)
    (hspent : st.lookupRec tid = some spentRec)
    (htx : st.lookupRec t = some txRec)
    (hS : spentRec.meta.spentAt idx = S)
    (htS : t ∉ S)
    (hpres : ∀ h ∈ S, (st.lookupRec h).isSome)
    (hnd : S.Nodup) (htid : t ≠ tid) (htidS : tid ∉ S) :
    ∃ st', markInputAsUsed st t (tid, idx) = some st' ∧
      st'.lookupRec t = some { txRec with meta :=
        { txRec.meta with
          voided_by :=
            if S = [] then txRec.meta.voided_by
            else if ¬ oFinsetTruthy txRec.meta.voided_by then some {t}
            else some (insert t (txRec.meta.voided_by.getD ∅)),
          conflict_with :=
            if S = [] then txRec.meta.conflict_with
            else if oListTruthy txRec.meta.conflict_with then
              some (txRec.meta.conflict_with.getD [] ++
                (S.filter (· ∉ txRec.meta.conflict_with.getD [])).dedup)
            else some S } } ∧
      (∀ h ∈ S, st'.lookupRec h = (st.lookupRec h).map fun r =>
        { r with meta := { r.meta with
            conflict_with := miuConflictUpdate t r.meta.conflict_with } }) ∧
      st'.lookupRec tid = some { spentRec with meta :=
        (spentRec.meta.setSpentAt idx (S ++ [t])) } ∧
      (∀ x, x ≠ t → x ≠ tid → x ∉ S → st'.lookupRec x = st.lookupRec x) := by
  set updT : TxMeta → TxMeta := fun m =>
    { m with
      voided_by :=
        if ¬ oFinsetTruthy m.voided_by then some {t}
        else some (insert t (m.voided_by.getD ∅)),
      conflict_with :=
        if oListTruthy m.conflict_with then
          some (m.conflict_with.getD [] ++ (S.filter (· ∉ m.conflict_with.getD [])).dedup)
        else some S } with hupdT
  set st1 : St := (if S = [] then st else st.setMeta t updT) with hst1
  have hlook1 : ∀ x, st1.lookupRec x =
      if S ≠ [] ∧ x = t then (st.lookupRec t).map (fun r => { r with meta := updT r.meta })
      else st.lookupRec x := by
    intro x
    rw [hst1]
    by_cases hSe : S = []
    · simp [hSe]
    · by_cases hx : x = t
      · subst hx; simp [hSe, lookupRec_setMeta_self]
      · simp [hSe, hx, lookupRec_setMeta_other _ _ _ _ hx]
  have hpres2 : ∀ h ∈ S, ((st1.saveTx t).lookupRec h).isSome := by
    intro h hh
    rw [lookupRec_saveTx, hlook1 h]
    have : ¬ (S ≠ [] ∧ h = t) := fun c => htS (c.2 ▸ hh)
    simp only [this, if_neg this]
    exact hpres h hh
  obtain ⟨st3, hrun, hlook3, _⟩ := miuConflictLoop_spec t S (st1.saveTx t) hpres2 hnd
  have hrunEq : markInputAsUsed st t (tid, idx) =
      some ((st3.setMeta tid fun m =>
        m.setSpentAt idx (m.spentAt idx ++ [t])).saveTx tid) := by
    unfold markInputAsUsed
    rw [hspent]
    simp only [hS, if_neg htS, htx]
    rw [show (if (S = []) then st else _) = st1 from rfl] at *
    rw [hrun]
  refine ⟨_, hrunEq, ?_, ?_, ?_, ?_⟩
  · rw [lookupRec_saveTx, lookupRec_setMeta_other _ _ _ _ htid, hlook3 t,
      if_neg htS, lookupRec_saveTx, hlook1 t]
    by_cases hSe : S = []
    · simp [hSe, htx]
    · simp [hSe, htx, hupdT]
  · intro h hh
    have hht : h ≠ t := fun c => htS (c ▸ hh)
    have hhtid : h ≠ tid := fun c => htidS (c ▸ hh)
    rw [lookupRec_saveTx, lookupRec_setMeta_other _ _ _ _ hhtid, hlook3 h, if_pos hh,
      lookupRec_saveTx, hlook1 h]
    have : ¬ (S ≠ [] ∧ h = t) := fun c => hht c.2
    simp [this]
  · rw [lookupRec_saveTx, lookupRec_setMeta_self, hlook3 tid, if_neg htidS,
      lookupRec_saveTx, hlook1 tid]
    have : ¬ (S ≠ [] ∧ tid = t) := fun c => htid c.2.symm
    simp only [this, if_neg this, hspent]
    simp [hS]
  · intro x hxt hxtid hxS
    rw [lookupRec_saveTx, lookupRec_setMeta_other _ _ _ _ hxtid, hlook3 x, if_neg hxS,
      lookupRec_saveTx, hlook1 x]
    have : ¬ (S ≠ [] ∧ x = t) := fun c => hxt c.2
    simp [this]

/-- C5 witness: a concrete run of the amended statement; transaction `9`
spends output `0` of `10`, already spent by `5`, so `9` self-voids, the
two conflict lists are updated and `9` is appended to the spender
list. -/
theorem claimC5_amended_witness :
    ∃ st', markInputAsUsed stC5 9 (10, 0) = some st' ∧
      st'.lookupRec 9 = some { ({} : Record) with meta :=
        { ({} : Record).meta with
          voided_by :=
            if [5] = ([] : List Hash) then (({} : Record)).meta.voided_by
            else if ¬ oFinsetTruthy (({} : Record)).meta.voided_by then some {9}
            else some (insert 9 ((({} : Record)).meta.voided_by.getD ∅)),
          conflict_with :=
            if [5] = ([] : List Hash) then (({} : Record)).meta.conflict_with
            else if oListTruthy (({} : Record)).meta.conflict_with then
              some ((({} : Record)).meta.conflict_with.getD [] ++
                (([5].filter (· ∉ (({} : Record)).meta.conflict_with.getD []))).dedup)
            else some [5] } } ∧
      (∀ h ∈ [5], st'.lookupRec h = (stC5.lookupRec h).map fun r =>
        { r with meta := { r.meta with
            conflict_with := miuConflictUpdate 9 r.meta.conflict_with } }) ∧
      st'.lookupRec 10 = some { ({ meta := { spent_outputs := [(0, [5])] } } : Record) with
        meta := ({ spent_outputs := [(0, [5])] } : TxMeta).setSpentAt 0 ([5] ++ [9]) } ∧
      (∀ x, x ≠ 9 → x ≠ 10 → x ∉ [5] → st'.lookupRec x = stC5.lookupRec x) := by
  have h9 : stC5.lookupRec 9 = some {} := by decide
  exact claimC5_amended stC5 9 10 0 { meta := { spent_outputs := [(0, [5])] } } {} [5]
    (by decide) h9 (by decide) (by decide) (by decide) (by decide) (by decide) (by decide)

/-! ## The mutually recursive consensus operations

`check_conflicts`, `mark_as_winner`, `mark_as_voided`, `add_voided_by`,
`remove_voided_by` (transaction and block variants) and
`update_voided_info` call each other; we interpret them with a
fuel-indexed step function `run`.  BFS loops become explicit
queue-carrying calls. -/

/-- `assert_valid_consensus`'s loop over `meta.conflict_with`
(lines 866-871): fails when both the transaction and a conflict are
executed. -/
def avcLoop (st : St) (isExec : Bool) : List Hash → Option Unit
  | [] => some ()
  | h :: rest =>
    match st.lookupRec h with
    | none => none
    | some r =>
      if isExec && !(oFinsetTruthy r.meta.voided_by) then none
      else avcLoop st isExec rest

/-- `TransactionConsensusAlgorithm.assert_valid_consensus`
(lines 862-871). -/
def assertValidConsensus (st : St) (t : Hash) : Option Unit :=
  match st.lookupRec t with
  | none => none
  | some r =>
    avcLoop st (!(oFinsetTruthy r.meta.voided_by)) (r.meta.conflict_with.getD [])

/-- The funds-DAG successors of a record: every spender of any of its
outputs (`chain(*meta.spent_outputs.values())`, lines 499/531). -/
def fundsChildren (r : Record) : List Hash :=
  (r.meta.spent_outputs.map Prod.snd).flatten

/-- Modelled from the spec: the left-to-right successors handed out by
`BFSWalk(storage, is_dag_funds, is_dag_verifications,
is_left_to_right=True)` — spenders through the funds DAG and
`meta.children` through the verification DAG, each when the corresponding
sub-DAG is enabled. -/
def walkNeighborsLTR (funds verif : Bool) (r : Record) : List Hash :=
  (if funds then fundsChildren r else []) ++ (if verif then r.meta.children else [])

/-- Modelled from the spec: the walker's visited set — enqueue each
neighbor not seen before, marking it seen. -/
def enqueue (seen queue nbrs : List Hash) : List Hash × List Hash :=
  nbrs.foldl (fun p x => if x ∈ p.1 then p else (p.1 ++ [x], p.2 ++ [x])) (seen, queue)

/-- Lines 1016-1019 of `add_voided_by`: the walk also covers the
verification DAG unless the transaction is soft-voided. -/
def txAddVoidedByDagVerifications (env : Env) (m : TxMeta) : Bool :=
  !(oFinsetTruthy m.voided_by &&
    decide (¬ env.soft_voided_tx_ids ∩ m.voided_by.getD ∅ = ∅))

/-- Collect the records of a hash list (`storage.get_transaction` per
entry, any failure aborts). -/
def ccCollectRecs (st : St) : List Hash → Option (List (Hash × Record))
  | [] => some []
  | h :: rest =>
    match st.lookupRec h, ccCollectRecs st rest with
    | some r, some l => some ((h, r) :: l)
    | _, _ => none

/-- Line 894 of `check_conflicts`: a conflict is a candidate when its
`voided_by` is falsy or contains only its own hash. -/
def ccIsCandidate (p : Hash × Record) : Bool :=
  !(oFinsetTruthy p.2.meta.voided_by) || decide (p.2.meta.voided_by = some {p.1})

/-- The second loop of `check_conflicts` (lines 910-921): refresh each
executed candidate's accumulated weight (early-stop at `awt`), collect
ties, abort the scan on the first loss. -/
def ccWeightLoop (env : Env) (awt : ℚ) :
    List Hash → List Hash → St → Option (St × Bool × List Hash)
  | [], ties, st => some (st, true, ties)
  | c :: rest, ties, st =>
    match st.lookupRec c with
    | none => none
    | some r =>
      if oFinsetTruthy r.meta.voided_by then ccWeightLoop env awt rest ties st
      else
        let newAW := env.refreshAW c (some awt)
        let st := st.setMeta c fun m => { m with accumulated_weight := newAW }
        let d := newAW - awt
        if ratAbs d < weightTol then ccWeightLoop env awt rest (ties ++ [c]) st
        else if 0 < d then some (st, false, ties)
        else ccWeightLoop env awt rest ties st

/-- The `for h in voided_by` accumulated-weight loop of
`update_voided_info` (lines 811-817). -/
def uviAwLoop (env : Env) (w : ℚ) : List Hash → St → Option St
  | [], st => some st
  | h :: rest, st =>
    if h = env.SOFT_VOIDED_ID then uviAwLoop env w rest st
    else
      match st.lookupRec h with
      | none => none
      | some _ =>
        uviAwLoop env w rest
          ((st.setMeta h fun m =>
            { m with accumulated_weight := env.sumWeights m.accumulated_weight w }).saveTx h)

/-- The parent union of `update_voided_info` (lines 792-796): union of
the soft-void-filtered `voided_by` of the parents. -/
def uviParentLoop (env : Env) (st : St) : List Hash → Finset Hash → Option (Finset Hash)
  | [], acc => some acc
  | p :: rest, acc =>
    match st.lookupRec p with
    | none => none
    | some rp =>
      if oFinsetTruthy rp.meta.voided_by then
        match filter_out_soft_voided_entries env st p (rp.meta.voided_by.getD ∅) with
        | none => none
        | some f => uviParentLoop env st rest (acc ∪ f)
      else uviParentLoop env st rest acc

/-- The input union of `update_voided_info` (lines 801-806): union of the
`voided_by` of the spent records, discarding the sentinel after each
union. -/
def uviInputLoop (env : Env) (st : St) : List (Hash × Nat) → Finset Hash → Option (Finset Hash)
  | [], v => some v
  | i :: rest, v =>
    match st.lookupRec i.1 with
    | none => none
    | some rs =>
      uviInputLoop env st rest
        (if oFinsetTruthy rs.meta.voided_by
         then (v ∪ rs.meta.voided_by.getD ∅).erase env.SOFT_VOIDED_ID else v)

/-- `BlockConsensusAlgorithm.remove_first_block_markers`'s BFS
(lines 544-557): walk the verification DAG backwards, clear matching
`first_block` pointers, prune at blocks and at non-matching
transactions. -/
def rfbmLoop (b : Hash) : Nat → List Hash → List Hash → St → Option St
  | 0, _, _, _ => none
  | _ + 1, [], _, st => some st
  | fuel + 1, u :: q, seen, st =>
    match st.lookupRec u with
    | none => none
    | some r =>
      if r.is_block then rfbmLoop b fuel q seen st
      else if ¬ r.meta.first_block = some b then rfbmLoop b fuel q seen st
      else
        let st := (st.setMeta u fun m => { m with first_block := none }).saveTx u
        let p := enqueue seen q r.parents
        rfbmLoop b fuel p.2 p.1 st

/-- `BlockConsensusAlgorithm.remove_first_block_markers`
(lines 538-557), `skip_root=True`. -/
def removeFirstBlockMarkers (fuel : Nat) (st : St) (b : Hash) : Option St :=
  match st.lookupRec b with
  | none => none
  | some r =>
    let p := enqueue [b] [] r.parents
    rfbmLoop b fuel p.2 p.1 st

/-- The mutually recursive operation calls interpreted by `run`; the
loop constructors carry the BFS queue, visited set and pending
check-list. -/
inductive Call where
  | checkConflicts (t : Hash)
  | ccVoidLoop (t : Hash) (cs : List Hash) (ties : List Hash)
  | markAsWinner (t : Hash)
  | markAsVoidedTx (t : Hash)
  | txAddVoidedBy (t h : Hash)
  | txAddLoop (h root : Hash) (verif : Bool) (queue seen cl : List Hash)
  | checkListAll (cs : List Hash)
  | txRemoveVoidedBy (t h : Hash)
  | txRemoveLoop (h : Hash) (queue seen cl : List Hash)
  | checkListSkipBlocks (cs : List Hash)
  | blockMarkAsVoided (b : Hash) (skipMarkers : Bool)
  | blockAddVoidedBy (b : Hash) (vh : Option Hash)
  | blockAddSpenders (vh : Hash) (hs : List Hash)
  | blockRemoveVoidedBy (b : Hash) (vh : Option Hash)
  | blockRemoveSpenders (vh : Hash) (hs : List Hash)
  | updateVoidedInfo (t : Hash)
  | uviCheckLoop (t : Hash) (hs : List Hash)
  | uviMarkLoop (hs : List Hash)
  deriving DecidableEq

/-- The type of the recursive interpreter handed to each step. -/
abbrev Recur := Call → St → Option (St × Bool)

/-- `TransactionConsensusAlgorithm.check_conflicts` (lines 873-932) up to
the two final loops (handed to `ccVoidLoop`). -/
def stepCheckConflicts (env : Env) (recur : Recur) (t : Hash) (st : St) :
    Option (St × Bool) :=
  match st.lookupRec t with
  | none => none
  | some tx =>
    if tx.is_block then none
    else if ¬ tx.meta.voided_by = some {t} then some (st, true)
    else
      let cs := tx.meta.conflict_with.getD []
      match ccCollectRecs st cs with
      | none => none
      | some pairs =>
        let candidates := pairs.filter ccIsCandidate
        let awt := tx.meta.accumulated_weight
        if ¬ candidates.all (fun p =>
            !(oFinsetTruthy p.2.meta.voided_by &&
              decide (awt < p.2.meta.accumulated_weight))) then
          some (st, true)
        else
          match ccWeightLoop env awt (candidates.map Prod.fst) [] st with
          | none => none
          | some (st1, false, _) => some (st1, true)
          | some (st1, true, ties) => recur (.ccVoidLoop t cs ties) st1

/-- The final loops of `check_conflicts` (lines 927-932): void every
conflict, then crown the winner when there was no tie. -/
def stepCcVoidLoop (recur : Recur) (t : Hash) (cs ties : List Hash) (st : St) :
    Option (St × Bool) :=
  match cs with
  | [] => if ties = [] then recur (.markAsWinner t) st else some (st, true)
  | c :: rest =>
    match recur (.markAsVoidedTx c) st with
    | none => none
    | some (st1, _) => recur (.ccVoidLoop t rest ties) st1

/-- `TransactionConsensusAlgorithm.mark_as_winner` (lines 934-945). -/
def stepMarkAsWinner (env : Env) (recur : Recur) (t : Hash) (st : St) :
    Option (St × Bool) :=
  match st.lookupRec t with
  | none => none
  | some tx =>
    if tx.is_block then none
    else
      let st := st.pushEvent (.markAsWinner t)
      if ¬ oListTruthy tx.meta.conflict_with then none
      else if ¬ tx.meta.voided_by = some {t} then none
      else if t ∈ env.soft_voided_tx_ids then none
      else
        match recur (.txRemoveVoidedBy t t) st with
        | none => none
        | some (st1, _) =>
          match assertValidConsensus st1 t with
          | none => none
          | some _ => some (st1, true)

/-- `TransactionConsensusAlgorithm.mark_as_voided` (lines 990-1001). -/
def stepMarkAsVoidedTx (recur : Recur) (t : Hash) (st : St) : Option (St × Bool) :=
  match st.lookupRec t with
  | none => none
  | some tx =>
    if tx.is_block then none
    else
      let st := st.pushEvent (.markAsVoided t)
      if ¬ oListTruthy tx.meta.conflict_with then none
      else if oFinsetTruthy tx.meta.voided_by && decide (t ∈ tx.meta.voided_by.getD ∅) then
        some (st, true)
      else
        match recur (.txAddVoidedBy t t) st with
        | none => none
        | some (st1, _) =>
          match assertValidConsensus st1 t with
          | none => none
          | some _ => some (st1, true)

/-- `TransactionConsensusAlgorithm.add_voided_by` entry (lines 1003-1022). -/
def stepTxAddVoidedBy (env : Env) (recur : Recur) (t h : Hash) (st : St) :
    Option (St × Bool) :=
  match st.lookupRec t with
  | none => none
  | some tx =>
    if tx.is_block then none
    else if oFinsetTruthy tx.meta.voided_by && decide (h ∈ tx.meta.voided_by.getD ∅) then
      some (st, false)
    else recur (.txAddLoop h t (txAddVoidedByDagVerifications env tx.meta) [t] [t] []) st

/-- The BFS body of the transaction `add_voided_by` (lines 1024-1048),
one visited node per step. -/
def stepTxAddLoop (env : Env) (recur : Recur) (h root : Hash) (verif : Bool)
    (queue seen cl : List Hash) (st : St) : Option (St × Bool) :=
  match queue with
  | [] => recur (.checkListAll cl) st
  | u :: q =>
    match st.lookupRec u with
    | none => none
    | some r =>
      match (if r.is_block then
              match recur (.blockMarkAsVoided u false) st with
              | none => none
              | some (st1, _) => some (st1.pushEvent (.updateBestTipsCache none))
            else some st) with
      | none => none
      | some st2 =>
        match st2.lookupRec u with
        | none => none
        | some r2 =>
          if oFinsetTruthy r2.meta.voided_by && decide (h ∈ r2.meta.voided_by.getD ∅) then
            none
          else
            let ext := if u ≠ root && oListTruthy r2.meta.conflict_with &&
                !(oFinsetTruthy r2.meta.voided_by) then r2.meta.conflict_with.getD [] else []
            if ¬ ext.all (fun d => (st2.lookupRec d).isSome) then none
            else
              let st3 := st2.setMeta u fun m =>
                { m with voided_by := some (insert h (m.voided_by.getD ∅)) }
              match (if oListTruthy r2.meta.conflict_with then
                      if r2.is_block then none
                      else
                        match recur (.markAsVoidedTx u) st3 with
                        | none => none
                        | some (st4, _) =>
                          some (st4.setMeta u fun m =>
                            { m with accumulated_weight := env.refreshAW u none })
                    else some st3) with
              | none => none
              | some st5 =>
                let st6 := (st5.saveTx u).pushEvent (.delFromIndexes u)
                match assertValidConsensus st6 u with
                | none => none
                | some _ =>
                  let p := enqueue seen q (walkNeighborsLTR true verif r2)
                  recur (.txAddLoop h root verif p.2 p.1 (cl ++ ext)) st6

/-- The post-walk conflict re-checks of the transaction `add_voided_by`
(lines 1050-1051; every entry was cast to `Transaction`). -/
def stepCheckListAll (recur : Recur) (cs : List Hash) (st : St) : Option (St × Bool) :=
  match cs with
  | [] => some (st, true)
  | c :: rest =>
    match recur (.checkConflicts c) st with
    | none => none
    | some (st1, _) => recur (.checkListAll rest) st1

/-- `TransactionConsensusAlgorithm.remove_voided_by` entry
(lines 947-964). -/
def stepTxRemoveVoidedBy (recur : Recur) (t h : Hash) (st : St) : Option (St × Bool) :=
  match st.lookupRec t with
  | none => none
  | some tx =>
    if tx.is_block then none
    else if ¬ oFinsetTruthy tx.meta.voided_by then some (st, false)
    else if h ∉ tx.meta.voided_by.getD ∅ then some (st, false)
    else recur (.txRemoveLoop h [t] [t] []) st

/-- The BFS body of the transaction `remove_voided_by` (lines 966-981):
a visited node not carrying `h` is skipped with its subtree; otherwise
`h` is removed, an emptied `voided_by` becomes absent and the record
rejoins the indexes, and a node left with only its self-void is queued
for re-checking. -/
def stepTxRemoveLoop (recur : Recur) (h : Hash) (queue seen cl : List Hash) (st : St) :
    Option (St × Bool) :=
  match queue with
  | [] => recur (.checkListSkipBlocks cl) st
  | u :: q =>
    match st.lookupRec u with
    | none => none
    | some r =>
      if ¬ (oFinsetTruthy r.meta.voided_by && decide (h ∈ r.meta.voided_by.getD ∅)) then
        recur (.txRemoveLoop h q seen cl) st
      else
        let vb2 := (r.meta.voided_by.getD ∅).erase h
        let st1 := st.setMeta u fun m =>
          { m with voided_by := if vb2 = ∅ then none else some vb2 }
        let st2 := if vb2 = ∅ then st1.pushEvent (.addToIndexes u) else st1
        let st3 := st2.saveTx u
        match assertValidConsensus st3 u with
        | none => none
        | some _ =>
          let p := enqueue seen q (walkNeighborsLTR true true r)
          recur (.txRemoveLoop h p.2 p.1 (if vb2 = {u} then cl ++ [u] else cl)) st3

/-- The post-walk conflict re-checks of the transaction
`remove_voided_by` (lines 984-987): blocks are skipped. -/
def stepCheckListSkipBlocks (recur : Recur) (cs : List Hash) (st : St) :
    Option (St × Bool) :=
  match cs with
  | [] => some (st, true)
  | c :: rest =>
    match st.lookupRec c with
    | none => none
    | some r =>
      if r.is_block then recur (.checkListSkipBlocks rest) st
      else
        match recur (.checkConflicts c) st with
        | none => none
        | some (st1, _) => recur (.checkListSkipBlocks rest) st1

/-- `BlockConsensusAlgorithm.mark_as_voided` (lines 466-473). -/
def stepBlockMarkAsVoided (recur : Recur) (fuel : Nat) (b : Hash) (skipMarkers : Bool)
    (st : St) : Option (St × Bool) :=
  match st.lookupRec b with
  | none => none
  | some r =>
    if ¬ r.is_block then none
    else
      match (if skipMarkers then some st else removeFirstBlockMarkers fuel st b) with
      | none => none
      | some st1 => recur (.blockAddVoidedBy b none) st1

/-- `BlockConsensusAlgorithm.add_voided_by` (lines 475-504). -/
def stepBlockAddVoidedBy (recur : Recur) (b : Hash) (vho : Option Hash) (st : St) :
    Option (St × Bool) :=
  match st.lookupRec b with
  | none => none
  | some r =>
    if ¬ r.is_block then none
    else
      let vh := vho.getD b
      let st1 := if ¬ oFinsetTruthy r.meta.voided_by
                 then st.setMeta b (fun m => { m with voided_by := some ∅ }) else st
      match st1.lookupRec b with
      | none => none
      | some r2 =>
        if vh ∈ r2.meta.voided_by.getD ∅ then some (st1, false)
        else
          let st2 := (st1.setMeta b fun m =>
            { m with voided_by := some (insert vh (m.voided_by.getD ∅)) }).saveTx b
          recur (.blockAddSpenders vh (fundsChildren r2)) st2

/-- The spender loop of the block `add_voided_by` (lines 499-504): each
spender must be a transaction. -/
def stepBlockAddSpenders (recur : Recur) (vh : Hash) (hs : List Hash) (st : St) :
    Option (St × Bool) :=
  match hs with
  | [] => some (st, true)
  | x :: rest =>
    match st.lookupRec x with
    | none => none
    | some rx =>
      if rx.is_block then none
      else
        match recur (.txAddVoidedBy x vh) st with
        | none => none
        | some (st1, _) => recur (.blockAddSpenders vh rest) st1

/-- `BlockConsensusAlgorithm.remove_voided_by` (lines 506-536). -/
def stepBlockRemoveVoidedBy (recur : Recur) (b : Hash) (vho : Option Hash) (st : St) :
    Option (St × Bool) :=
  match st.lookupRec b with
  | none => none
  | some r =>
    if ¬ r.is_block then none
    else
      let vh := vho.getD b
      if ¬ oFinsetTruthy r.meta.voided_by then some (st, false)
      else if vh ∉ r.meta.voided_by.getD ∅ then some (st, false)
      else
        let vb2 := (r.meta.voided_by.getD ∅).erase vh
        let st1 := (st.setMeta b fun m =>
          { m with voided_by := if vb2 = ∅ then none else some vb2 }).saveTx b
        recur (.blockRemoveSpenders vh (fundsChildren r)) st1

/-- The spender loop of the block `remove_voided_by` (lines 531-536). -/
def stepBlockRemoveSpenders (recur : Recur) (vh : Hash) (hs : List Hash) (st : St) :
    Option (St × Bool) :=
  match hs with
  | [] => some (st, true)
  | x :: rest =>
    match st.lookupRec x with
    | none => none
    | some rx =>
      if rx.is_block then none
      else
        match recur (.txRemoveVoidedBy x vh) st with
        | none => none
        | some (st1, _) => recur (.blockRemoveSpenders vh rest) st1

/-- Lines 823-827 of `update_voided_info`: extend the voided set with the
sentinel and the transaction's own hash when it is soft-voided, and with
its own hash when it has conflicts. -/
def uviSelfVoided (env : Env) (t : Hash) (cw : Option (List Hash)) (v2 : Finset Hash) :
    Finset Hash :=
  let v3 := if t ∈ env.soft_voided_tx_ids then insert env.SOFT_VOIDED_ID (insert t v2) else v2
  if oListTruthy cw then insert t v3 else v3

/-- `TransactionConsensusAlgorithm.update_voided_info` (lines 784-860). -/
def stepUpdateVoidedInfo (env : Env) (recur : Recur) (t : Hash) (st : St) :
    Option (St × Bool) :=
  match st.lookupRec t with
  | none => none
  | some tx =>
    if tx.is_block then none
    else
      match uviParentLoop env st tx.parents ∅ with
      | none => none
      | some v1 =>
        if env.SOFT_VOIDED_ID ∈ v1 then none
        else if ¬ env.soft_voided_tx_ids ∩ v1 = ∅ then none
        else
          match uviInputLoop env st tx.inputs v1 with
          | none => none
          | some v2 =>
            if env.SOFT_VOIDED_ID ∈ v2 then none
            else if t ∈ v2 then none
            else
              match uviAwLoop env tx.weight (iterFinset v2) st with
              | none => none
              | some st1 =>
                match st1.lookupRec t with
                | none => none
                | some tx1 =>
                  if ¬ (!(oFinsetTruthy tx1.meta.voided_by) ||
                        decide (tx1.meta.voided_by = some {t})) then none
                  else if ¬ tx1.meta.accumulated_weight = tx.weight then none
                  else
                    let v4 := uviSelfVoided env t tx1.meta.conflict_with v2
                    let st2 := if ¬ v4 = ∅ then
                        ((st1.setMeta t fun m =>
                          { m with voided_by := some v4 }).saveTx t).pushEvent
                          (.delFromIndexes t)
                      else st1
                    match recur (.uviCheckLoop t (iterFinset v4)) st2 with
                    | none => none
                    | some (st3, _) =>
                      match st3.lookupRec t with
                      | none => none
                      | some tx3 =>
                        match recur (.uviMarkLoop (tx3.meta.conflict_with.getD [])) st3 with
                        | none => none
                        | some (st4, _) =>
                          match st4.lookupRec t with
                          | none => none
                          | some tx4 =>
                            match (if tx4.meta.voided_by = some {t}
                                   then recur (.checkConflicts t) st4
                                   else some (st4, true)) with
                            | none => none
                            | some (st5, _) =>
                              match assertValidConsensus st5 t with
                              | none => none
                              | some _ => some (st5, true)

/-- The conflict checks of `update_voided_info` (lines 837-845): skip the
sentinel and the transaction itself, run `check_conflicts` on
transactions. -/
def stepUviCheckLoop (env : Env) (recur : Recur) (t : Hash) (hs : List Hash) (st : St) :
    Option (St × Bool) :=
  match hs with
  | [] => some (st, true)
  | x :: rest =>
    if x = env.SOFT_VOIDED_ID ∨ x = t then recur (.uviCheckLoop t rest) st
    else
      match st.lookupRec x with
      | none => none
      | some r =>
        if r.is_block then recur (.uviCheckLoop t rest) st
        else
          match recur (.checkConflicts x) st with
          | none => none
          | some (st1, _) => recur (.uviCheckLoop t rest) st1

/-- The voided-conflict marking of `update_voided_info` (lines 848-852). -/
def stepUviMarkLoop (recur : Recur) (hs : List Hash) (st : St) : Option (St × Bool) :=
  match hs with
  | [] => some (st, true)
  | x :: rest =>
    match st.lookupRec x with
    | none => none
    | some r =>
      if oFinsetTruthy r.meta.voided_by then
        match recur (.markAsVoidedTx x) st with
        | none => none
        | some (st1, _) => recur (.uviMarkLoop rest) st1
      else recur (.uviMarkLoop rest) st

/-- Dispatch one call to its step. -/
def runBody (env : Env) (recur : Recur) (fuel : Nat) : Call → St → Option (St × Bool)
  | .checkConflicts t, st => stepCheckConflicts env recur t st
  | .ccVoidLoop t cs ties, st => stepCcVoidLoop recur t cs ties st
  | .markAsWinner t, st => stepMarkAsWinner env recur t st
  | .markAsVoidedTx t, st => stepMarkAsVoidedTx recur t st
  | .txAddVoidedBy t h, st => stepTxAddVoidedBy env recur t h st
  | .txAddLoop h root verif queue seen cl, st =>
    stepTxAddLoop env recur h root verif queue seen cl st
  | .checkListAll cs, st => stepCheckListAll recur cs st
  | .txRemoveVoidedBy t h, st => stepTxRemoveVoidedBy recur t h st
  | .txRemoveLoop h queue seen cl, st => stepTxRemoveLoop recur h queue seen cl st
  | .checkListSkipBlocks cs, st => stepCheckListSkipBlocks recur cs st
  | .blockMarkAsVoided b skipMarkers, st => stepBlockMarkAsVoided recur fuel b skipMarkers st
  | .blockAddVoidedBy b vh, st => stepBlockAddVoidedBy recur b vh st
  | .blockAddSpenders vh hs, st => stepBlockAddSpenders recur vh hs st
  | .blockRemoveVoidedBy b vh, st => stepBlockRemoveVoidedBy recur b vh st
  | .blockRemoveSpenders vh hs, st => stepBlockRemoveSpenders recur vh hs st
  | .updateVoidedInfo t, st => stepUpdateVoidedInfo env recur t st
  | .uviCheckLoop t hs, st => stepUviCheckLoop env recur t hs st
  | .uviMarkLoop hs, st => stepUviMarkLoop recur hs st

/-- The fuel-indexed interpreter of the consensus operations. -/
def run (env : Env) : Nat → Call → St → Option (St × Bool)
  | 0, _, _ => none
  | fuel + 1, c, st => runBody env (fun c' st' => run env fuel c' st') fuel c st

/-- Unfold one fuel step of `run`. -/
theorem run_succ (env : Env) (fuel : Nat) (c : Call) (st : St) :
    run env (fuel + 1) c st = runBody env (fun c' st' => run env fuel c' st') fuel c st := by
  rw [run]

/-! ### C8: frame property of `check_conflicts` -/

/-- C8: when `voided_by(t)` is not exactly `{t.hash}` (absent, empty,
containing another hash, or larger than the self-void),
`check_conflicts(t)` returns immediately (lines 884-885) leaving the
whole state — every record's metadata, the affected set and the emitted
events — unchanged. -/
theorem claimC8_checkConflicts_frame (env : Env) (n : Nat) (st : St) (t : Hash)
    (tx : Record) (hlk : st.lookupRec t = some tx) (hblk : tx.is_block = false)
    (hvb : ¬ tx.meta.voided_by = some {t}) :
    run env (n + 1) (.checkConflicts t) st = some (st, true) := by
  rw [run_succ]
  simp [runBody, stepCheckConflicts, hlk, hblk, hvb]

/-- C8 witness: a record whose `voided_by` contains a foreign hash is
left untouched by `check_conflicts`. -/
theorem claimC8_witness :
    run { SOFT_VOIDED_ID := 0 } 1 (.checkConflicts 1)
      { recs := [(1, { meta := { voided_by := some {2} } })] } =
      some ({ recs := [(1, { meta := { voided_by := some {2} } })] }, true) :=
  claimC8_checkConflicts_frame _ 0 _ 1 { meta := { voided_by := some {2} } }
    (by decide) (by decide) (by decide)

/-! ### C9: benign skips -/

/-- The calls that may report `False`: the four `add_voided_by` /
`remove_voided_by` entries (and `block.mark_as_voided`, which forwards
the block `add_voided_by` result). -/
def benignSkippable : Call → Bool
  | .txAddVoidedBy _ _ => true
  | .txRemoveVoidedBy _ _ => true
  | .blockAddVoidedBy _ _ => true
  | .blockRemoveVoidedBy _ _ => true
  | .blockMarkAsVoided _ _ => true
  | _ => false

set_option maxHeartbeats 3000000 in
/-- Every successful call other than the four add/remove entries (and
`block.mark_as_voided`) reports `True`. -/
theorem run_res_true (env : Env) :
    ∀ n c st st' res, benignSkippable c = false →
      run env n c st = some (st', res) → res = true := by
  intro n
  induction n with
  | zero => intro c st st' res _ h; cases h
  | succ n ih =>
    intro c st st' res hben hrun
    rw [run_succ] at hrun
    cases c with
    | txAddVoidedBy t h => simp [benignSkippable] at hben
    | txRemoveVoidedBy t h => simp [benignSkippable] at hben
    | blockAddVoidedBy b vh => simp [benignSkippable] at hben
    | blockRemoveVoidedBy b vh => simp [benignSkippable] at hben
    | blockMarkAsVoided b s => simp [benignSkippable] at hben
    | checkConflicts t =>
      simp only [runBody, stepCheckConflicts] at hrun
      iterate 18 (all_goals try split at hrun)
      all_goals first
        | exact Option.noConfusion hrun
        | (simp only [Option.some.injEq, Prod.mk.injEq] at hrun; exact hrun.2.symm)
        | (refine ih _ _ _ _ ?_ hrun; rfl)
    | ccVoidLoop t cs ties =>
      simp only [runBody, stepCcVoidLoop] at hrun
      iterate 18 (all_goals try split at hrun)
      all_goals first
        | exact Option.noConfusion hrun
        | (simp only [Option.some.injEq, Prod.mk.injEq] at hrun; exact hrun.2.symm)
        | (refine ih _ _ _ _ ?_ hrun; rfl)
    | markAsWinner t =>
      simp only [runBody, stepMarkAsWinner] at hrun
      iterate 18 (all_goals try split at hrun)
      all_goals first
        | exact Option.noConfusion hrun
        | (simp only [Option.some.injEq, Prod.mk.injEq] at hrun; exact hrun.2.symm)
        | (refine ih _ _ _ _ ?_ hrun; rfl)
    | markAsVoidedTx t =>
      simp only [runBody, stepMarkAsVoidedTx] at hrun
      iterate 18 (all_goals try split at hrun)
      all_goals first
        | exact Option.noConfusion hrun
        | (simp only [Option.some.injEq, Prod.mk.injEq] at hrun; exact hrun.2.symm)
        | (refine ih _ _ _ _ ?_ hrun; rfl)
    | txAddLoop h root verif queue seen cl =>
      simp only [runBody, stepTxAddLoop] at hrun
      iterate 18 (all_goals try split at hrun)
      all_goals first
        | exact Option.noConfusion hrun
        | (simp only [Option.some.injEq, Prod.mk.injEq] at hrun; exact hrun.2.symm)
        | (refine ih _ _ _ _ ?_ hrun; rfl)
    | checkListAll cs =>
      simp only [runBody, stepCheckListAll] at hrun
      iterate 18 (all_goals try split at hrun)
      all_goals first
        | exact Option.noConfusion hrun
        | (simp only [Option.some.injEq, Prod.mk.injEq] at hrun; exact hrun.2.symm)
        | (refine ih _ _ _ _ ?_ hrun; rfl)
    | txRemoveLoop h queue seen cl =>
      simp only [runBody, stepTxRemoveLoop] at hrun
      iterate 18 (all_goals try split at hrun)
      all_goals first
        | exact Option.noConfusion hrun
        | (simp only [Option.some.injEq, Prod.mk.injEq] at hrun; exact hrun.2.symm)
        | (refine ih _ _ _ _ ?_ hrun; rfl)
    | checkListSkipBlocks cs =>
      simp only [runBody, stepCheckListSkipBlocks] at hrun
      iterate 18 (all_goals try split at hrun)
      all_goals first
        | exact Option.noConfusion hrun
        | (simp only [Option.some.injEq, Prod.mk.injEq] at hrun; exact hrun.2.symm)
        | (refine ih _ _ _ _ ?_ hrun; rfl)
    | blockAddSpenders vh hs =>
      simp only [runBody, stepBlockAddSpenders] at hrun
      iterate 18 (all_goals try split at hrun)
      all_goals first
        | exact Option.noConfusion hrun
        | (simp only [Option.some.injEq, Prod.mk.injEq] at hrun; exact hrun.2.symm)
        | (refine ih _ _ _ _ ?_ hrun; rfl)
    | blockRemoveSpenders vh hs =>
      simp only [runBody, stepBlockRemoveSpenders] at hrun
      iterate 18 (all_goals try split at hrun)
      all_goals first
        | exact Option.noConfusion hrun
        | (simp only [Option.some.injEq, Prod.mk.injEq] at hrun; exact hrun.2.symm)
        | (refine ih _ _ _ _ ?_ hrun; rfl)
    | updateVoidedInfo t =>
      simp only [runBody, stepUpdateVoidedInfo] at hrun
      iterate 18 (all_goals try split at hrun)
      all_goals first
        | exact Option.noConfusion hrun
        | (simp only [Option.some.injEq, Prod.mk.injEq] at hrun; exact hrun.2.symm)
        | (refine ih _ _ _ _ ?_ hrun; rfl)
    | uviCheckLoop t hs =>
      simp only [runBody, stepUviCheckLoop] at hrun
      iterate 18 (all_goals try split at hrun)
      all_goals first
        | exact Option.noConfusion hrun
        | (simp only [Option.some.injEq, Prod.mk.injEq] at hrun; exact hrun.2.symm)
        | (refine ih _ _ _ _ ?_ hrun; rfl)
    | uviMarkLoop hs =>
      simp only [runBody, stepUviMarkLoop] at hrun
      iterate 18 (all_goals try split at hrun)
      all_goals first
        | exact Option.noConfusion hrun
        | (simp only [Option.some.injEq, Prod.mk.injEq] at hrun; exact hrun.2.symm)
        | (refine ih _ _ _ _ ?_ hrun; rfl)

/-- A hash can only be a member of a truthy optional set. -/
theorem oFinsetTruthy_of_mem {o : Option (Finset Hash)} {a : Hash}
    (h : a ∈ o.getD ∅) : oFinsetTruthy o = true := by
  cases o with
  | none => simp at h
  | some s =>
    simp only [oFinsetTruthy, decide_eq_true_eq]
    intro c
    subst c
    simp at h

/-- C9: idempotent voidance bookkeeping, both variants.
(1) `Block.add_voided_by(b, h)` with `h` already in `voided_by(b)`
returns `False` and changes nothing; (2) otherwise it reports `True`.
(3) `Block.remove_voided_by(b, h)` with `voided_by(b)` absent/empty or
`h` missing returns `False` and changes nothing; (4) otherwise `True`.
(5)/(6) and (7)/(8): the same for the transaction variants.
(9)/(10): a removal that empties `voided_by` stores `None` (absent), not
an empty set, in both variants. -/
theorem claimC9_benign_skips (env : Env) :
    (∀ n st b r vh, st.lookupRec b = some r → r.is_block = true →
      vh ∈ r.meta.voided_by.getD ∅ →
      run env (n + 1) (.blockAddVoidedBy b (some vh)) st = some (st, false)) ∧
    (∀ n st b r vh st' res, st.lookupRec b = some r → r.is_block = true →
      vh ∉ r.meta.voided_by.getD ∅ →
      run env n (.blockAddVoidedBy b (some vh)) st = some (st', res) → res = true) ∧
    (∀ n st b r vh, st.lookupRec b = some r → r.is_block = true →
      ¬ (oFinsetTruthy r.meta.voided_by = true ∧ vh ∈ r.meta.voided_by.getD ∅) →
      run env (n + 1) (.blockRemoveVoidedBy b (some vh)) st = some (st, false)) ∧
    (∀ n st b r vh st' res, st.lookupRec b = some r → r.is_block = true →
      oFinsetTruthy r.meta.voided_by = true → vh ∈ r.meta.voided_by.getD ∅ →
      run env n (.blockRemoveVoidedBy b (some vh)) st = some (st', res) → res = true) ∧
    (∀ n st t r h, st.lookupRec t = some r → r.is_block = false →
      h ∈ r.meta.voided_by.getD ∅ →
      run env (n + 1) (.txAddVoidedBy t h) st = some (st, false)) ∧
    (∀ n st t r h st' res, st.lookupRec t = some r → r.is_block = false →
      h ∉ r.meta.voided_by.getD ∅ →
      run env n (.txAddVoidedBy t h) st = some (st', res) → res = true) ∧
    (∀ n st t r h, st.lookupRec t = some r → r.is_block = false →
      ¬ (oFinsetTruthy r.meta.voided_by = true ∧ h ∈ r.meta.voided_by.getD ∅) →
      run env (n + 1) (.txRemoveVoidedBy t h) st = some (st, false)) ∧
    (∀ n st t r h st' res, st.lookupRec t = some r → r.is_block = false →
      oFinsetTruthy r.meta.voided_by = true → h ∈ r.meta.voided_by.getD ∅ →
      run env n (.txRemoveVoidedBy t h) st = some (st', res) → res = true) ∧
    (∀ n st b r vh, st.lookupRec b = some r → r.is_block = true →
      r.meta.voided_by = some {vh} → fundsChildren r = [] →
      ∃ st1, run env (n + 2) (.blockRemoveVoidedBy b (some vh)) st = some (st1, true) ∧
        (st1.lookupRec b).map (fun x => x.meta.voided_by) = some none) ∧
    (∀ n st t r h, st.lookupRec t = some r → r.is_block = false →
      r.meta.voided_by = some {h} → walkNeighborsLTR true true r = [] →
      r.meta.conflict_with.getD [] = [] →
      ∃ st1, run env (n + 4) (.txRemoveVoidedBy t h) st = some (st1, true) ∧
        (st1.lookupRec t).map (fun x => x.meta.voided_by) = some none) := by
  refine ⟨?_, ?_, ?_, ?_, ?_, ?_, ?_, ?_, ?_, ?_⟩
  · intro n st b r vh hlk hblk hin
    have ht := oFinsetTruthy_of_mem hin
    rw [run_succ]
    simp [runBody, stepBlockAddVoidedBy, hlk, hblk, ht, hin]
  · intro n st b r vh st' res hlk hblk hnin hrun
    cases n with
    | zero => cases hrun
    | succ n =>
      rw [run_succ] at hrun
      cases hvb : r.meta.voided_by with
      | none =>
        simp [runBody, stepBlockAddVoidedBy, hlk, hblk, hvb, oFinsetTruthy,
          lookupRec_setMeta_self] at hrun
        exact run_res_true env n _ _ _ _ (by exact rfl) hrun
      | some s =>
        by_cases hs : s = ∅
        · subst hs
          simp [runBody, stepBlockAddVoidedBy, hlk, hblk, hvb, oFinsetTruthy,
            lookupRec_setMeta_self] at hrun
          exact run_res_true env n _ _ _ _ (by exact rfl) hrun
        · have hnin2 : vh ∉ s := by simpa [hvb] using hnin
          simp [runBody, stepBlockAddVoidedBy, hlk, hblk, hvb, oFinsetTruthy, hs,
            hnin2] at hrun
          exact run_res_true env n _ _ _ _ (by exact rfl) hrun
  · intro n st b r vh hlk hblk hskip
    rw [run_succ]
    by_cases ht : oFinsetTruthy r.meta.voided_by = true
    · have hs : vh ∉ r.meta.voided_by.getD ∅ := fun c => hskip ⟨ht, c⟩
      simp [runBody, stepBlockRemoveVoidedBy, hlk, hblk, ht, hs]
    · simp [runBody, stepBlockRemoveVoidedBy, hlk, hblk, ht]
  · intro n st b r vh st' res hlk hblk ht hin hrun
    cases n with
    | zero => cases hrun
    | succ n =>
      rw [run_succ] at hrun
      simp [runBody, stepBlockRemoveVoidedBy, hlk, hblk, ht, hin] at hrun
      exact run_res_true env n _ _ _ _ (by exact rfl) hrun
  · intro n st t r h hlk hblk hin
    have ht := oFinsetTruthy_of_mem hin
    rw [run_succ]
    simp [runBody, stepTxAddVoidedBy, hlk, hblk, ht, hin]
  · intro n st t r h st' res hlk hblk hnin hrun
    cases n with
    | zero => cases hrun
    | succ n =>
      rw [run_succ] at hrun
      simp [runBody, stepTxAddVoidedBy, hlk, hblk, hnin] at hrun
      exact run_res_true env n _ _ _ _ (by exact rfl) hrun
  · intro n st t r h hlk hblk hskip
    rw [run_succ]
    by_cases ht : oFinsetTruthy r.meta.voided_by = true
    · have hs : h ∉ r.meta.voided_by.getD ∅ := fun c => hskip ⟨ht, c⟩
      simp [runBody, stepTxRemoveVoidedBy, hlk, hblk, ht, hs]
    · simp [runBody, stepTxRemoveVoidedBy, hlk, hblk, ht]
  · intro n st t r h st' res hlk hblk ht hin hrun
    cases n with
    | zero => cases hrun
    | succ n =>
      rw [run_succ] at hrun
      simp [runBody, stepTxRemoveVoidedBy, hlk, hblk, ht, hin] at hrun
      exact run_res_true env n _ _ _ _ (by exact rfl) hrun
  · intro n st b r vh hlk hblk hvb hfc
    rw [run_succ]
    simp only [runBody, stepBlockRemoveVoidedBy, hlk, hblk, hvb, hfc]
    rw [run_succ]
    simp only [runBody, stepBlockRemoveSpenders]
    refine ⟨(st.setMeta b fun m => { m with voided_by := none }).saveTx b, ?_, ?_⟩
    · simp [oFinsetTruthy, Finset.erase_singleton]
    · rw [lookupRec_saveTx, lookupRec_setMeta_self, hlk]
      simp
  · intro n st t r h hlk hblk hvb hnb hcw
    rw [run_succ]
    simp only [runBody, stepTxRemoveVoidedBy, hlk, hblk, hvb]
    rw [run_succ]
    simp only [runBody, stepTxRemoveLoop, hlk, hvb, hnb]
    simp only [Option.getD_some, Finset.mem_singleton, Finset.erase_singleton, enqueue,
      List.foldl_nil, oFinsetTruthy]
    simp only [Finset.singleton_ne_empty, not_false_eq_true, decide_True, Bool.not_true,
      Bool.not_false, Bool.and_self, if_pos rfl, if_true, Bool.false_eq_true, if_false,
      not_true_eq_false, Finset.not_mem_empty]
    rw [if_neg (Ne.symm (Finset.singleton_ne_empty t))]
    have havc : assertValidConsensus
        ((((st.setMeta t fun m => { m with voided_by := none }).pushEvent
          (.addToIndexes t)).saveTx t)) t = some () := by
      rw [assertValidConsensus, lookupRec_saveTx, lookupRec_pushEvent,
        lookupRec_setMeta_self, hlk]
      simp [hcw, avcLoop]
    rw [havc]
    rw [run_succ]
    simp only [runBody, stepTxRemoveLoop]
    rw [run_succ]
    simp only [runBody, stepCheckListSkipBlocks]
    refine ⟨((st.setMeta t fun m => { m with voided_by := none }).pushEvent
      (.addToIndexes t)).saveTx t, rfl, ?_⟩
    rw [lookupRec_saveTx, lookupRec_pushEvent, lookupRec_setMeta_self, hlk]
    simp

/-- Concrete environment for the C9 witness. -/
def envC9 : Env := { SOFT_VOIDED_ID := 0 }

/-- Concrete state for the C9 witness: two blocks (`1` voided by `5`,
`2` voided by `6`) and two transactions (`3` voided by `4`, `4`
self-voided). -/
def stC9 : St :=
  { recs := [
      (1, { is_block := true, meta := { voided_by := some {5} } }),
      (2, { is_block := true, meta := { voided_by := some {6} } }),
      (3, { meta := { voided_by := some {4} } }),
      (4, { meta := { voided_by := some {4} } })] }

/-- C9 witness: concrete runs of all ten components of the benign-skip
theorem. -/
theorem claimC9_witness :
    run envC9 1 (.blockAddVoidedBy 1 (some 5)) stC9 = some (stC9, false) ∧
    (∃ st' res, run envC9 2 (.blockAddVoidedBy 2 (some 9)) stC9 = some (st', res) ∧
      res = true) ∧
    run envC9 1 (.blockRemoveVoidedBy 1 (some 9)) stC9 = some (stC9, false) ∧
    (∃ st' res, run envC9 2 (.blockRemoveVoidedBy 1 (some 5)) stC9 = some (st', res) ∧
      res = true) ∧
    run envC9 1 (.txAddVoidedBy 3 4) stC9 = some (stC9, false) ∧
    (∃ st' res, run envC9 4 (.txAddVoidedBy 3 9) stC9 = some (st', res) ∧ res = true) ∧
    run envC9 1 (.txRemoveVoidedBy 3 9) stC9 = some (stC9, false) ∧
    (∃ st' res, run envC9 4 (.txRemoveVoidedBy 4 4) stC9 = some (st', res) ∧
      res = true) ∧
    (∃ st1, run envC9 2 (.blockRemoveVoidedBy 2 (some 6)) stC9 = some (st1, true) ∧
      (st1.lookupRec 2).map (fun x => x.meta.voided_by) = some none) ∧
    (∃ st1, run envC9 4 (.txRemoveVoidedBy 4 4) stC9 = some (st1, true) ∧
      (st1.lookupRec 4).map (fun x => x.meta.voided_by) = some none) := by
  refine ⟨?_, ?_, ?_, ?_, ?_, ?_, ?_, ?_, ?_, ?_⟩
  · exact (claimC9_benign_skips envC9).1 0 stC9 1
      { is_block := true, meta := { voided_by := some {5} } } 5
      (by decide) (by decide) (by decide)
  · rcases hx : run envC9 2 (.blockAddVoidedBy 2 (some 9)) stC9 with _ | ⟨st', res⟩
    · exact absurd hx (by decide)
    · exact ⟨st', res, rfl, (claimC9_benign_skips envC9).2.1 2 stC9 2
        { is_block := true, meta := { voided_by := some {6} } } 9 st' res
        (by decide) (by decide) (by decide) hx⟩
  · exact (claimC9_benign_skips envC9).2.2.1 0 stC9 1
      { is_block := true, meta := { voided_by := some {5} } } 9
      (by decide) (by decide) (by decide)
  · rcases hx : run envC9 2 (.blockRemoveVoidedBy 1 (some 5)) stC9 with _ | ⟨st', res⟩
    · exact absurd hx (by decide)
    · exact ⟨st', res, rfl, (claimC9_benign_skips envC9).2.2.2.1 2 stC9 1
        { is_block := true, meta := { voided_by := some {5} } } 5 st' res
        (by decide) (by decide) (by decide) (by decide) hx⟩
  · exact (claimC9_benign_skips envC9).2.2.2.2.1 0 stC9 3
      { meta := { voided_by := some {4} } } 4 (by decide) (by decide) (by decide)
  · rcases hx : run envC9 4 (.txAddVoidedBy 3 9) stC9 with _ | ⟨st', res⟩
    · exact absurd hx (by decide)
    · exact ⟨st', res, rfl, (claimC9_benign_skips envC9).2.2.2.2.2.1 4 stC9 3
        { meta := { voided_by := some {4} } } 9 st' res
        (by decide) (by decide) (by decide) hx⟩
  · exact (claimC9_benign_skips envC9).2.2.2.2.2.2.1 0 stC9 3
      { meta := { voided_by := some {4} } } 9 (by decide) (by decide) (by decide)
  · rcases hx : run envC9 4 (.txRemoveVoidedBy 4 4) stC9 with _ | ⟨st', res⟩
    · exact absurd hx (by decide)
    · exact ⟨st', res, rfl, (claimC9_benign_skips envC9).2.2.2.2.2.2.2.1 4 stC9 4
        { meta := { voided_by := some {4} } } 4 st' res
        (by decide) (by decide) (by decide) (by decide) hx⟩
  · exact (claimC9_benign_skips envC9).2.2.2.2.2.2.2.2.1 0 stC9 2
      { is_block := true, meta := { voided_by := some {6} } } 6 (by decide)
      (by decide) (by decide) (by decide)
  · exact (claimC9_benign_skips envC9).2.2.2.2.2.2.2.2.2 0 stC9 4
      { meta := { voided_by := some {4} } } 4 (by decide)
      (by decide) (by decide) (by decide) (by decide)

/-! ### C10: entry preconditions of `update_voided_info` -/

/-- The accumulated-weight loop only touches the records it iterates. -/
theorem uviAwLoop_lookup (env : Env) (w : ℚ) (l : List Hash) (st st' : St)
    (hrun : uviAwLoop env w l st = some st') (x : Hash) (hx : x ∉ l) :
    st'.lookupRec x = st.lookupRec x := by
  induction l generalizing st with
  | nil => cases hrun; rfl
  | cons a rest ih =>
    have hxa : x ≠ a := fun c => hx (c ▸ List.mem_cons_self a rest)
    have hxr : x ∉ rest := fun c => hx (List.mem_cons_of_mem _ c)
    rw [uviAwLoop] at hrun
    by_cases ha : a = env.SOFT_VOIDED_ID
    · rw [if_pos ha] at hrun
      exact ih st hrun hxr
    · rw [if_neg ha] at hrun
      cases hla : st.lookupRec a with
      | none => rw [hla] at hrun; cases hrun
      | some r =>
        rw [hla] at hrun
        rw [ih _ hrun hxr, lookupRec_saveTx, lookupRec_setMeta_other _ _ _ _ hxa]

/-- C10: `update_voided_info(t)` asserts, on pain of a fatal abort, that
`voided_by(t)` is absent/empty or exactly `{t.hash}` (line 821), that
`accumulated_weight(t) = weight(t)` (line 822), that `t.hash` is not in
the union `V2` of parent- and input-derived voidance (line 810), and that
the sentinel never survives the soft-void filter of the parent union `V1`
(line 797): if any of these is violated the call returns no state. -/
theorem claimC10_updateVoidedInfo_preconditions (env : Env) (n : Nat) (st : St)
    (t : Hash) (tx : Record) (V1 V2 : Finset Hash)
    (hlk : st.lookupRec t = some tx) (hblk : tx.is_block = false)
    (hV1 : uviParentLoop env st tx.parents ∅ = some V1)
    (hV2 : uviInputLoop env st tx.inputs V1 = some V2)
    (hviol :
      (oFinsetTruthy tx.meta.voided_by = true ∧ ¬ tx.meta.voided_by = some {t}) ∨
      ¬ tx.meta.accumulated_weight = tx.weight ∨
      t ∈ V2 ∨
      env.SOFT_VOIDED_ID ∈ V1) :
    run env (n + 1) (.updateVoidedInfo t) st = none := by
  rw [run_succ]
  simp only [runBody, stepUpdateVoidedInfo, hlk, hblk, hV1, hV2]
  by_cases c1 : env.SOFT_VOIDED_ID ∈ V1
  · simp [c1]
  · simp only [c1, if_neg c1, Bool.false_eq_true, if_false, reduceIte]
    by_cases c2 : env.soft_voided_tx_ids ∩ V1 = ∅
    · simp only [c2, not_true_eq_false, if_false, reduceIte]
      by_cases c3 : env.SOFT_VOIDED_ID ∈ V2
      · simp [c3]
      · simp only [c3, if_neg c3, reduceIte]
        by_cases c4 : t ∈ V2
        · simp [c4]
        · simp only [c4, if_neg c4, reduceIte]
          cases haw : uviAwLoop env tx.weight (iterFinset V2) st with
          | none => rfl
          | some st1 =>
            have hnl : t ∉ iterFinset V2 := fun c => c4 (mem_iterFinset.mp c)
            have hlk1 : st1.lookupRec t = some tx := by
              rw [uviAwLoop_lookup env tx.weight _ st st1 haw t hnl, hlk]
            simp only [hlk1]
            rcases hviol with ⟨hv1, hv2⟩ | hv | hv | hv
            · simp [hv1, hv2]
            · by_cases c5 : (!(oFinsetTruthy tx.meta.voided_by) ||
                  decide (tx.meta.voided_by = some {t})) = true
              · simp [c5, hv]
              · simp [c5]
            · exact absurd hv c4
            · exact absurd hv c1
    · simp [c2]

/-- C10 witness: a transaction whose `voided_by` already contains a
foreign hash is rejected by `update_voided_info`. -/
theorem claimC10_witness :
    run envC9 1 (.updateVoidedInfo 3) stC9 = none :=
  claimC10_updateVoidedInfo_preconditions envC9 0 stC9 3
    { meta := { voided_by := some {4} } } ∅ ∅ (by decide) (by decide) (by decide)
    (by decide) (Or.inl (by decide))

/-! ### C6: which sub-DAGs the voidance walks traverse -/

/-- C6: (1) the verification sub-DAG is disabled for
`tx.add_voided_by(t, h)` exactly when `voided_by(t)` intersects
`soft_voided_tx_ids`;
(2) `add_voided_by` enters its BFS with that flag (funds always on);
(3) each visited non-block node of the add-walk enqueues exactly the
successors `walkNeighborsLTR true verif` — the funds successors always,
the verification successors if and only if the flag is set;
(4) `remove_voided_by(t, h)` (with `h` carried by `t`) enters its BFS
with both sub-DAGs enabled unconditionally — no soft-void short-circuit;
(5) a visited node of the remove-walk not carrying `h` is skipped: the
state is unchanged and none of its successors is enqueued;
(6) a visited node carrying `h` enqueues exactly
`walkNeighborsLTR true true` — both sub-DAGs, always. -/
theorem claimC6_walk_subdags (env : Env) :
    (∀ m : TxMeta, txAddVoidedByDagVerifications env m = false ↔
      ¬ env.soft_voided_tx_ids ∩ m.voided_by.getD ∅ = ∅) ∧
    (∀ n st t h tx, st.lookupRec t = some tx → tx.is_block = false →
      ¬ (oFinsetTruthy tx.meta.voided_by = true ∧ h ∈ tx.meta.voided_by.getD ∅) →
      run env (n + 1) (.txAddVoidedBy t h) st =
        run env n (.txAddLoop h t (txAddVoidedByDagVerifications env tx.meta)
          [t] [t] []) st) ∧
    (∀ n st st' res h root verif u q seen cl r,
      st.lookupRec u = some r → r.is_block = false →
      run env (n + 1) (.txAddLoop h root verif (u :: q) seen cl) st = some (st', res) →
      ∃ st6 cl2, run env n (.txAddLoop h root verif
        (enqueue seen q (walkNeighborsLTR true verif r)).2
        (enqueue seen q (walkNeighborsLTR true verif r)).1 cl2) st6 = some (st', res)) ∧
    (∀ n st t h tx, st.lookupRec t = some tx → tx.is_block = false →
      oFinsetTruthy tx.meta.voided_by = true → h ∈ tx.meta.voided_by.getD ∅ →
      run env (n + 1) (.txRemoveVoidedBy t h) st =
        run env n (.txRemoveLoop h [t] [t] []) st) ∧
    (∀ n st h u q seen cl r, st.lookupRec u = some r →
      ¬ (oFinsetTruthy r.meta.voided_by = true ∧ h ∈ r.meta.voided_by.getD ∅) →
      run env (n + 1) (.txRemoveLoop h (u :: q) seen cl) st =
        run env n (.txRemoveLoop h q seen cl) st) ∧
    (∀ n st st' res h u q seen cl r, st.lookupRec u = some r →
      oFinsetTruthy r.meta.voided_by = true → h ∈ r.meta.voided_by.getD ∅ →
      run env (n + 1) (.txRemoveLoop h (u :: q) seen cl) st = some (st', res) →
      ∃ st3 cl2, run env n (.txRemoveLoop h
        (enqueue seen q (walkNeighborsLTR true true r)).2
        (enqueue seen q (walkNeighborsLTR true true r)).1 cl2) st3 = some (st', res)) := by
  refine ⟨?_, ?_, ?_, ?_, ?_, ?_⟩
  · intro m
    constructor
    · intro hf
      simp only [txAddVoidedByDagVerifications, Bool.not_eq_eq_eq_not, Bool.not_false,
        Bool.and_eq_true, decide_eq_true_eq] at hf
      exact hf.2
    · intro hi
      have ht : oFinsetTruthy m.voided_by = true := by
        cases hvb : m.voided_by with
        | none => simp [hvb] at hi
        | some s =>
          simp only [oFinsetTruthy, decide_eq_true_eq]
          intro c
          subst c
          simp [hvb] at hi
      simp [txAddVoidedByDagVerifications, ht, hi]
  · intro n st t h tx hlk hblk hnin
    rw [run_succ]
    simp only [runBody, stepTxAddVoidedBy, hlk, hblk, Bool.false_eq_true, if_false,
      reduceIte]
    rw [if_neg (fun c => hnin (by
      rcases Bool.and_eq_true _ _ |>.mp c with ⟨c1, c2⟩
      exact ⟨c1, of_decide_eq_true c2⟩))]
  · intro n st st' res h root verif u q seen cl r hlk hblk hrun
    rw [run_succ] at hrun
    simp only [runBody, stepTxAddLoop, hlk, hblk, Bool.false_eq_true, if_false,
      reduceIte] at hrun
    iterate 8 (all_goals try split at hrun)
    all_goals first
      | exact Option.noConfusion hrun
      | exact ⟨_, _, hrun⟩
  · intro n st t h tx hlk hblk ht hin
    rw [run_succ]
    simp [runBody, stepTxRemoveVoidedBy, hlk, hblk, ht, hin]
  · intro n st h u q seen cl r hlk hskip
    rw [run_succ]
    have : ¬ (oFinsetTruthy r.meta.voided_by &&
        decide (h ∈ r.meta.voided_by.getD ∅)) = true := fun c => hskip (by
      rcases Bool.and_eq_true _ _ |>.mp c with ⟨c1, c2⟩
      exact ⟨c1, of_decide_eq_true c2⟩)
    simp [runBody, stepTxRemoveLoop, hlk, this]
  · intro n st st' res h u q seen cl r hlk ht hin hrun
    rw [run_succ] at hrun
    simp only [runBody, stepTxRemoveLoop, hlk, ht, hin] at hrun
    rw [if_neg (by simp [ht, hin])] at hrun
    iterate 4 (all_goals try split at hrun)
    all_goals first
      | exact Option.noConfusion hrun
      | exact ⟨_, _, hrun⟩

/-- Concrete environment for the C6 witness: transaction `5` is
soft-voided. -/
def envC6 : Env := { SOFT_VOIDED_ID := 0, soft_voided_tx_ids := {5} }

/-- Concrete state for the C6 witness: transaction `1` is soft-voided
(voided by `5`), transaction `2` is voided by `3`. -/
def stC6 : St :=
  { recs := [
      (1, { meta := { voided_by := some {5} } }),
      (2, { meta := { voided_by := some {3} } })] }

/-- C6 witness: concrete runs of all six components of the walk-flags
theorem. -/
theorem claimC6_witness :
    txAddVoidedByDagVerifications envC6 { voided_by := some {5} } = false ∧
    run envC6 2 (.txAddVoidedBy 1 9) stC6 =
      run envC6 1 (.txAddLoop 9 1
        (txAddVoidedByDagVerifications envC6 { voided_by := some {5} }) [1] [1] []) stC6 ∧
    (∃ st' res st6 cl2,
      run envC6 3 (.txAddLoop 9 2 true [2] [2] []) stC6 = some (st', res) ∧
      run envC6 2 (.txAddLoop 9 2 true
        (enqueue [2] [] (walkNeighborsLTR true true
          { meta := { voided_by := some {3} } })).2
        (enqueue [2] [] (walkNeighborsLTR true true
          { meta := { voided_by := some {3} } })).1 cl2) st6 = some (st', res)) ∧
    run envC6 2 (.txRemoveVoidedBy 2 3) stC6 =
      run envC6 1 (.txRemoveLoop 3 [2] [2] []) stC6 ∧
    run envC6 2 (.txRemoveLoop 9 [1] [1] []) stC6 =
      run envC6 1 (.txRemoveLoop 9 [] [1] []) stC6 ∧
    (∃ st' res st3 cl2,
      run envC6 3 (.txRemoveLoop 3 [2] [2] []) stC6 = some (st', res) ∧
      run envC6 2 (.txRemoveLoop 3
        (enqueue [2] [] (walkNeighborsLTR true true
          { meta := { voided_by := some {3} } })).2
        (enqueue [2] [] (walkNeighborsLTR true true
          { meta := { voided_by := some {3} } })).1 cl2) st3 = some (st', res)) := by
  refine ⟨?_, ?_, ?_, ?_, ?_, ?_⟩
  · exact ((claimC6_walk_subdags envC6).1 _).mpr (by decide)
  · exact (claimC6_walk_subdags envC6).2.1 1 stC6 1 9
      { meta := { voided_by := some {5} } } (by decide) (by decide) (by decide)
  · rcases hx : run envC6 3 (.txAddLoop 9 2 true [2] [2] []) stC6 with _ | ⟨st', res⟩
    · exact absurd hx (by decide)
    · obtain ⟨st6, cl2, h6⟩ := (claimC6_walk_subdags envC6).2.2.1 2 stC6 st' res 9 2
        true 2 [] [2] [] { meta := { voided_by := some {3} } } (by decide) (by decide) hx
      exact ⟨st', res, st6, cl2, rfl, h6⟩
  · exact (claimC6_walk_subdags envC6).2.2.2.1 1 stC6 2 3
      { meta := { voided_by := some {3} } } (by decide) (by decide) (by decide) (by decide)
  · exact (claimC6_walk_subdags envC6).2.2.2.2.1 1 stC6 9 1 [] [1] []
      { meta := { voided_by := some {5} } } (by decide) (by decide)
  · rcases hx : run envC6 3 (.txRemoveLoop 3 [2] [2] []) stC6 with _ | ⟨st', res⟩
    · exact absurd hx (by decide)
    · obtain ⟨st3, cl2, h6⟩ := (claimC6_walk_subdags envC6).2.2.2.2.2 2 stC6 st' res 3
        2 [] [2] [] { meta := { voided_by := some {3} } } (by decide) (by decide)
        (by decide) hx
      exact ⟨st', res, st3, cl2, rfl, h6⟩

/-! ## `ConsensusAlgorithm.update` (the driver, `consensus.py:93-129`) -/

/-- `storage.remove_transactions(to_remove)`. -/
def removeRecs (st : St) (hs : List Hash) : St :=
  { st with recs := st.recs.filter fun p => p.1 ∉ hs }

/-- `ConsensusAlgorithm.update` (lines 93-129): a fresh context, the
dispatch to the block or transaction algorithm (abstracted as
`dispatch`), the mempool reconciliation on tip-height regression, and the
final index updates and notifications for the affected set. -/
def driverUpdate (env : Env) (dispatch : St → Option St) (st0 : St) : Option St :=
  let st := { st0 with affected := [] }
  let best_height := env.heightTipHeight st
  match dispatch st with
  | none => none
  | some st1 =>
    let new_height := env.heightTipHeight st1
    let st2 :=
      if new_height < best_height then
        let to_remove := env.becameInvalid st1
        if ¬ to_remove = [] then
          to_remove.foldl (fun s h => s.pushEvent (.publishTxRemoved h))
            (removeRecs st1 to_remove)
        else st1
      else st1
    some (st2.affected.foldl
      (fun s h => (s.pushEvent (.indexesUpdate h)).pushEvent (.publishTxUpdate h)) st2)

/-- Folding removal notifications appends exactly one event per entry. -/
theorem foldl_publishRemoved (l : List Hash) (s : St) :
    (l.foldl (fun s h => s.pushEvent (.publishTxRemoved h)) s).events =
        s.events ++ l.map Event.publishTxRemoved ∧
      (l.foldl (fun s h => s.pushEvent (.publishTxRemoved h)) s).recs = s.recs ∧
      (l.foldl (fun s h => s.pushEvent (.publishTxRemoved h)) s).affected = s.affected := by
  induction l generalizing s with
  | nil => simp
  | cons a rest ih =>
    obtain ⟨h1, h2, h3⟩ := ih (s.pushEvent (.publishTxRemoved a))
    refine ⟨?_, ?_, ?_⟩ <;> simp [h1, h2, h3]

/-- Folding the affected-set updates appends exactly an index update and
a publish per entry. -/
theorem foldl_publishUpdate (l : List Hash) (s : St) :
    (l.foldl (fun s h => (s.pushEvent (.indexesUpdate h)).pushEvent
        (.publishTxUpdate h)) s).events =
      s.events ++ (l.map fun h => [Event.indexesUpdate h, Event.publishTxUpdate h]).flatten := by
  induction l generalizing s with
  | nil => simp
  | cons a rest ih =>
    simp [ih, List.append_assoc]

/-- In the per-affected event block, each record's `CONSENSUS_TX_UPDATE`
appears exactly once. -/
theorem count_publishUpdate (l : List Hash) (hnd : l.Nodup) (h : Hash) (hh : h ∈ l) :
    ((l.map fun x => [Event.indexesUpdate x, Event.publishTxUpdate x]).flatten).count
      (Event.publishTxUpdate h) = 1 := by
  induction l with
  | nil => cases hh
  | cons a rest ih =>
    rw [List.nodup_cons] at hnd
    rcases List.mem_cons.mp hh with rfl | hh2
    · have : ((rest.map fun x => [Event.indexesUpdate x,
          Event.publishTxUpdate x]).flatten).count (Event.publishTxUpdate h) = 0 := by
        rw [List.count_eq_zero]
        intro c
        simp only [List.mem_flatten, List.mem_map] at c
        obtain ⟨lx, ⟨x, hx, rfl⟩, hmem⟩ := c
        rcases List.mem_pair.mp hmem with c1 | c1
        · cases c1
        · cases c1; exact hnd.1 hx
      simp [List.count_cons, List.count_append, this]
    · have hne : a ≠ h := fun c => hnd.1 (c ▸ hh2)
      simp [List.count_cons, List.count_append, ih hnd.2 hh2, hne]

/-- The affected-set notification fold does not touch the record
store. -/
theorem foldl_publishUpdate_recs (l : List Hash) (s : St) :
    (l.foldl (fun s h => (s.pushEvent (.indexesUpdate h)).pushEvent
      (.publishTxUpdate h)) s).recs = s.recs := by
  induction l generalizing s with
  | nil => rfl
  | cons a rest ih => simp [ih]

/-- C7: for every driver update: the best height is read before and after
the dispatch; exactly when the new height is strictly smaller, the
records that became invalid are removed from storage and
`CONSENSUS_TX_REMOVED` is published once per removed record; afterwards
each record of the context's affected set gets its indexes updated and a
single `CONSENSUS_TX_UPDATE`. -/
theorem claimC7_driverUpdate (env : Env) (dispatch : St → Option St) (st0 st1 : St)
    (hd : dispatch { st0 with affected := [] } = some st1) :
    ∃ st', driverUpdate env dispatch st0 = some st' ∧
      st'.events = st1.events ++
        (if env.heightTipHeight st1 < env.heightTipHeight { st0 with affected := [] } ∧
            ¬ env.becameInvalid st1 = []
         then (env.becameInvalid st1).map Event.publishTxRemoved else []) ++
        (st1.affected.map fun h =>
          [Event.indexesUpdate h, Event.publishTxUpdate h]).flatten ∧
      st'.recs =
        (if env.heightTipHeight st1 < env.heightTipHeight { st0 with affected := [] } ∧
            ¬ env.becameInvalid st1 = []
         then (removeRecs st1 (env.becameInvalid st1)).recs else st1.recs) ∧
      (st1.affected.Nodup → ∀ h ∈ st1.affected,
        ((st1.affected.map fun x =>
          [Event.indexesUpdate x, Event.publishTxUpdate x]).flatten).count
            (Event.publishTxUpdate h) = 1) := by
  simp only [driverUpdate, hd]
  by_cases hlt : env.heightTipHeight st1 < env.heightTipHeight { st0 with affected := [] }
  · by_cases hR : env.becameInvalid st1 = []
    · simp only [hlt, hR, not_true_eq_false, if_false, if_true, reduceIte]
      refine ⟨_, rfl, ?_, ?_, fun hnd h hh => count_publishUpdate _ hnd h hh⟩
      · rw [foldl_publishUpdate]
        simp [hlt, hR]
      · rw [foldl_publishUpdate_recs]
        simp [hlt, hR]
    · obtain ⟨he, hr, ha⟩ := foldl_publishRemoved (env.becameInvalid st1)
        (removeRecs st1 (env.becameInvalid st1))
      simp only [hlt, hR, if_true, not_false_eq_true, reduceIte]
      refine ⟨_, rfl, ?_, ?_, fun hnd h hh => count_publishUpdate _ hnd h hh⟩
      · rw [foldl_publishUpdate, ha, he]
        have h1 : (removeRecs st1 (env.becameInvalid st1)).events = st1.events := rfl
        have h2 : (removeRecs st1 (env.becameInvalid st1)).affected = st1.affected := rfl
        simp [h1, h2, hlt, hR, List.append_assoc]
      · rw [foldl_publishUpdate_recs, hr]
        simp [hlt, hR]
  · simp only [hlt, if_false, reduceIte]
    refine ⟨_, rfl, ?_, ?_, fun hnd h hh => count_publishUpdate _ hnd h hh⟩
    · rw [foldl_publishUpdate]
      simp [hlt]
    · rw [foldl_publishUpdate_recs]
      simp [hlt]

/-- Concrete environment for the C7 witness: the best height is the
number of stored records, and record `7` becomes invalid. -/
def envC7 : Env :=
  { heightTipHeight := fun s => s.recs.length, becameInvalid := fun _ => [7] }

/-- Concrete dispatch for the C7 witness: drops every record (so the
best height regresses) and marks record `3` affected. -/
def dispatchC7 : St → Option St := fun s => some { s with recs := [], affected := [3] }

/-- Concrete state for the C7 witness. -/
def stC7 : St := { recs := [(1, {})] }

/-- C7 witness: a concrete driver update through the height-regression
branch. -/
theorem claimC7_witness :
    ∃ st', driverUpdate envC7 dispatchC7 stC7 = some st' ∧
      st'.events = ({ recs := [], affected := [3], events := [] } : St).events ++
        (if envC7.heightTipHeight { recs := [], affected := [3], events := [] } <
            envC7.heightTipHeight { stC7 with affected := [] } ∧
            ¬ envC7.becameInvalid { recs := [], affected := [3], events := [] } = []
         then (envC7.becameInvalid { recs := [], affected := [3], events := [] }).map
           Event.publishTxRemoved else []) ++
        (([3] : List Hash).map fun h =>
          [Event.indexesUpdate h, Event.publishTxUpdate h]).flatten ∧
      st'.recs =
        (if envC7.heightTipHeight { recs := [], affected := [3], events := [] } <
            envC7.heightTipHeight { stC7 with affected := [] } ∧
            ¬ envC7.becameInvalid { recs := [], affected := [3], events := [] } = []
         then (removeRecs { recs := [], affected := [3], events := [] }
           (envC7.becameInvalid { recs := [], affected := [3], events := [] })).recs
         else ({ recs := [], affected := [3], events := [] } : St).recs) ∧
      (([3] : List Hash).Nodup → ∀ h ∈ ([3] : List Hash),
        ((([3] : List Hash).map fun x =>
          [Event.indexesUpdate x, Event.publishTxUpdate x]).flatten).count
            (Event.publishTxUpdate h) = 1) :=
  claimC7_driverUpdate envC7 dispatchC7 stC7 { recs := [], affected := [3], events := [] }
    rfl

/-! ## `BlockConsensusAlgorithm._score_block_dfs` (`consensus.py:559-620`) -/

/-- The transaction part of the scoring DFS (lines 582-605): walk the
verification DAG backwards from a transaction parent, skipping
transactions already counted (`used`) or already confirmed by a block no
newer than `newest` (and those of its ancestors); with `mark` set, stamp
`first_block` (asserting it was absent); sum the weights. -/
def sbdTxWalk (env : Env) (bh : Hash) (mark : Bool) (newest : Int) :
    Nat → List Hash → List Hash → St → Finset Hash → ℚ →
    Option (St × Finset Hash × ℚ)
  | 0, _, _, _, _, _ => none
  | _ + 1, [], _, st, used, score => some (st, used, score)
  | fuel + 1, u :: q, seen, st, used, score =>
    match st.lookupRec u with
    | none => none
    | some r =>
      if r.is_block then none
      else if u ∈ used then sbdTxWalk env bh mark newest fuel q seen st used score
      else
        match r.meta.first_block with
        | some fb =>
          match st.lookupRec fb with
          | none => none
          | some rfb =>
            if rfb.timestamp ≤ newest then
              sbdTxWalk env bh mark newest fuel q seen st (insert u used) score
            else
              if mark then none
              else
                sbdTxWalk env bh mark newest fuel (enqueue seen q r.parents).2
                  (enqueue seen q r.parents).1 st (insert u used)
                  (env.sumWeights score r.weight)
        | none =>
          if mark then
            sbdTxWalk env bh mark newest fuel (enqueue seen q r.parents).2
              (enqueue seen q r.parents).1
              ((st.setMeta u fun m => { m with first_block := some bh }).saveTx u)
              (insert u used) (env.sumWeights score r.weight)
          else
            sbdTxWalk env bh mark newest fuel (enqueue seen q r.parents).2
              (enqueue seen q r.parents).1 st (insert u used)
              (env.sumWeights score r.weight)

mutual

/-- `BlockConsensusAlgorithm._score_block_dfs` (lines 559-620). -/
def scoreBlockDfs (env : Env) : Nat → St → Hash → Finset Hash → Bool → Int →
    Option (St × Finset Hash × ℚ)
  | 0, _, _, _, _, _ => none
  | fuel + 1, st, bh, used, mark, newest =>
    match st.lookupRec bh with
    | none => none
    | some r =>
      if ¬ r.is_block then none
      else
        match sbdParents env fuel st bh mark newest r.parents used r.weight with
        | none => none
        | some (st1, used1, score) =>
          match st1.lookupRec bh with
          | none => none
          | some r1 =>
            if r1.meta.score = 0 then
              some ((st1.setMeta bh fun m => { m with score := score }).saveTx bh,
                used1, score)
            else
              if ratAbs (r1.meta.score - score) < weightTol then some (st1, used1, score)
              else none
  termination_by structural fuel => fuel

/-- The `for parent in block.get_parents()` loop of the scoring DFS
(lines 571-605): block parents contribute their stored score (when old
enough) or a recursive DFS; transaction parents contribute via
`sbdTxWalk`. -/
def sbdParents (env : Env) : Nat → St → Hash → Bool → Int → List Hash → Finset Hash →
    ℚ → Option (St × Finset Hash × ℚ)
  | 0, _, _, _, _, _, _, _ => none
  | _ + 1, st, _, _, _, [], used, score => some (st, used, score)
  | fuel + 1, st, bh, mark, newest, p :: rest, used, score =>
    match st.lookupRec p with
    | none => none
    | some rp =>
      if rp.is_block then
        if rp.timestamp ≤ newest then
          sbdParents env fuel st bh mark newest rest used
            (env.sumWeights score rp.meta.score)
        else
          match scoreBlockDfs env fuel st p used mark newest with
          | none => none
          | some (st1, used1, x) =>
            sbdParents env fuel st1 bh mark newest rest used1 (env.sumWeights score x)
      else
        match sbdTxWalk env bh mark newest fuel [p] [p] st used score with
        | none => none
        | some (st1, used1, score1) =>
          sbdParents env fuel st1 bh mark newest rest used1 score1
  termination_by structural fuel => fuel

end

/-- `st'` assigns every record the same stored score as `st`. -/
def scoreMapEq (st st' : St) : Prop :=
  ∀ x, ((st'.lookupRec x).map fun r => r.meta.score) =
    ((st.lookupRec x).map fun r => r.meta.score)

theorem scoreMapEq_refl (st : St) : scoreMapEq st st := fun _ => rfl

theorem scoreMapEq_trans {s1 s2 s3 : St} (h1 : scoreMapEq s1 s2)
    (h2 : scoreMapEq s2 s3) : scoreMapEq s1 s3 :=
  fun x => (h2 x).trans (h1 x)

theorem scoreMapEq_setMeta (st : St) (u : Hash) (f : TxMeta → TxMeta)
    (hf : ∀ m : TxMeta, (f m).score = m.score) :
    scoreMapEq st ((st.setMeta u f).saveTx u) := by
  intro x
  rw [lookupRec_saveTx, lookupRec_setMeta]
  by_cases hx : x = u
  · subst hx
    cases st.lookupRec x <;> simp [hf]
  · simp [hx]

/-- `st'` keeps every non-zero stored score of `st`. -/
def scoresPreserved (st st' : St) : Prop :=
  ∀ x r, st.lookupRec x = some r → ¬ r.meta.score = 0 →
    ∃ r', st'.lookupRec x = some r' ∧ r'.meta.score = r.meta.score

theorem scoresPreserved_refl (st : St) : scoresPreserved st st :=
  fun _ r h _ => ⟨r, h, rfl⟩

theorem scoresPreserved_trans {s1 s2 s3 : St} (h1 : scoresPreserved s1 s2)
    (h2 : scoresPreserved s2 s3) : scoresPreserved s1 s3 := by
  intro x r hl hs
  obtain ⟨r2, hl2, he2⟩ := h1 x r hl hs
  obtain ⟨r3, hl3, he3⟩ := h2 x r2 hl2 (by rw [he2]; exact hs)
  exact ⟨r3, hl3, he3.trans he2⟩

theorem scoresPreserved_of_scoreMapEq {st st' : St} (hm : scoreMapEq st st') :
    scoresPreserved st st' := by
  intro x r hl hs
  have hx := hm x
  rw [hl] at hx
  cases hl' : st'.lookupRec x with
  | none => rw [hl'] at hx; cases hx
  | some r' =>
    rw [hl'] at hx
    simp at hx
    exact ⟨r', rfl, hx⟩

/-- The transaction walk never touches a stored score. -/
theorem sbdTxWalk_scoreMapEq (env : Env) (bh : Hash) (mark : Bool) (newest : Int) :
    ∀ fuel q seen st used score st' used' sc,
      sbdTxWalk env bh mark newest fuel q seen st used score = some (st', used', sc) →
      scoreMapEq st st' := by
  intro fuel
  induction fuel with
  | zero => intro q seen st used score st' used' sc h; cases h
  | succ fuel ih =>
    intro q seen st used score st' used' sc h
    match q with
    | [] =>
      rw [sbdTxWalk] at h
      cases h
      exact scoreMapEq_refl st
    | u :: q2 =>
      rw [sbdTxWalk] at h
      iterate 8 (all_goals try split at h)
      all_goals first
        | exact Option.noConfusion h
        | exact ih _ _ _ _ _ _ _ _ h
        | exact scoreMapEq_trans
            (scoreMapEq_setMeta _ _ (fun m => { m with first_block := some bh })
              (fun m => rfl)) (ih _ _ _ _ _ _ _ _ h)

/-- Setting fields of a record whose stored score is zero preserves all
non-zero stored scores. -/
theorem scoresPreserved_setScoreZero (st1 : St) (bh : Hash) (r1 : Record)
    (f : TxMeta → TxMeta) (hl : st1.lookupRec bh = some r1) (h0 : r1.meta.score = 0) :
    scoresPreserved st1 ((st1.setMeta bh f).saveTx bh) := by
  intro x r hlx hs
  by_cases hx : x = bh
  · subst hx
    rw [hl] at hlx
    cases hlx
    exact absurd h0 hs
  · rw [lookupRec_saveTx, lookupRec_setMeta_other _ _ _ _ hx]
    exact ⟨r, hlx, rfl⟩

/-- The scoring DFS never overwrites a non-zero stored score, in any of
its phases. -/
theorem sbdScoresPreserved (env : Env) : ∀ fuel,
    (∀ st bh used mark newest st' used' sc,
      scoreBlockDfs env fuel st bh used mark newest = some (st', used', sc) →
      scoresPreserved st st') ∧
    (∀ st bh mark newest ps used w st' used' sc,
      sbdParents env fuel st bh mark newest ps used w = some (st', used', sc) →
      scoresPreserved st st') := by
  intro fuel
  induction fuel with
  | zero =>
    constructor
    · intro st bh used mark newest st' used' sc h; cases h
    · intro st bh mark newest ps used w st' used' sc h; cases h
  | succ fuel ih =>
    obtain ⟨ihb, ihp⟩ := ih
    constructor
    · intro st bh used mark newest st' used' sc h
      rw [scoreBlockDfs] at h
      cases hlk : st.lookupRec bh with
      | none => rw [hlk] at h; cases h
      | some r =>
        simp only [hlk] at h
        by_cases hb : r.is_block = true
        · rw [if_neg (not_not_intro hb)] at h
          cases hpar : sbdParents env fuel st bh mark newest r.parents used r.weight with
          | none => rw [hpar] at h; cases h
          | some trip =>
            obtain ⟨st1, used1, score⟩ := trip
            simp only [hpar] at h
            cases hlk1 : st1.lookupRec bh with
            | none => rw [hlk1] at h; cases h
            | some r1 =>
              simp only [hlk1] at h
              by_cases h0 : r1.meta.score = 0
              · rw [if_pos h0] at h
                cases h
                exact scoresPreserved_trans (ihp _ _ _ _ _ _ _ _ _ _ hpar)
                  (scoresPreserved_setScoreZero st1 bh r1 _ hlk1 h0)
              · rw [if_neg h0] at h
                by_cases htol : ratAbs (r1.meta.score - score) < weightTol
                · rw [if_pos htol] at h
                  cases h
                  exact ihp _ _ _ _ _ _ _ _ _ _ hpar
                · rw [if_neg htol] at h; cases h
        · rw [if_pos hb] at h; cases h
    · intro st bh mark newest ps used w st' used' sc h
      match ps with
      | [] =>
        rw [sbdParents] at h
        cases h
        exact scoresPreserved_refl st
      | p :: rest =>
        rw [sbdParents] at h
        cases hlk : st.lookupRec p with
        | none => rw [hlk] at h; cases h
        | some rp =>
          simp only [hlk] at h
          by_cases hb : rp.is_block = true
          · rw [if_pos hb] at h
            by_cases hts : rp.timestamp ≤ newest
            · rw [if_pos hts] at h
              exact ihp _ _ _ _ _ _ _ _ _ _ h
            · rw [if_neg hts] at h
              cases hdfs : scoreBlockDfs env fuel st p used mark newest with
              | none => rw [hdfs] at h; cases h
              | some trip =>
                obtain ⟨st1, used1, x⟩ := trip
                simp only [hdfs] at h
                exact scoresPreserved_trans (ihb _ _ _ _ _ _ _ _ hdfs)
                  (ihp _ _ _ _ _ _ _ _ _ _ h)
          · rw [if_neg hb] at h
            cases hwalk : sbdTxWalk env bh mark newest fuel [p] [p] st used w with
            | none => rw [hwalk] at h; cases h
            | some trip =>
              obtain ⟨st1, used1, score1⟩ := trip
              simp only [hwalk] at h
              exact scoresPreserved_trans
                (scoresPreserved_of_scoreMapEq
                  (sbdTxWalk_scoreMapEq env bh mark newest fuel _ _ _ _ _ _ _ _ hwalk))
                (ihp _ _ _ _ _ _ _ _ _ _ h)

/-! ### C3: immutable score -/

/-- C3: once a block's score is stored (non-zero), any later successful
run of `_score_block_dfs` (a) leaves the stored score unchanged — and
more generally never overwrites any non-zero stored score of any record
(the store at line 610 only fires when `meta.score` is falsy) — and (b)
returns a value within `WEIGHT_TOL` of the stored score (the assertion at
line 617). -/
theorem claimC3_score_immutable (env : Env) (fuel : Nat) (st : St) (bh : Hash)
    (used : Finset Hash) (mark : Bool) (newest : Int) (r : Record)
    (st' : St) (used' : Finset Hash) (sc : ℚ)
    (hlk : st.lookupRec bh = some r) (hs : ¬ r.meta.score = 0)
    (hrun : scoreBlockDfs env fuel st bh used mark newest = some (st', used', sc)) :
    (∃ r', st'.lookupRec bh = some r' ∧ r'.meta.score = r.meta.score) ∧
      |r.meta.score - sc| < weightTol ∧
      (∀ x rx, st.lookupRec x = some rx → ¬ rx.meta.score = 0 →
        ∃ rx', st'.lookupRec x = some rx' ∧ rx'.meta.score = rx.meta.score) := by
  match fuel with
  | 0 => cases hrun
  | fuel + 1 =>
    have hpres := (sbdScoresPreserved env (fuel + 1)).1 _ _ _ _ _ _ _ _ hrun
    refine ⟨hpres bh r hlk hs, ?_, hpres⟩
    rw [scoreBlockDfs] at hrun
    simp only [hlk] at hrun
    by_cases hb : r.is_block = true
    · rw [if_neg (not_not_intro hb)] at hrun
      cases hpar : sbdParents env fuel st bh mark newest r.parents used r.weight with
      | none => rw [hpar] at hrun; cases hrun
      | some trip =>
        obtain ⟨st1, used1, score⟩ := trip
        simp only [hpar] at hrun
        obtain ⟨r1, hlk1, hsc1⟩ :=
          (sbdScoresPreserved env fuel).2 _ _ _ _ _ _ _ _ _ _ hpar bh r hlk hs
        simp only [hlk1] at hrun
        have h0 : ¬ r1.meta.score = 0 := by rw [hsc1]; exact hs
        rw [if_neg h0] at hrun
        by_cases htol : ratAbs (r1.meta.score - score) < weightTol
        · rw [if_pos htol] at hrun
          cases hrun
          rw [← hsc1]
          rw [ratAbs_eq_abs] at htol
          exact htol
        · rw [if_neg htol] at hrun; cases hrun
    · rw [if_pos hb] at hrun; cases hrun

/-- Concrete record and state for the C3 witness. -/
def recC3 : Record := { is_block := true, weight := 1, meta := { score := 1 } }

/-- Concrete state for the C3 witness: a genesis-like block with its
score `1` already stored. -/
def stC3 : St := { recs := [(1, recC3)] }

unseal Rat.sub Rat.add Rat.mul Rat.inv Nat.gcd in
/-- C3 witness: re-scoring a block whose score `1` is already stored
succeeds, returns the same score, and leaves every stored score in
place. -/
theorem claimC3_witness :
    (∃ r', stC3.lookupRec 1 = some r' ∧ r'.meta.score = recC3.meta.score) ∧
      |recC3.meta.score - 1| < weightTol ∧
      (∀ x rx, stC3.lookupRec x = some rx → ¬ rx.meta.score = 0 →
        ∃ rx', stC3.lookupRec x = some rx' ∧ rx'.meta.score = rx.meta.score) :=
  claimC3_score_immutable { SOFT_VOIDED_ID := 0 } 2 stC3 1 ∅ false 0 recC3 stC3 ∅ 1
    (by decide) (by decide) (by decide)

/-! ### C4: `check_conflicts` voids every conflict and crowns the winner -/

/-- `assert_valid_consensus`'s loop on a voided transaction
(`is_tx_executed` false) only needs the conflicting records to be
present (lines 866-871). -/
theorem avcLoop_false_of_pres (st : St) (l : List Hash)
    (h : ∀ d ∈ l, (st.lookupRec d).isSome) : avcLoop st false l = some () := by
  induction l with
  | nil => rfl
  | cons d rest ih =>
    have hd := h d (List.mem_cons_self d rest)
    cases hlkd : st.lookupRec d with
    | none => rw [hlkd] at hd; exact absurd hd (by decide)
    | some rd =>
      simp only [avcLoop, hlkd, Bool.false_and, Bool.false_eq_true, if_false]
      exact ih fun d' hd' => h d' (List.mem_cons_of_mem _ hd')

/-- `assert_valid_consensus`'s loop on an executed transaction
(`is_tx_executed` true) succeeds when every conflicting record is
present and voided (lines 866-871). -/
theorem avcLoop_true_of_voided (st : St) (l : List Hash)
    (h : ∀ d ∈ l, ∃ rd, st.lookupRec d = some rd ∧
      oFinsetTruthy rd.meta.voided_by = true) :
    avcLoop st true l = some () := by
  induction l with
  | nil => rfl
  | cons d rest ih =>
    obtain ⟨rd, hlkd, hv⟩ := h d (List.mem_cons_self d rest)
    simp only [avcLoop, hlkd, hv, Bool.not_true, Bool.and_false, Bool.false_eq_true,
      if_false]
    exact ih fun d' hd' => h d' (List.mem_cons_of_mem _ hd')

/-- `assert_valid_consensus` succeeds on a voided transaction whose
conflicts are all present. -/
theorem avc_of_voided (st : St) (t : Hash) (r : Record)
    (hlk : st.lookupRec t = some r) (hv : oFinsetTruthy r.meta.voided_by = true)
    (hp : ∀ d ∈ r.meta.conflict_with.getD [], (st.lookupRec d).isSome) :
    assertValidConsensus st t = some () := by
  simp only [assertValidConsensus, hlk, hv, Bool.not_true]
  exact avcLoop_false_of_pres st _ hp

/-- `assert_valid_consensus` succeeds on an executed transaction whose
conflicts are all present and voided. -/
theorem avc_of_executed (st : St) (t : Hash) (r : Record)
    (hlk : st.lookupRec t = some r) (hv : oFinsetTruthy r.meta.voided_by = false)
    (hp : ∀ d ∈ r.meta.conflict_with.getD [], ∃ rd, st.lookupRec d = some rd ∧
      oFinsetTruthy rd.meta.voided_by = true) :
    assertValidConsensus st t = some () := by
  simp only [assertValidConsensus, hlk, hv, Bool.not_false]
  exact avcLoop_true_of_voided st _ hp

/-- The walk of an empty `check_list` succeeds and returns the state
unchanged (lines 1050-1051). -/
theorem run_checkListAll_nil (env : Env) (k : Nat) (st : St) :
    run env (k + 1) (.checkListAll []) st = some (st, true) := by
  rw [run_succ]; rfl

/-- The `add_voided_by` BFS with an exhausted queue and empty check-list
succeeds and returns the state unchanged (lines 1024-1051). -/
theorem run_txAddLoop_nil (env : Env) (k : Nat) (h root : Hash) (verif : Bool)
    (seen : List Hash) (st : St) :
    run env (k + 2) (.txAddLoop h root verif [] seen []) st = some (st, true) := by
  rw [run_succ]
  exact run_checkListAll_nil env k st

/-- `mark_as_voided` on a leaf conflict (lines 990-1001 and its
`add_voided_by` walk, lines 1003-1048): the call reports `True`, a
`markAsVoided` entry is logged, every other record is untouched, and the
record ends with a truthy `voided_by` while keeping its conflict list,
its spenders and its children. -/
theorem markAsVoidedLeaf (env : Env) (k : Nat) (s : St) (c : Hash) (rc : Record)
    (hlk : s.lookupRec c = some rc) (hb : rc.is_block = false)
    (hcw : oListTruthy rc.meta.conflict_with = true)
    (hfc : fundsChildren rc = []) (hch : rc.meta.children = [])
    (hpres : ∀ d ∈ rc.meta.conflict_with.getD [], (s.lookupRec d).isSome) :
    ∃ s', run env (k + 5) (.markAsVoidedTx c) s = some (s', true) ∧
      (∃ evs, s'.events = s.events ++ Event.markAsVoided c :: evs) ∧
      (∀ x, x ≠ c → s'.lookupRec x = s.lookupRec x) ∧
      (∃ rc', s'.lookupRec c = some rc' ∧ rc'.is_block = false ∧
        oFinsetTruthy rc'.meta.voided_by = true ∧
        rc'.meta.conflict_with = rc.meta.conflict_with ∧
        fundsChildren rc' = [] ∧ rc'.meta.children = []) := by
  cases hmem : oFinsetTruthy rc.meta.voided_by &&
      decide (c ∈ rc.meta.voided_by.getD ∅) with
  | true =>
    refine ⟨s.pushEvent (.markAsVoided c), ?_, ⟨[], by simp⟩, fun x _ => by simp,
      rc, by simp [hlk], hb, (Bool.and_eq_true _ _ |>.mp hmem).1, rfl, hfc, hch⟩
    rw [run_succ]
    show stepMarkAsVoidedTx _ c s = _
    simp [stepMarkAsVoidedTx, hlk, hb, hcw, hmem]
  | false =>
    -- the fully voided state
    refine ⟨(((((s.pushEvent (.markAsVoided c)).setMeta c fun m =>
        { m with voided_by := some (insert c (m.voided_by.getD ∅)) }).pushEvent
        (.markAsVoided c)).setMeta c fun m =>
        { m with accumulated_weight := env.refreshAW c none }).saveTx c).pushEvent
        (.delFromIndexes c), ?_, ⟨[Event.markAsVoided c, Event.delFromIndexes c],
        by simp⟩, fun x hx => by simp [lookupRec_setMeta_other _ _ _ _ hx], ?_⟩
    case false.refine_2 =>
      refine ⟨{ rc with meta := { rc.meta with
        voided_by := some (insert c (rc.meta.voided_by.getD ∅)),
        accumulated_weight := env.refreshAW c none } }, ?_, hb, ?_, rfl, hfc, hch⟩
      · simp [lookupRec_setMeta_self, hlk]
      · simp [oFinsetTruthy]
    case false.refine_1 =>
      have hlk3 : ((s.pushEvent (.markAsVoided c)).setMeta c fun m =>
          { m with voided_by := some (insert c (m.voided_by.getD ∅)) }).lookupRec c =
          some { rc with meta := { rc.meta with
            voided_by := some (insert c (rc.meta.voided_by.getD ∅)) } } := by
        simp [lookupRec_setMeta_self, hlk]
      have e1 : run env (k + 2) (.markAsVoidedTx c)
          ((s.pushEvent (.markAsVoided c)).setMeta c fun m =>
            { m with voided_by := some (insert c (m.voided_by.getD ∅)) }) =
          some ((((s.pushEvent (.markAsVoided c)).setMeta c fun m =>
            { m with voided_by := some (insert c (m.voided_by.getD ∅)) }).pushEvent
            (.markAsVoided c)), true) := by
        rw [run_succ]
        show stepMarkAsVoidedTx _ c _ = _
        simp [stepMarkAsVoidedTx, hlk3, hb, hcw, oFinsetTruthy]
      have hlk6 : ((((((s.pushEvent (.markAsVoided c)).setMeta c fun m =>
          { m with voided_by := some (insert c (m.voided_by.getD ∅)) }).pushEvent
          (.markAsVoided c)).setMeta c fun m =>
          { m with accumulated_weight := env.refreshAW c none }).saveTx c).pushEvent
          (.delFromIndexes c)).lookupRec c =
          some { rc with meta := { rc.meta with
            voided_by := some (insert c (rc.meta.voided_by.getD ∅)),
            accumulated_weight := env.refreshAW c none } } := by
        simp [lookupRec_setMeta_self, hlk]
      have havc : assertValidConsensus
          ((((((s.pushEvent (.markAsVoided c)).setMeta c fun m =>
          { m with voided_by := some (insert c (m.voided_by.getD ∅)) }).pushEvent
          (.markAsVoided c)).setMeta c fun m =>
          { m with accumulated_weight := env.refreshAW c none }).saveTx c).pushEvent
          (.delFromIndexes c)) c = some () := by
        refine avc_of_voided _ c _ hlk6 (by simp [oFinsetTruthy]) ?_
        intro d hd
        by_cases hdc : d = c
        · subst hdc; rw [hlk6]; rfl
        · simp only [lookupRec_pushEvent, lookupRec_saveTx,
            lookupRec_setMeta_other _ _ _ _ hdc]
          exact hpres d hd
      have e5 : run env (k + 3)
          (.txAddLoop c c (txAddVoidedByDagVerifications env rc.meta) [c] [c] [])
          (s.pushEvent (.markAsVoided c)) =
          some (((((((s.pushEvent (.markAsVoided c)).setMeta c fun m =>
            { m with voided_by := some (insert c (m.voided_by.getD ∅)) }).pushEvent
            (.markAsVoided c)).setMeta c fun m =>
            { m with accumulated_weight := env.refreshAW c none }).saveTx c).pushEvent
            (.delFromIndexes c)), true) := by
        rw [run_succ]
        show stepTxAddLoop env _ c c _ [c] [c] [] _ = _
        simp only [stepTxAddLoop, lookupRec_pushEvent, hlk, hb, Bool.false_eq_true,
          if_false, hmem, e1, hcw, if_true, havc, ne_eq, not_true_eq_false,
          decide_False, Bool.false_and, Bool.and_false, List.all_nil,
          not_true_eq_false, List.append_nil, List.nil_append]
        rw [show walkNeighborsLTR true (txAddVoidedByDagVerifications env rc.meta) rc
            = [] by cases txAddVoidedByDagVerifications env rc.meta <;>
              simp [walkNeighborsLTR, hfc, hch]]
        exact run_txAddLoop_nil env k c c _ [c] _
      rw [run_succ]
      show stepMarkAsVoidedTx _ c s = _
      simp only [stepMarkAsVoidedTx, hlk, hb, Bool.false_eq_true, if_false, hcw,
        Bool.not_true, not_true_eq_false, if_true, hmem]
      rw [show run env (k + 4) (.txAddVoidedBy c c) (s.pushEvent (.markAsVoided c)) =
          some (((((((s.pushEvent (.markAsVoided c)).setMeta c fun m =>
            { m with voided_by := some (insert c (m.voided_by.getD ∅)) }).pushEvent
            (.markAsVoided c)).setMeta c fun m =>
            { m with accumulated_weight := env.refreshAW c none }).saveTx c).pushEvent
            (.delFromIndexes c)), true) from by
          rw [run_succ]
          show stepTxAddVoidedBy env _ c c _ = _
          simp only [stepTxAddVoidedBy, lookupRec_pushEvent, hlk, hb,
            Bool.false_eq_true, if_false, hmem]
          exact e5]
      simp only [havc]

/-- The walk of an empty skip-blocks `check_list` succeeds and returns
the state unchanged (lines 984-987). -/
theorem run_checkListSkipBlocks_nil (env : Env) (k : Nat) (st : St) :
    run env (k + 1) (.checkListSkipBlocks []) st = some (st, true) := by
  rw [run_succ]; rfl

/-- The `remove_voided_by` BFS with an exhausted queue and empty
check-list succeeds and returns the state unchanged (lines 966-987). -/
theorem run_txRemoveLoop_nil (env : Env) (k : Nat) (h : Hash) (seen : List Hash)
    (st : St) :
    run env (k + 2) (.txRemoveLoop h [] seen []) st = some (st, true) := by
  rw [run_succ]
  exact run_checkListSkipBlocks_nil env k st

/-- `mark_as_winner` on a leaf transaction whose `voided_by` is exactly
its self-void and whose conflicts are all present and voided
(lines 934-945): the call reports `True`, logs the winner and the
index re-insertion, clears `voided_by` to `None` and touches no other
record. -/
theorem markAsWinnerLeaf (env : Env) (k : Nat) (s : St) (t : Hash) (tr : Record)
    (cs0 : List Hash)
    (hlk : s.lookupRec t = some tr) (hb : tr.is_block = false)
    (hvb : tr.meta.voided_by = some {t})
    (hcw : tr.meta.conflict_with = some cs0) (hne : cs0 ≠ [])
    (hnin : t ∉ cs0) (hsoft : t ∉ env.soft_voided_tx_ids)
    (hfc : fundsChildren tr = []) (hch : tr.meta.children = [])
    (hvoided : ∀ d ∈ cs0, ∃ rd, s.lookupRec d = some rd ∧
      oFinsetTruthy rd.meta.voided_by = true) :
    ∃ s', run env (k + 6) (.markAsWinner t) s = some (s', true) ∧
      s'.events = s.events ++ [Event.markAsWinner t, Event.addToIndexes t] ∧
      (∀ x, x ≠ t → s'.lookupRec x = s.lookupRec x) ∧
      s'.lookupRec t = some { tr with meta := { tr.meta with voided_by := none } } := by
  refine ⟨((((s.pushEvent (.markAsWinner t)).setMeta t fun m =>
      { m with voided_by := none }).pushEvent (.addToIndexes t)).saveTx t), ?_,
      by simp, fun x hx => by simp [lookupRec_setMeta_other _ _ _ _ hx],
      by simp [lookupRec_setMeta_self, hlk]⟩
  have hlkS : (((((s.pushEvent (.markAsWinner t)).setMeta t fun m =>
      { m with voided_by := none }).pushEvent (.addToIndexes t)).saveTx t)).lookupRec t =
      some { tr with meta := { tr.meta with voided_by := none } } := by
    simp [lookupRec_setMeta_self, hlk]
  have havc : assertValidConsensus ((((s.pushEvent (.markAsWinner t)).setMeta t fun m =>
      { m with voided_by := none }).pushEvent (.addToIndexes t)).saveTx t) t =
      some () := by
    refine avc_of_executed _ t _ hlkS rfl ?_
    intro d hd
    have hdmem : d ∈ cs0 := by simpa [hcw] using hd
    obtain ⟨rd, hlkd, hv⟩ := hvoided d hdmem
    have hdt : d ≠ t := fun hh => hnin (hh ▸ hdmem)
    refine ⟨rd, ?_, hv⟩
    simp only [lookupRec_pushEvent, lookupRec_saveTx,
      lookupRec_setMeta_other _ _ _ _ hdt]
    exact hlkd
  have e_loop : run env (k + 4) (.txRemoveLoop t [t] [t] [])
      (s.pushEvent (.markAsWinner t)) =
      some (((((s.pushEvent (.markAsWinner t)).setMeta t fun m =>
        { m with voided_by := none }).pushEvent (.addToIndexes t)).saveTx t), true) := by
    rw [run_succ]
    show stepTxRemoveLoop _ t [t] [t] [] _ = _
    simp only [stepTxRemoveLoop, lookupRec_pushEvent, hlk, hvb, oFinsetTruthy,
      Option.getD_some, Finset.mem_singleton, decide_True, Bool.and_true,
      Finset.erase_singleton, if_true, Finset.singleton_ne_empty, not_true_eq_false,
      decide_not, Bool.not_eq_true]
    rw [if_neg (by simp)]
    rw [havc]
    rw [show walkNeighborsLTR true true tr = [] from by simp [walkNeighborsLTR, hfc, hch]]
    rw [if_neg (Ne.symm (Finset.singleton_ne_empty t))]
    exact run_txRemoveLoop_nil env (k + 1) t _ _
  rw [run_succ]
  show stepMarkAsWinner env _ t s = _
  simp only [stepMarkAsWinner, hlk, hb, Bool.false_eq_true, if_false, hcw, hvb,
    oListTruthy, hne, not_true_eq_false, not_false_eq_true, if_true, decide_not]
  rw [if_neg hsoft]
  rw [show run env (k + 5) (.txRemoveVoidedBy t t) (s.pushEvent (.markAsWinner t)) =
      some (((((s.pushEvent (.markAsWinner t)).setMeta t fun m =>
        { m with voided_by := none }).pushEvent (.addToIndexes t)).saveTx t), true) from by
      rw [run_succ]
      show stepTxRemoveVoidedBy _ t t _ = _
      simp only [stepTxRemoveVoidedBy, lookupRec_pushEvent, hlk, hb,
        Bool.false_eq_true, if_false, hvb, oFinsetTruthy, Option.getD_some,
        Finset.singleton_ne_empty, not_true_eq_false, Finset.mem_singleton]
      exact e_loop]
  simp [havc]

/-- A record with its accumulated weight forgotten: the equivalence used
to describe the weight-refresh phase of `check_conflicts`, which touches
nothing but accumulated weights. -/
def zeroAW (r : Record) : Record :=
  { r with meta := { r.meta with accumulated_weight := 0 } }

/-- Two states carrying the same records up to accumulated weights. -/
def eqExceptAW (st st2 : St) : Prop :=
  ∀ x, (st2.lookupRec x).map zeroAW = (st.lookupRec x).map zeroAW

theorem eqExceptAW_refl (st : St) : eqExceptAW st st := fun _ => rfl

theorem eqExceptAW_trans {s1 s2 s3 : St} (h1 : eqExceptAW s1 s2)
    (h2 : eqExceptAW s2 s3) : eqExceptAW s1 s3 := fun x => (h2 x).trans (h1 x)

/-- Setting an accumulated weight preserves the records up to
accumulated weights. -/
theorem eqExceptAW_setAW (st : St) (c : Hash) (w : ℚ) :
    eqExceptAW st (st.setMeta c fun m => { m with accumulated_weight := w }) := by
  intro x
  rw [lookupRec_setMeta]
  by_cases hc : x = c
  · subst hc
    cases hx : st.lookupRec x <;> simp [zeroAW]
  · simp [hc]

/-- Extract from an `eqExceptAW` pair the record on the other side: all
fields except the accumulated weight agree. -/
theorem eqExceptAW_lookup {st st2 : St} (h : eqExceptAW st st2) {x : Hash}
    {r : Record} (hlk : st.lookupRec x = some r) :
    ∃ r2, st2.lookupRec x = some r2 ∧ r2.is_block = r.is_block ∧
      r2.parents = r.parents ∧ r2.inputs = r.inputs ∧
      r2.meta.voided_by = r.meta.voided_by ∧
      r2.meta.conflict_with = r.meta.conflict_with ∧
      r2.meta.spent_outputs = r.meta.spent_outputs ∧
      r2.meta.children = r.meta.children := by
  have hx := h x
  rw [hlk] at hx
  cases hlk2 : st2.lookupRec x with
  | none => rw [hlk2] at hx; exact absurd hx (by simp)
  | some r2 =>
    rw [hlk2] at hx
    simp only [Option.map_some', Option.some.injEq] at hx
    have e1 := congrArg Record.is_block hx
    have e2 := congrArg Record.parents hx
    have e3 := congrArg Record.inputs hx
    have e4 := congrArg (fun q : Record => q.meta.voided_by) hx
    have e5 := congrArg (fun q : Record => q.meta.conflict_with) hx
    have e6 := congrArg (fun q : Record => q.meta.spent_outputs) hx
    have e7 := congrArg (fun q : Record => q.meta.children) hx
    exact ⟨r2, rfl, e1, e2, e3, e4, e5, e6, e7⟩

/-- `eqExceptAW` preserves record presence. -/
theorem eqExceptAW_isSome {st st2 : St} (h : eqExceptAW st st2) (x : Hash) :
    (st2.lookupRec x).isSome = (st.lookupRec x).isSome := by
  have hx := h x
  cases h1 : st.lookupRec x <;> cases h2 : st2.lookupRec x <;>
    rw [h1, h2] at hx <;> simp_all

/-- When every listed record is present, collecting them succeeds, in
order, with the stored records (lines 887-891). -/
theorem ccCollectRecs_of_pres (st : St) (l : List Hash)
    (h : ∀ c ∈ l, (st.lookupRec c).isSome) :
    ∃ pairs, ccCollectRecs st l = some pairs ∧ pairs.map Prod.fst = l ∧
      ∀ p ∈ pairs, st.lookupRec p.1 = some p.2 := by
  induction l with
  | nil => exact ⟨[], rfl, rfl, by simp⟩
  | cons c rest ih =>
    obtain ⟨pairs, h1, h2, h3⟩ := ih fun d hd => h d (List.mem_cons_of_mem _ hd)
    have hc := h c (List.mem_cons_self c rest)
    cases hlk : st.lookupRec c with
    | none => rw [hlk] at hc; exact absurd hc (by decide)
    | some rc =>
      refine ⟨(c, rc) :: pairs, by simp [ccCollectRecs, hlk, h1], by simp [h2], ?_⟩
      intro p hp
      rcases List.mem_cons.mp hp with hh | hh
      · subst hh; exact hlk
      · exact h3 p hh

/-- The weight-refresh loop of `check_conflicts` (lines 910-921) under
the no-loss hypothesis: it completes without a loss, only accumulated
weights change, and when additionally no refreshed weight is within
`WEIGHT_TOL` of the target there are no ties. -/
theorem ccWeightLoopRun (env : Env) (awt : ℚ) (st0 : St) (l : List Hash) :
    ∀ (ties0 : List Hash) (st : St), eqExceptAW st0 st →
    (∀ c ∈ l, ∃ rc, st0.lookupRec c = some rc ∧
      (oFinsetTruthy rc.meta.voided_by = false →
        env.refreshAW c (some awt) - awt < weightTol)) →
    ∃ st2 ties, ccWeightLoop env awt l ties0 st = some (st2, true, ties0 ++ ties) ∧
      eqExceptAW st0 st2 ∧ st2.events = st.events ∧ st2.affected = st.affected ∧
      ((∀ c ∈ l, ∀ rc, st0.lookupRec c = some rc →
          oFinsetTruthy rc.meta.voided_by = false →
          ¬ ratAbs (env.refreshAW c (some awt) - awt) < weightTol) → ties = []) := by
  induction l with
  | nil =>
    intro ties0 st heq _
    exact ⟨st, [], by simp [ccWeightLoop], heq, rfl, rfl, fun _ => rfl⟩
  | cons c rest ih =>
    intro ties0 st heq h
    obtain ⟨rc, hlk0, hw⟩ := h c (List.mem_cons_self c rest)
    obtain ⟨rc2, hlk2, _, _, _, hvb, _, _, _⟩ := eqExceptAW_lookup heq hlk0
    cases hv : oFinsetTruthy rc.meta.voided_by with
    | true =>
      obtain ⟨st2, ties, h1, h2, h3, h4, h5⟩ :=
        ih ties0 st heq fun d hd => h d (List.mem_cons_of_mem _ hd)
      refine ⟨st2, ties, ?_, h2, h3, h4,
        fun hnt => h5 fun d hd => hnt d (List.mem_cons_of_mem _ hd)⟩
      simp only [ccWeightLoop, hlk2, hvb, hv, if_true]
      exact h1
    | false =>
      have heq' : eqExceptAW st0 (st.setMeta c fun m =>
          { m with accumulated_weight := env.refreshAW c (some awt) }) :=
        eqExceptAW_trans heq (eqExceptAW_setAW st c _)
      by_cases htie : ratAbs (env.refreshAW c (some awt) - awt) < weightTol
      · obtain ⟨st2, ties, h1, h2, h3, h4, h5⟩ :=
          ih (ties0 ++ [c]) _ heq' fun d hd => h d (List.mem_cons_of_mem _ hd)
        refine ⟨st2, c :: ties, ?_, h2, by simpa using h3, by simpa using h4,
          fun hnt => absurd htie (hnt c (List.mem_cons_self c rest) rc hlk0 hv)⟩
        simp only [ccWeightLoop, hlk2, hvb, hv, Bool.false_eq_true, if_false,
          htie, if_true]
        rw [h1]
        simp
      · have hd0 : ¬ (0 : ℚ) < env.refreshAW c (some awt) - awt := fun hpos =>
          htie (by rw [ratAbs, if_neg (asymm hpos)]; exact hw hv)
        obtain ⟨st2, ties, h1, h2, h3, h4, h5⟩ :=
          ih ties0 _ heq' fun d hd => h d (List.mem_cons_of_mem _ hd)
        refine ⟨st2, ties, ?_, h2, by simpa using h3, by simpa using h4,
          fun hnt => h5 fun d hd => hnt d (List.mem_cons_of_mem _ hd)⟩
        simp only [ccWeightLoop, hlk2, hvb, hv, Bool.false_eq_true, if_false,
          htie, hd0]
        exact h1

/-- The final loops of `check_conflicts` (lines 927-932) over leaf
conflicts: every remaining conflict is voided and logged, previously
logged events survive, and when no tie was collected `mark_as_winner`
runs and clears the winner's `voided_by`. -/
theorem ccVoidLoopRun (env : Env) (t : Hash) (ties : List Hash) (cs0 : List Hash)
    (hne : cs0 ≠ []) (hnin : t ∉ cs0) (hsoft : t ∉ env.soft_voided_tx_ids)
    (cs : List Hash) :
    ∀ (k : Nat) (st : St),
    (∃ tr, st.lookupRec t = some tr ∧ tr.is_block = false ∧
      tr.meta.voided_by = some {t} ∧ tr.meta.conflict_with = some cs0 ∧
      fundsChildren tr = [] ∧ tr.meta.children = []) →
    (∀ d ∈ cs0, d ∉ cs → ∃ rd, st.lookupRec d = some rd ∧
      oFinsetTruthy rd.meta.voided_by = true) →
    (∀ c ∈ cs, ∃ rc, st.lookupRec c = some rc ∧ rc.is_block = false ∧
      oListTruthy rc.meta.conflict_with = true ∧ fundsChildren rc = [] ∧
      rc.meta.children = [] ∧
      (∀ d ∈ rc.meta.conflict_with.getD [], (st.lookupRec d).isSome)) →
    cs.Nodup → t ∉ cs →
    ∃ st', run env (cs.length + (k + 7)) (.ccVoidLoop t cs ties) st =
        some (st', true) ∧
      (∀ c ∈ cs, Event.markAsVoided c ∈ st'.events) ∧
      (∀ e ∈ st.events, e ∈ st'.events) ∧
      (ties = [] → Event.markAsWinner t ∈ st'.events ∧
        ∃ tr', st'.lookupRec t = some tr' ∧ tr'.meta.voided_by = none) := by
  induction cs with
  | nil =>
    intro k st ht hdone _ _ _
    obtain ⟨tr, hlkt, hbt, hvbt, hcwt, hfct, hcht⟩ := ht
    by_cases hts : ties = []
    · subst hts
      obtain ⟨s', hrun, hev, hlkx, hlkt'⟩ :=
        markAsWinnerLeaf env k st t tr cs0 hlkt hbt hvbt hcwt hne hnin hsoft hfct hcht
          fun d hd => hdone d hd (by simp)
      refine ⟨s', ?_, by simp, fun e he => by simp [hev, he], fun _ =>
        ⟨by simp [hev], { tr with meta := { tr.meta with voided_by := none } },
          hlkt', rfl⟩⟩
      rw [show List.length ([] : List Hash) + (k + 7) = (k + 6) + 1 from by simp,
        run_succ]
      simp only [runBody, stepCcVoidLoop, if_pos rfl]
      exact hrun
    · refine ⟨st, ?_, by simp, fun e he => he, fun hh => absurd hh hts⟩
      rw [show List.length ([] : List Hash) + (k + 7) = (k + 6) + 1 from by simp,
        run_succ]
      simp only [runBody, stepCcVoidLoop, if_neg hts]
  | cons c rest ih =>
    intro k st ht hdone hleaf hnd hts
    obtain ⟨hcrest, hndrest⟩ := List.nodup_cons.mp hnd
    have htc : t ≠ c := fun hh => hts (hh ▸ List.mem_cons_self c rest)
    have htrest : t ∉ rest := fun hh => hts (List.mem_cons_of_mem _ hh)
    obtain ⟨rc, hlkc, hbc, hcwc, hfcc, hchc, hpresc⟩ :=
      hleaf c (List.mem_cons_self c rest)
    obtain ⟨s1, hrun1, ⟨evs, hev1⟩, hlkx1, rc', hlkc', hbc', hvc', hcwc', hfcc', hchc'⟩ :=
      markAsVoidedLeaf env (rest.length + k + 2) st c rc hlkc hbc hcwc hfcc hchc hpresc
    obtain ⟨tr, hlkt, hbt, hvbt, hcwt, hfct, hcht⟩ := ht
    obtain ⟨st', hrun2, hmv2, hmono2, hwin2⟩ := ih k s1
      ⟨tr, by rw [hlkx1 t htc]; exact hlkt, hbt, hvbt, hcwt, hfct, hcht⟩
      (by
        intro d hd hdrest
        by_cases hdc : d = c
        · subst hdc; exact ⟨rc', hlkc', hvc'⟩
        · obtain ⟨rd, hlkd, hv⟩ := hdone d hd
            (by simp only [List.mem_cons, not_or]; exact ⟨hdc, hdrest⟩)
          exact ⟨rd, by rw [hlkx1 d hdc]; exact hlkd, hv⟩)
      (by
        intro c' hc'
        have hc'c : c' ≠ c := fun hh => hcrest (hh ▸ hc')
        obtain ⟨rcx, hlkcx, hb1, hcw1, hfc1, hch1, hp1⟩ :=
          hleaf c' (List.mem_cons_of_mem _ hc')
        refine ⟨rcx, by rw [hlkx1 c' hc'c]; exact hlkcx, hb1, hcw1, hfc1, hch1, ?_⟩
        intro d hd
        by_cases hdc : d = c
        · subst hdc; rw [hlkc']; rfl
        · rw [hlkx1 d hdc]; exact hp1 d hd)
      hndrest htrest
    refine ⟨st', ?_, ?_, ?_, hwin2⟩
    · rw [show (c :: rest).length + (k + 7) = (rest.length + k + 7) + 1 from by
        simp [List.length_cons]; omega, run_succ]
      simp only [runBody, stepCcVoidLoop]
      rw [show run env (rest.length + k + 7) (.markAsVoidedTx c) st = some (s1, true)
        from hrun1]
      exact hrun2
    · intro c' hc'
      rcases List.mem_cons.mp hc' with hh | hh
      · subst hh
        exact hmono2 _ (by simp [hev1])
      · exact hmv2 c' hh
    · intro e he
      exact hmono2 e (by simp [hev1, he])

/-- C4: for a transaction `t` carrying exactly its self-void, when no
already-voided candidate in its conflict set has a strictly greater
accumulated weight and refreshing each executed candidate's weight
(early-stopped at `t`'s value) shows no loss, `check_conflicts(t)`
succeeds and calls `mark_as_voided` on every member of
`conflict_with(t)`; when additionally no refreshed weight lies within
`WEIGHT_TOL` of `t`'s (no ties), `mark_as_winner(t)` runs and `t`'s
`voided_by` ends empty (lines 873-945; stated for conflicts and winner
that are leaves of both sub-DAGs). -/
theorem claimC4_checkConflicts (env : Env) (st : St) (t : Hash) (tr : Record)
    (cs : List Hash)
    (hlk : st.lookupRec t = some tr) (hb : tr.is_block = false)
    (hvb : tr.meta.voided_by = some {t})
    (hcw : tr.meta.conflict_with = some cs) (hne : cs ≠ [])
    (hnin : t ∉ cs) (hnd : cs.Nodup)
    (hsoft : t ∉ env.soft_voided_tx_ids)
    (hfc : fundsChildren tr = []) (hch : tr.meta.children = [])
    (hconf : ∀ c ∈ cs, ∃ rc, st.lookupRec c = some rc ∧ rc.is_block = false ∧
      oListTruthy rc.meta.conflict_with = true ∧ fundsChildren rc = [] ∧
      rc.meta.children = [] ∧
      (∀ d ∈ rc.meta.conflict_with.getD [], (st.lookupRec d).isSome) ∧
      (rc.meta.voided_by = some {c} →
        ¬ tr.meta.accumulated_weight < rc.meta.accumulated_weight) ∧
      (oFinsetTruthy rc.meta.voided_by = false →
        env.refreshAW c (some tr.meta.accumulated_weight) -
          tr.meta.accumulated_weight < weightTol)) :
    ∃ n st', run env n (.checkConflicts t) st = some (st', true) ∧
      (∀ c ∈ cs, Event.markAsVoided c ∈ st'.events) ∧
      ((∀ c ∈ cs, ∀ rc, st.lookupRec c = some rc →
          oFinsetTruthy rc.meta.voided_by = false →
          ¬ ratAbs (env.refreshAW c (some tr.meta.accumulated_weight) -
            tr.meta.accumulated_weight) < weightTol) →
        Event.markAsWinner t ∈ st'.events ∧
        ∃ tr', st'.lookupRec t = some tr' ∧ tr'.meta.voided_by = none) := by
  obtain ⟨pairs, hcoll, hmap, hassoc⟩ := ccCollectRecs_of_pres st cs fun c hc => by
    obtain ⟨rc, hl, _⟩ := hconf c hc
    rw [hl]; rfl
  have hall : (pairs.filter ccIsCandidate).all (fun p =>
      !(oFinsetTruthy p.2.meta.voided_by &&
        decide (tr.meta.accumulated_weight < p.2.meta.accumulated_weight))) = true := by
    rw [List.all_eq_true]
    intro p hp
    have hpp : p ∈ pairs := List.mem_of_mem_filter hp
    have hcand : ccIsCandidate p = true := List.of_mem_filter hp
    have hcm : p.1 ∈ cs := by
      have := List.mem_map_of_mem Prod.fst hpp
      rwa [hmap] at this
    obtain ⟨rc, hlkc, _, _, _, _, _, hvolt, _⟩ := hconf p.1 hcm
    have hrc : rc = p.2 := Option.some.inj (hlkc.symm.trans (hassoc p hpp))
    rw [hrc] at hvolt
    cases hfv : oFinsetTruthy p.2.meta.voided_by with
    | false => simp [hfv]
    | true =>
      have hvv : p.2.meta.voided_by = some {p.1} := by
        simpa [ccIsCandidate, hfv] using hcand
      simp [hfv, hvolt hvv]
  have hsubset : ∀ c ∈ (pairs.filter ccIsCandidate).map Prod.fst, c ∈ cs := by
    intro c hcm
    obtain ⟨p, hp, hpc⟩ := List.mem_map.mp hcm
    have hpp : p ∈ pairs := List.mem_of_mem_filter hp
    have := List.mem_map_of_mem Prod.fst hpp
    rw [hmap] at this
    exact hpc ▸ this
  obtain ⟨st2, ties, hwl, heq2, hev2, haff2, hties0⟩ :=
    ccWeightLoopRun env tr.meta.accumulated_weight st
      ((pairs.filter ccIsCandidate).map Prod.fst) [] st (eqExceptAW_refl st)
      (by
        intro c hcm
        obtain ⟨rc, hlkc, _, _, _, _, _, _, hwr⟩ := hconf c (hsubset c hcm)
        exact ⟨rc, hlkc, hwr⟩)
  simp only [List.nil_append] at hwl
  obtain ⟨st', hrun3, hmv3, hmono3, hwin3⟩ :=
    ccVoidLoopRun env t ties cs hne hnin hsoft cs 0 st2
      (by
        obtain ⟨tr2, hlk2, e1, e2, e3, e4, e5, e6, e7⟩ := eqExceptAW_lookup heq2 hlk
        refine ⟨tr2, hlk2, by rw [e1]; exact hb, by rw [e4]; exact hvb,
          by rw [e5]; exact hcw, ?_, by rw [e7]; exact hch⟩
        have hsame : fundsChildren tr2 = fundsChildren tr := by
          simp [fundsChildren, e6]
        rw [hsame]; exact hfc)
      (fun d hd hdn => absurd hd hdn)
      (by
        intro c hc
        obtain ⟨rc, hlkc, hb1, hcw1, hfc1, hch1, hp1, _, _⟩ := hconf c hc
        obtain ⟨rc2, hlk2, e1, e2, e3, e4, e5, e6, e7⟩ := eqExceptAW_lookup heq2 hlkc
        refine ⟨rc2, hlk2, by rw [e1]; exact hb1, by rw [e5]; exact hcw1, ?_,
          by rw [e7]; exact hch1, ?_⟩
        · have hsame : fundsChildren rc2 = fundsChildren rc := by
            simp [fundsChildren, e6]
          rw [hsame]; exact hfc1
        · intro d hd
          rw [eqExceptAW_isSome heq2 d]
          refine hp1 d ?_
          rwa [e5] at hd)
      hnd hnin
  refine ⟨cs.length + 8, st', ?_, hmv3, fun hnt => hwin3 ?_⟩
  · rw [show cs.length + 8 = (cs.length + 7) + 1 from rfl, run_succ]
    simp only [runBody, stepCheckConflicts, hlk, hb, Bool.false_eq_true, if_false,
      hvb, not_true_eq_false, hcw, Option.getD_some, hcoll, hall,
      Bool.true_eq_false, hwl]
    exact hrun3
  · exact hties0 fun c hcm rc hlkc hfv =>
      hnt c (hsubset c hcm) rc hlkc hfv

/-- Environment for the C4 witness: every refreshed accumulated weight
comes back as `0`. -/
def envC4 : Env := { SOFT_VOIDED_ID := 0, refreshAW := fun _ _ => 0 }

/-- The self-voided transaction of the C4 witness (accumulated weight
`1`, in conflict with `2`). -/
def trC4 : Record :=
  { meta := { voided_by := some {1}, conflict_with := some [2],
              accumulated_weight := 1 } }

/-- Its executed rival (accumulated weight `0`). -/
def rcC4 : Record := { meta := { conflict_with := some [1] } }

/-- Store of the C4 witness. -/
def stC4 : St := { recs := [(1, trC4), (2, rcC4)] }

unseal Rat.sub Rat.add Rat.mul Rat.inv Nat.gcd in
/-- C4 witness: `check_conflicts(1)` voids the rival `2` and, its
refreshed weight `0` losing to `1` by more than `WEIGHT_TOL`, crowns `1`
and clears its `voided_by`. -/
theorem claimC4_witness :
    ∃ n st', run envC4 n (.checkConflicts 1) stC4 = some (st', true) ∧
      (∀ c ∈ [2], Event.markAsVoided c ∈ st'.events) ∧
      ((∀ c ∈ [2], ∀ rc, stC4.lookupRec c = some rc →
          oFinsetTruthy rc.meta.voided_by = false →
          ¬ ratAbs (envC4.refreshAW c (some trC4.meta.accumulated_weight) -
            trC4.meta.accumulated_weight) < weightTol) →
        Event.markAsWinner 1 ∈ st'.events ∧
        ∃ tr', st'.lookupRec 1 = some tr' ∧ tr'.meta.voided_by = none) :=
  claimC4_checkConflicts envC4 stC4 1 trC4 [2] (by decide) (by decide) (by decide)
    (by decide) (by decide) (by decide) (by decide) (by decide) (by decide)
    (by decide)
    (by
      intro c hc
      have hc2 : c = 2 := by simpa using hc
      subst hc2
      exact ⟨rcC4, by decide, by decide, by decide, by decide, by decide,
        by decide, by decide, fun _ => by decide⟩)

/-! ### C2: exclusive execution among conflicts -/

/-- A record is executed when its `voided_by` is falsy; `ValidSt` states
that no two records in conflict are both executed (spec P3). -/
def ValidSt (st : St) : Prop :=
  ∀ t rt, st.lookupRec t = some rt →
    ∀ h ∈ rt.meta.conflict_with.getD [], ∀ rh, st.lookupRec h = some rh →
      ¬(oFinsetTruthy rt.meta.voided_by = false ∧
        oFinsetTruthy rh.meta.voided_by = false)

/-- Conflict lists are symmetric (conflicts come from spending the same
output, a symmetric relation). -/
def SymmSt (st : St) : Prop :=
  ∀ t rt, st.lookupRec t = some rt →
    ∀ h ∈ rt.meta.conflict_with.getD [], ∀ rh, st.lookupRec h = some rh →
      t ∈ rh.meta.conflict_with.getD []

/-- Blocks carry no conflicts (blocks spend nothing). -/
def BlockNoCw (st : St) : Prop :=
  ∀ b rb, st.lookupRec b = some rb → rb.is_block = true →
    rb.meta.conflict_with.getD [] = []

/-- The consensus core of a record: block flag, voidedness and conflict
list — everything `ValidSt`, `SymmSt` and `BlockNoCw` depend on. -/
def coreOf (r : Record) : Bool × Bool × Option (List Hash) :=
  (r.is_block, oFinsetTruthy r.meta.voided_by, r.meta.conflict_with)

/-- Two states with the same stored cores. -/
def coreEq (st st2 : St) : Prop :=
  ∀ x, (st2.lookupRec x).map coreOf = (st.lookupRec x).map coreOf

/-- The record skeleton: block flag and conflict list, which `run` never
mutates (voidedness may change). -/
def skelOf (r : Record) : Bool × Option (List Hash) :=
  (r.is_block, r.meta.conflict_with)

/-- Two states with the same stored skeletons. -/
def skelEq (st st2 : St) : Prop :=
  ∀ x, (st2.lookupRec x).map skelOf = (st.lookupRec x).map skelOf

theorem coreEq_refl (st : St) : coreEq st st := fun _ => rfl

theorem coreEq_trans {s1 s2 s3 : St} (h1 : coreEq s1 s2) (h2 : coreEq s2 s3) :
    coreEq s1 s3 := fun x => (h2 x).trans (h1 x)

/-- `context.save` and event logging do not touch the stored records. -/
theorem coreEq_saveTx (A B : St) (u : Hash) (h : coreEq A B) :
    coreEq A (B.saveTx u) := h

theorem coreEq_pushEvent (A B : St) (e : Event) (h : coreEq A B) :
    coreEq A (B.pushEvent e) := h

theorem skelEq_refl (st : St) : skelEq st st := fun _ => rfl

theorem skelEq_trans {s1 s2 s3 : St} (h1 : skelEq s1 s2) (h2 : skelEq s2 s3) :
    skelEq s1 s3 := fun x => (h2 x).trans (h1 x)

theorem skelEq_of_coreEq {s1 s2 : St} (h : coreEq s1 s2) : skelEq s1 s2 := by
  intro x
  have hx := h x
  cases h1 : s1.lookupRec x <;> cases h2 : s2.lookupRec x <;>
    simp_all [coreOf, skelOf, Prod.ext_iff]

/-- Transfer a stored record backwards through a `skelEq`. -/
theorem skelEq_lookup_rev {st st2 : St} (h : skelEq st st2) {x : Hash}
    {r2 : Record} (hlk2 : st2.lookupRec x = some r2) :
    ∃ r, st.lookupRec x = some r ∧ r.is_block = r2.is_block ∧
      r.meta.conflict_with = r2.meta.conflict_with := by
  have hx := h x
  rw [hlk2] at hx
  cases hlk : st.lookupRec x with
  | none => rw [hlk] at hx; exact absurd hx (by simp)
  | some r =>
    rw [hlk] at hx
    simp only [Option.map_some', Option.some.injEq] at hx
    have e1 := congrArg Prod.fst hx
    have e2 := congrArg Prod.snd hx
    exact ⟨r, rfl, e1.symm, e2.symm⟩

/-- Transfer a stored record backwards through a `coreEq`. -/
theorem coreEq_lookup_rev {st st2 : St} (h : coreEq st st2) {x : Hash}
    {r2 : Record} (hlk2 : st2.lookupRec x = some r2) :
    ∃ r, st.lookupRec x = some r ∧ r.is_block = r2.is_block ∧
      oFinsetTruthy r.meta.voided_by = oFinsetTruthy r2.meta.voided_by ∧
      r.meta.conflict_with = r2.meta.conflict_with := by
  have hx := h x
  rw [hlk2] at hx
  cases hlk : st.lookupRec x with
  | none => rw [hlk] at hx; exact absurd hx (by simp)
  | some r =>
    rw [hlk] at hx
    simp only [Option.map_some', Option.some.injEq] at hx
    have e1 := congrArg Prod.fst hx
    have e2 := congrArg (fun p : Bool × Bool × Option (List Hash) => p.2.1) hx
    have e3 := congrArg (fun p : Bool × Bool × Option (List Hash) => p.2.2) hx
    exact ⟨r, rfl, e1.symm, e2.symm, e3.symm⟩

/-- `SymmSt` depends only on the skeletons. -/
theorem symm_of_skelEq {st st2 : St} (hs : SymmSt st) (h : skelEq st st2) :
    SymmSt st2 := by
  intro t rt hlkt x hmem rh hlkh
  obtain ⟨rt0, hlkt0, _, ecw⟩ := skelEq_lookup_rev h hlkt
  obtain ⟨rh0, hlkh0, _, ecw2⟩ := skelEq_lookup_rev h hlkh
  rw [← ecw2]
  exact hs t rt0 hlkt0 x (by rw [ecw]; exact hmem) rh0 hlkh0

/-- `BlockNoCw` depends only on the skeletons. -/
theorem bnc_of_skelEq {st st2 : St} (hb : BlockNoCw st) (h : skelEq st st2) :
    BlockNoCw st2 := by
  intro b rb hlkb hblk
  obtain ⟨rb0, hlkb0, eb, ecw⟩ := skelEq_lookup_rev h hlkb
  rw [← ecw]
  exact hb b rb0 hlkb0 (by rw [eb]; exact hblk)

/-- `ValidSt` depends only on the cores. -/
theorem valid_of_coreEq {st st2 : St} (hv : ValidSt st) (h : coreEq st st2) :
    ValidSt st2 := by
  intro t rt hlkt x hmem rh hlkh hcon
  obtain ⟨rt0, hlkt0, _, ev, ecw⟩ := coreEq_lookup_rev h hlkt
  obtain ⟨rh0, hlkh0, _, ev2, _⟩ := coreEq_lookup_rev h hlkh
  exact hv t rt0 hlkt0 x (by rw [ecw]; exact hmem) rh0 hlkh0
    ⟨ev.trans hcon.1, ev2.trans hcon.2⟩

/-- `setMeta` with a core-preserving metadata update preserves the
cores. -/
theorem coreEq_setMeta (st : St) (u : Hash) (f : TxMeta → TxMeta)
    (hf : ∀ m, oFinsetTruthy (f m).voided_by = oFinsetTruthy m.voided_by ∧
      (f m).conflict_with = m.conflict_with) :
    coreEq st (st.setMeta u f) := by
  intro x
  rw [lookupRec_setMeta]
  by_cases hc : x = u
  · subst hc
    cases hx : st.lookupRec x with
    | none => simp
    | some r => simp [coreOf, (hf r.meta).1, (hf r.meta).2]
  · simp [hc]

/-- `setMeta` with a conflict-preserving metadata update preserves the
skeletons. -/
theorem skelEq_setMeta (st : St) (u : Hash) (f : TxMeta → TxMeta)
    (hf : ∀ m, (f m).conflict_with = m.conflict_with) :
    skelEq st (st.setMeta u f) := by
  intro x
  rw [lookupRec_setMeta]
  by_cases hc : x = u
  · subst hc
    cases hx : st.lookupRec x with
    | none => simp
    | some r => simp [skelOf, hf r.meta]
  · simp [hc]

/-- Voiding a record further (the updated `voided_by` is always truthy)
preserves `ValidSt` unconditionally. -/
theorem valid_setMeta_truthy (st : St) (u : Hash) (f : TxMeta → TxMeta)
    (hcw : ∀ m, (f m).conflict_with = m.conflict_with)
    (hft : ∀ m, oFinsetTruthy (f m).voided_by = true)
    (hv : ValidSt st) : ValidSt (st.setMeta u f) := by
  intro t rt hlkt x hmem rh hlkh hcon
  by_cases ht : t = u
  · subst ht
    rw [lookupRec_setMeta_self] at hlkt
    cases hlk0 : st.lookupRec t with
    | none => rw [hlk0] at hlkt; exact absurd hlkt (by simp)
    | some r0 =>
      rw [hlk0] at hlkt
      simp only [Option.map_some', Option.some.injEq] at hlkt
      rw [← hlkt] at hcon
      rw [hft r0.meta] at hcon
      exact absurd hcon.1 (by simp)
  · rw [lookupRec_setMeta_other _ _ _ _ ht] at hlkt
    by_cases hh : x = u
    · subst hh
      rw [lookupRec_setMeta_self] at hlkh
      cases hlk0 : st.lookupRec x with
      | none => rw [hlk0] at hlkh; exact absurd hlkh (by simp)
      | some r0 =>
        rw [hlk0] at hlkh
        simp only [Option.map_some', Option.some.injEq] at hlkh
        rw [← hlkh] at hcon
        rw [hft r0.meta] at hcon
        exact absurd hcon.2 (by simp)
    · rw [lookupRec_setMeta_other _ _ _ _ hh] at hlkh
      exact hv t rt hlkt x hmem rh hlkh hcon

/-- Mutating a block's metadata (conflicts preserved) cannot break
`ValidSt`: blocks have no conflicts and, by symmetry, appear in no
conflict list. -/
theorem valid_setMeta_on_block (st : St) (b : Hash) (rb : Record)
    (f : TxMeta → TxMeta)
    (hlkb : st.lookupRec b = some rb) (hblk : rb.is_block = true)
    (hcw : ∀ m, (f m).conflict_with = m.conflict_with)
    (hv : ValidSt st) (hs : SymmSt st) (hb : BlockNoCw st) :
    ValidSt (st.setMeta b f) := by
  intro t rt hlkt x hmem rh hlkh hcon
  have hbcw : rb.meta.conflict_with.getD [] = [] := hb b rb hlkb hblk
  by_cases ht : t = b
  · subst ht
    rw [lookupRec_setMeta_self, hlkb] at hlkt
    simp only [Option.map_some', Option.some.injEq] at hlkt
    rw [← hlkt] at hmem
    simp only [hcw rb.meta] at hmem
    rw [hbcw] at hmem
    exact absurd hmem (by simp)
  · rw [lookupRec_setMeta_other _ _ _ _ ht] at hlkt
    by_cases hh : x = b
    · subst hh
      have := hs t rt hlkt x hmem rb hlkb
      rw [hbcw] at this
      exact absurd this (by simp)
    · rw [lookupRec_setMeta_other _ _ _ _ hh] at hlkh
      exact hv t rt hlkt x hmem rh hlkh hcon

/-- Inversion of the executed-side `assert_valid_consensus` loop: every
listed conflict is present and voided. -/
theorem avcLoop_true_inv (st : St) (l : List Hash)
    (h : avcLoop st true l = some ()) :
    ∀ d ∈ l, ∃ rd, st.lookupRec d = some rd ∧
      oFinsetTruthy rd.meta.voided_by = true := by
  induction l with
  | nil => intro d hd; exact absurd hd (by simp)
  | cons c rest ih =>
    intro d hd
    cases hlk : st.lookupRec c with
    | none => rw [avcLoop] at h; simp only [hlk] at h; exact Option.noConfusion h
    | some rc =>
      rw [avcLoop] at h
      simp only [hlk] at h
      cases hfv : oFinsetTruthy rc.meta.voided_by with
      | false => rw [hfv] at h; simp at h
      | true =>
        rw [hfv] at h
        simp only [Bool.not_true, Bool.and_false, Bool.false_eq_true, if_false] at h
        rcases List.mem_cons.mp hd with hh | hh
        · subst hh; exact ⟨rc, hlk, hfv⟩
        · exact ih h d hh

/-- A state that differs from a valid, symmetric state only at `u`
(conflicts preserved everywhere) and passes `assert_valid_consensus` on
`u` is valid: the assert checks every conflict pair through `u`. -/
theorem valid_of_avc (A B : St) (u : Hash)
    (hother : ∀ x, x ≠ u → B.lookupRec x = A.lookupRec x)
    (hsk : skelEq A B)
    (hv : ValidSt A) (hs : SymmSt A)
    (havc : assertValidConsensus B u = some ()) : ValidSt B := by
  cases hlku : B.lookupRec u with
  | none =>
    rw [assertValidConsensus] at havc
    simp only [hlku] at havc
    exact absurd havc (by simp)
  | some ru =>
    rw [assertValidConsensus] at havc
    simp only [hlku] at havc
    intro t rt hlkt x hmem rh hlkh hcon
    by_cases ht : t = u
    · subst ht
      have hrt : rt = ru := Option.some.inj (hlkt.symm.trans hlku)
      subst hrt
      rw [hcon.1] at havc
      simp only [Bool.not_false] at havc
      obtain ⟨rd, hlkd, hfv⟩ := avcLoop_true_inv B _ havc x hmem
      have : rd = rh := Option.some.inj (hlkd.symm.trans hlkh)
      subst this
      rw [hfv] at hcon
      exact absurd hcon.2 (by simp)
    · by_cases hh : x = u
      · subst hh
        have hrh : rh = ru := Option.some.inj (hlkh.symm.trans hlku)
        subst hrh
        rw [hcon.2] at havc
        simp only [Bool.not_false] at havc
        obtain ⟨rA, hlkA, _, ecwA⟩ := skelEq_lookup_rev hsk hlku
        have hlktA : A.lookupRec t = some rt := by rw [← hother t ht]; exact hlkt
        have hmemA : t ∈ rA.meta.conflict_with.getD [] :=
          hs t rt hlktA x hmem rA hlkA
        obtain ⟨rd, hlkd, hfv⟩ := avcLoop_true_inv B _ havc t
          (by rw [← ecwA]; exact hmemA)
        have : rd = rt := Option.some.inj (hlkd.symm.trans hlkt)
        subst this
        rw [hfv] at hcon
        exact absurd hcon.1 (by simp)
      · exact hv t rt (by rw [← hother t ht]; exact hlkt) x hmem rh
          (by rw [← hother x hh]; exact hlkh) hcon

/-- The weight-refresh loop of `check_conflicts` preserves the cores. -/
theorem ccWeightLoop_coreEq (env : Env) (awt : ℚ) (l : List Hash) :
    ∀ (ties : List Hash) (st st2 : St) (b : Bool) (ties2 : List Hash),
    ccWeightLoop env awt l ties st = some (st2, b, ties2) → coreEq st st2 := by
  induction l with
  | nil =>
    intro ties st st2 b ties2 h
    rw [ccWeightLoop] at h
    simp only [Option.some.injEq, Prod.mk.injEq] at h
    rw [← h.1]
    exact coreEq_refl st
  | cons c rest ih =>
    intro ties st st2 b ties2 h
    rw [ccWeightLoop] at h
    cases hlk : st.lookupRec c with
    | none => simp only [hlk] at h; exact Option.noConfusion h
    | some rc =>
      simp only [hlk] at h
      cases hfv : oFinsetTruthy rc.meta.voided_by with
      | true =>
        rw [hfv] at h
        simp only [if_true] at h
        exact ih ties st st2 b ties2 h
      | false =>
        rw [hfv] at h
        simp only [Bool.false_eq_true, if_false] at h
        have hcore : coreEq st (st.setMeta c fun m =>
            { m with accumulated_weight := env.refreshAW c (some awt) }) :=
          coreEq_setMeta st c _ (fun m => ⟨rfl, rfl⟩)
        by_cases htie : ratAbs (env.refreshAW c (some awt) - awt) < weightTol
        · rw [if_pos htie] at h
          exact coreEq_trans hcore (ih _ _ _ _ _ h)
        · rw [if_neg htie] at h
          by_cases hpos : (0 : ℚ) < env.refreshAW c (some awt) - awt
          · rw [if_pos hpos] at h
            simp only [Option.some.injEq, Prod.mk.injEq] at h
            rw [← h.1]
            exact hcore
          · rw [if_neg hpos] at h
            exact coreEq_trans hcore (ih _ _ _ _ _ h)

/-- The accumulated-weight loop of `update_voided_info` preserves the
cores. -/
theorem uviAwLoop_coreEq (env : Env) (w : ℚ) (l : List Hash) :
    ∀ (st st2 : St), uviAwLoop env w l st = some st2 → coreEq st st2 := by
  induction l with
  | nil =>
    intro st st2 h
    rw [uviAwLoop] at h
    exact Option.some.inj h ▸ coreEq_refl st
  | cons c rest ih =>
    intro st st2 h
    rw [uviAwLoop] at h
    by_cases hc : c = env.SOFT_VOIDED_ID
    · rw [if_pos hc] at h
      exact ih st st2 h
    · rw [if_neg hc] at h
      cases hlk : st.lookupRec c with
      | none => simp only [hlk] at h; exact Option.noConfusion h
      | some rc =>
        simp only [hlk] at h
        refine coreEq_trans ?_ (ih _ _ h)
        exact coreEq_saveTx _ _ _ (coreEq_setMeta st c
          (fun m => { m with accumulated_weight := env.sumWeights m.accumulated_weight w })
          (fun m => ⟨rfl, rfl⟩))

/-- The first-block-marker BFS preserves the cores. -/
theorem rfbmLoop_coreEq (b : Hash) : ∀ (fuel : Nat) (queue seen : List Hash)
    (st st2 : St), rfbmLoop b fuel queue seen st = some st2 → coreEq st st2 := by
  intro fuel
  induction fuel with
  | zero => intro queue seen st st2 h; exact absurd h (by simp [rfbmLoop])
  | succ fuel ih =>
    intro queue seen st st2 h
    cases queue with
    | nil =>
      rw [rfbmLoop] at h
      exact Option.some.inj h ▸ coreEq_refl st
    | cons u q =>
      rw [rfbmLoop] at h
      cases hlk : st.lookupRec u with
      | none => simp only [hlk] at h; exact Option.noConfusion h
      | some r =>
        simp only [hlk] at h
        by_cases hblk : r.is_block = true
        · rw [if_pos hblk] at h
          exact ih q seen st st2 h
        · rw [if_neg hblk] at h
          by_cases hfb : r.meta.first_block = some b
          · rw [if_neg (not_not_intro hfb)] at h
            refine coreEq_trans ?_ (ih _ _ _ _ h)
            exact coreEq_saveTx _ _ _ (coreEq_setMeta st u
              (fun m => { m with first_block := none }) (fun m => ⟨rfl, rfl⟩))
          · rw [if_pos hfb] at h
            exact ih q seen st st2 h

/-- `remove_first_block_markers` preserves the cores. -/
theorem removeFirstBlockMarkers_coreEq (fuel : Nat) (st st2 : St) (b : Hash)
    (h : removeFirstBlockMarkers fuel st b = some st2) : coreEq st st2 := by
  rw [removeFirstBlockMarkers] at h
  cases hlk : st.lookupRec b with
  | none => simp only [hlk] at h; exact Option.noConfusion h
  | some r =>
    simp only [hlk] at h
    exact rfbmLoop_coreEq b fuel _ _ st st2 h

theorem skelEq_saveTx (A B : St) (u : Hash) (h : skelEq A B) :
    skelEq A (B.saveTx u) := h

theorem skelEq_pushEvent (A B : St) (e : Event) (h : skelEq A B) :
    skelEq A (B.pushEvent e) := h

theorem valid_saveTx (B : St) (u : Hash) (h : ValidSt B) : ValidSt (B.saveTx u) := h

theorem valid_pushEvent (B : St) (e : Event) (h : ValidSt B) :
    ValidSt (B.pushEvent e) := h

set_option maxHeartbeats 4000000 in
/-- Every successful consensus operation preserves the
execution-exclusivity invariant (and never touches block flags or
conflict lists): the `assert_valid_consensus` calls after every
`voided_by` mutation enforce it. -/
theorem run_preserves_valid (env : Env) : ∀ n c st st' res,
    ValidSt st → SymmSt st → BlockNoCw st →
    run env n c st = some (st', res) →
    ValidSt st' ∧ skelEq st st' := by
  intro n
  induction n with
  | zero => intro c st st' res _ _ _ h; exact absurd h (by simp [run])
  | succ n ih =>
    intro c st st' res hv hs hbc hrun
    have step : ∀ c2 A B r2, ValidSt A → skelEq st A →
        run env n c2 A = some (B, r2) → ValidSt B ∧ skelEq st B := by
      intro c2 A B r2 hvA hskA hr
      obtain ⟨hvB, hskB⟩ := ih c2 A B r2 hvA (symm_of_skelEq hs hskA)
        (bnc_of_skelEq hbc hskA) hr
      exact ⟨hvB, skelEq_trans hskA hskB⟩
    rw [run_succ] at hrun
    cases c with
    | checkConflicts t =>
      simp only [runBody, stepCheckConflicts] at hrun
      cases hlk : st.lookupRec t with
      | none => simp only [hlk] at hrun; exact Option.noConfusion hrun
      | some tx =>
        simp only [hlk] at hrun
        cases hblk : tx.is_block with
        | true => rw [hblk] at hrun; simp only [if_true] at hrun
                  exact Option.noConfusion hrun
        | false =>
          rw [hblk] at hrun
          simp only [Bool.false_eq_true, if_false] at hrun
          by_cases hvb : tx.meta.voided_by = some {t}
          · rw [if_neg (not_not_intro hvb)] at hrun
            cases hcoll : ccCollectRecs st (tx.meta.conflict_with.getD []) with
            | none => simp only [hcoll] at hrun; exact Option.noConfusion hrun
            | some pairs =>
              simp only [hcoll] at hrun
              split at hrun
              · cases hrun
                exact ⟨hv, skelEq_refl st⟩
              · cases hwl : ccWeightLoop env tx.meta.accumulated_weight
                    ((pairs.filter ccIsCandidate).map Prod.fst) [] st with
                | none => simp only [hwl] at hrun; exact Option.noConfusion hrun
                | some trip =>
                  obtain ⟨st1, b1, ties1⟩ := trip
                  have hcore1 : coreEq st st1 :=
                    ccWeightLoop_coreEq env _ _ [] st st1 b1 ties1 hwl
                  have hv1 := valid_of_coreEq hv hcore1
                  have hsk1 := skelEq_of_coreEq hcore1
                  cases b1 with
                  | false =>
                    simp only [hwl] at hrun
                    cases hrun
                    exact ⟨hv1, hsk1⟩
                  | true =>
                    simp only [hwl] at hrun
                    exact step _ _ _ _ hv1 hsk1 hrun
          · rw [if_pos hvb] at hrun
            cases hrun
            exact ⟨hv, skelEq_refl st⟩
    | ccVoidLoop t cs ties =>
      cases cs with
      | nil =>
        simp only [runBody, stepCcVoidLoop] at hrun
        by_cases hts : ties = []
        · rw [if_pos hts] at hrun
          exact step _ _ _ _ hv (skelEq_refl st) hrun
        · rw [if_neg hts] at hrun
          cases hrun
          exact ⟨hv, skelEq_refl st⟩
      | cons c rest =>
        simp only [runBody, stepCcVoidLoop] at hrun
        cases hr1 : run env n (.markAsVoidedTx c) st with
        | none => simp only [hr1] at hrun; exact Option.noConfusion hrun
        | some p =>
          obtain ⟨st1, r1⟩ := p
          simp only [hr1] at hrun
          obtain ⟨hv1, hsk1⟩ := step _ _ _ _ hv (skelEq_refl st) hr1
          exact step _ _ _ _ hv1 hsk1 hrun
    | markAsWinner t =>
      simp only [runBody, stepMarkAsWinner] at hrun
      cases hlk : st.lookupRec t with
      | none => simp only [hlk] at hrun; exact Option.noConfusion hrun
      | some tx =>
        simp only [hlk] at hrun
        cases hblk : tx.is_block with
        | true => rw [hblk] at hrun; simp only [if_true] at hrun
                  exact Option.noConfusion hrun
        | false =>
          rw [hblk] at hrun
          simp only [Bool.false_eq_true, if_false] at hrun
          split at hrun
          · exact Option.noConfusion hrun
          · split at hrun
            · exact Option.noConfusion hrun
            · split at hrun
              · exact Option.noConfusion hrun
              · cases hr1 : run env n (.txRemoveVoidedBy t t)
                    (st.pushEvent (.markAsWinner t)) with
                | none => simp only [hr1] at hrun; exact Option.noConfusion hrun
                | some p =>
                  obtain ⟨st1, r1⟩ := p
                  simp only [hr1] at hrun
                  obtain ⟨hv1, hsk1⟩ := step _ (st.pushEvent (.markAsWinner t)) _ _
                    hv (skelEq_refl st) hr1
                  cases havc : assertValidConsensus st1 t with
                  | none => simp only [havc] at hrun; exact Option.noConfusion hrun
                  | some uu =>
                    simp only [havc] at hrun
                    cases hrun
                    exact ⟨hv1, hsk1⟩
    | markAsVoidedTx t =>
      simp only [runBody, stepMarkAsVoidedTx] at hrun
      cases hlk : st.lookupRec t with
      | none => simp only [hlk] at hrun; exact Option.noConfusion hrun
      | some tx =>
        simp only [hlk] at hrun
        cases hblk : tx.is_block with
        | true => rw [hblk] at hrun; simp only [if_true] at hrun
                  exact Option.noConfusion hrun
        | false =>
          rw [hblk] at hrun
          simp only [Bool.false_eq_true, if_false] at hrun
          split at hrun
          · exact Option.noConfusion hrun
          · split at hrun
            · cases hrun
              exact ⟨hv, skelEq_refl st⟩
            · cases hr1 : run env n (.txAddVoidedBy t t)
                  (st.pushEvent (.markAsVoided t)) with
              | none => simp only [hr1] at hrun; exact Option.noConfusion hrun
              | some p =>
                obtain ⟨st1, r1⟩ := p
                simp only [hr1] at hrun
                obtain ⟨hv1, hsk1⟩ := step _ (st.pushEvent (.markAsVoided t)) _ _
                  hv (skelEq_refl st) hr1
                cases havc : assertValidConsensus st1 t with
                | none => simp only [havc] at hrun; exact Option.noConfusion hrun
                | some uu =>
                  simp only [havc] at hrun
                  cases hrun
                  exact ⟨hv1, hsk1⟩
    | txAddVoidedBy t h =>
      simp only [runBody, stepTxAddVoidedBy] at hrun
      cases hlk : st.lookupRec t with
      | none => simp only [hlk] at hrun; exact Option.noConfusion hrun
      | some tx =>
        simp only [hlk] at hrun
        cases hblk : tx.is_block with
        | true => rw [hblk] at hrun; simp only [if_true] at hrun
                  exact Option.noConfusion hrun
        | false =>
          rw [hblk] at hrun
          simp only [Bool.false_eq_true, if_false] at hrun
          split at hrun
          · cases hrun
            exact ⟨hv, skelEq_refl st⟩
          · exact step _ _ _ _ hv (skelEq_refl st) hrun
    | checkListAll cs =>
      cases cs with
      | nil =>
        simp only [runBody, stepCheckListAll] at hrun
        cases hrun
        exact ⟨hv, skelEq_refl st⟩
      | cons c rest =>
        simp only [runBody, stepCheckListAll] at hrun
        cases hr1 : run env n (.checkConflicts c) st with
        | none => simp only [hr1] at hrun; exact Option.noConfusion hrun
        | some p =>
          obtain ⟨st1, r1⟩ := p
          simp only [hr1] at hrun
          obtain ⟨hv1, hsk1⟩ := step _ _ _ _ hv (skelEq_refl st) hr1
          exact step _ _ _ _ hv1 hsk1 hrun
    | txRemoveVoidedBy t h =>
      simp only [runBody, stepTxRemoveVoidedBy] at hrun
      cases hlk : st.lookupRec t with
      | none => simp only [hlk] at hrun; exact Option.noConfusion hrun
      | some tx =>
        simp only [hlk] at hrun
        cases hblk : tx.is_block with
        | true => rw [hblk] at hrun; simp only [if_true] at hrun
                  exact Option.noConfusion hrun
        | false =>
          rw [hblk] at hrun
          simp only [Bool.false_eq_true, if_false] at hrun
          split at hrun
          · cases hrun
            exact ⟨hv, skelEq_refl st⟩
          · split at hrun
            · cases hrun
              exact ⟨hv, skelEq_refl st⟩
            · exact step _ _ _ _ hv (skelEq_refl st) hrun
    | checkListSkipBlocks cs =>
      cases cs with
      | nil =>
        simp only [runBody, stepCheckListSkipBlocks] at hrun
        cases hrun
        exact ⟨hv, skelEq_refl st⟩
      | cons c rest =>
        simp only [runBody, stepCheckListSkipBlocks] at hrun
        cases hlk : st.lookupRec c with
        | none => simp only [hlk] at hrun; exact Option.noConfusion hrun
        | some r =>
          simp only [hlk] at hrun
          split at hrun
          · exact step _ _ _ _ hv (skelEq_refl st) hrun
          · cases hr1 : run env n (.checkConflicts c) st with
            | none => simp only [hr1] at hrun; exact Option.noConfusion hrun
            | some p =>
              obtain ⟨st1, r1⟩ := p
              simp only [hr1] at hrun
              obtain ⟨hv1, hsk1⟩ := step _ _ _ _ hv (skelEq_refl st) hr1
              exact step _ _ _ _ hv1 hsk1 hrun
    | blockMarkAsVoided b skipMarkers =>
      simp only [runBody, stepBlockMarkAsVoided] at hrun
      cases hlk : st.lookupRec b with
      | none => simp only [hlk] at hrun; exact Option.noConfusion hrun
      | some r =>
        simp only [hlk] at hrun
        split at hrun
        · exact Option.noConfusion hrun
        · cases skipMarkers with
          | true =>
            simp only [if_true] at hrun
            exact step _ _ _ _ hv (skelEq_refl st) hrun
          | false =>
            simp only [Bool.false_eq_true, if_false] at hrun
            cases hrm : removeFirstBlockMarkers n st b with
            | none => simp only [hrm] at hrun; exact Option.noConfusion hrun
            | some st1 =>
              simp only [hrm] at hrun
              have hcore1 := removeFirstBlockMarkers_coreEq n st st1 b hrm
              exact step _ _ _ _ (valid_of_coreEq hv hcore1)
                (skelEq_of_coreEq hcore1) hrun
    | blockAddVoidedBy b vho =>
      simp only [runBody, stepBlockAddVoidedBy] at hrun
      cases hlk : st.lookupRec b with
      | none => simp only [hlk] at hrun; exact Option.noConfusion hrun
      | some r =>
        simp only [hlk] at hrun
        split at hrun
        · exact Option.noConfusion hrun
        · rename_i hblk
          rw [Bool.not_eq_true] at hblk
          have hblk2 : r.is_block = true := by
            cases hbb : r.is_block with
            | true => rfl
            | false => exact absurd hbb hblk
          have hcore1 : coreEq st (if ¬ oFinsetTruthy r.meta.voided_by = true
              then st.setMeta b (fun m => { m with voided_by := some ∅ }) else st) := by
            by_cases hfv : oFinsetTruthy r.meta.voided_by = true
            · rw [if_neg (not_not_intro hfv)]
              exact coreEq_refl st
            · rw [if_pos hfv]
              intro x
              rw [lookupRec_setMeta]
              by_cases hx : x = b
              · subst hx
                rw [hlk]
                simp only [Bool.not_eq_true] at hfv
                have he : oFinsetTruthy (some (∅ : Finset Hash)) = false := by decide
                simp [coreOf, he, hfv]
              · simp [hx]
          have hv1 := valid_of_coreEq hv hcore1
          have hsk1 := skelEq_of_coreEq hcore1
          cases hlk1 : (if ¬ oFinsetTruthy r.meta.voided_by = true
              then st.setMeta b (fun m => { m with voided_by := some ∅ })
              else st).lookupRec b with
          | none => simp only [hlk1] at hrun; exact Option.noConfusion hrun
          | some r2 =>
            simp only [hlk1] at hrun
            split at hrun
            · cases hrun
              exact ⟨hv1, hsk1⟩
            · exact step _ _ _ _
                (valid_saveTx _ _ (valid_setMeta_truthy _ b
                  (fun m => { m with voided_by := (some (insert (vho.getD b)
                    (m.voided_by.getD ∅))) })
                  (fun m => rfl)
                  (fun m => by simp [oFinsetTruthy, Finset.insert_ne_empty]) hv1))
                (skelEq_saveTx _ _ _ (skelEq_trans hsk1
                  (skelEq_setMeta _ b
                    (fun m => { m with voided_by := (some (insert (vho.getD b)
                      (m.voided_by.getD ∅))) })
                    (fun m => rfl)))) hrun
    | blockAddSpenders vh hs2 =>
      cases hs2 with
      | nil =>
        simp only [runBody, stepBlockAddSpenders] at hrun
        cases hrun
        exact ⟨hv, skelEq_refl st⟩
      | cons x rest =>
        simp only [runBody, stepBlockAddSpenders] at hrun
        cases hlk : st.lookupRec x with
        | none => simp only [hlk] at hrun; exact Option.noConfusion hrun
        | some rx =>
          simp only [hlk] at hrun
          split at hrun
          · exact Option.noConfusion hrun
          · cases hr1 : run env n (.txAddVoidedBy x vh) st with
            | none => simp only [hr1] at hrun; exact Option.noConfusion hrun
            | some p =>
              obtain ⟨st1, r1⟩ := p
              simp only [hr1] at hrun
              obtain ⟨hv1, hsk1⟩ := step _ _ _ _ hv (skelEq_refl st) hr1
              exact step _ _ _ _ hv1 hsk1 hrun
    | blockRemoveVoidedBy b vho =>
      simp only [runBody, stepBlockRemoveVoidedBy] at hrun
      cases hlk : st.lookupRec b with
      | none => simp only [hlk] at hrun; exact Option.noConfusion hrun
      | some r =>
        simp only [hlk] at hrun
        split at hrun
        · exact Option.noConfusion hrun
        · rename_i hblk
          rw [Bool.not_eq_true] at hblk
          have hblk2 : r.is_block = true := by
            cases hbb : r.is_block with
            | true => rfl
            | false => exact absurd hbb hblk
          split at hrun
          · cases hrun
            exact ⟨hv, skelEq_refl st⟩
          · split at hrun
            · cases hrun
              exact ⟨hv, skelEq_refl st⟩
            · exact step _ _ _ _
                (valid_saveTx _ _ (valid_setMeta_on_block st b r
                  (fun m => { m with voided_by := (if (r.meta.voided_by.getD
                    ∅).erase (vho.getD b) = ∅ then none
                    else some ((r.meta.voided_by.getD ∅).erase (vho.getD b))) })
                  hlk hblk2 (fun m => rfl) hv hs hbc))
                (skelEq_saveTx _ _ _ (skelEq_setMeta st b
                  (fun m => { m with voided_by := (if (r.meta.voided_by.getD
                    ∅).erase (vho.getD b) = ∅ then none
                    else some ((r.meta.voided_by.getD ∅).erase (vho.getD b))) })
                  (fun m => rfl))) hrun
    | blockRemoveSpenders vh hs2 =>
      cases hs2 with
      | nil =>
        simp only [runBody, stepBlockRemoveSpenders] at hrun
        cases hrun
        exact ⟨hv, skelEq_refl st⟩
      | cons x rest =>
        simp only [runBody, stepBlockRemoveSpenders] at hrun
        cases hlk : st.lookupRec x with
        | none => simp only [hlk] at hrun; exact Option.noConfusion hrun
        | some rx =>
          simp only [hlk] at hrun
          split at hrun
          · exact Option.noConfusion hrun
          · cases hr1 : run env n (.txRemoveVoidedBy x vh) st with
            | none => simp only [hr1] at hrun; exact Option.noConfusion hrun
            | some p =>
              obtain ⟨st1, r1⟩ := p
              simp only [hr1] at hrun
              obtain ⟨hv1, hsk1⟩ := step _ _ _ _ hv (skelEq_refl st) hr1
              exact step _ _ _ _ hv1 hsk1 hrun
    | uviCheckLoop t hs2 =>
      cases hs2 with
      | nil =>
        simp only [runBody, stepUviCheckLoop] at hrun
        cases hrun
        exact ⟨hv, skelEq_refl st⟩
      | cons x rest =>
        simp only [runBody, stepUviCheckLoop] at hrun
        split at hrun
        · exact step _ _ _ _ hv (skelEq_refl st) hrun
        · cases hlk : st.lookupRec x with
          | none => simp only [hlk] at hrun; exact Option.noConfusion hrun
          | some r =>
            simp only [hlk] at hrun
            split at hrun
            · exact step _ _ _ _ hv (skelEq_refl st) hrun
            · cases hr1 : run env n (.checkConflicts x) st with
              | none => simp only [hr1] at hrun; exact Option.noConfusion hrun
              | some p =>
                obtain ⟨st1, r1⟩ := p
                simp only [hr1] at hrun
                obtain ⟨hv1, hsk1⟩ := step _ _ _ _ hv (skelEq_refl st) hr1
                exact step _ _ _ _ hv1 hsk1 hrun
    | uviMarkLoop hs2 =>
      cases hs2 with
      | nil =>
        simp only [runBody, stepUviMarkLoop] at hrun
        cases hrun
        exact ⟨hv, skelEq_refl st⟩
      | cons x rest =>
        simp only [runBody, stepUviMarkLoop] at hrun
        cases hlk : st.lookupRec x with
        | none => simp only [hlk] at hrun; exact Option.noConfusion hrun
        | some r =>
          simp only [hlk] at hrun
          split at hrun
          · cases hr1 : run env n (.markAsVoidedTx x) st with
            | none => simp only [hr1] at hrun; exact Option.noConfusion hrun
            | some p =>
              obtain ⟨st1, r1⟩ := p
              simp only [hr1] at hrun
              obtain ⟨hv1, hsk1⟩ := step _ _ _ _ hv (skelEq_refl st) hr1
              exact step _ _ _ _ hv1 hsk1 hrun
          · exact step _ _ _ _ hv (skelEq_refl st) hrun
    | txAddLoop h root verif queue seen cl =>
      cases queue with
      | nil =>
        simp only [runBody, stepTxAddLoop] at hrun
        exact step _ _ _ _ hv (skelEq_refl st) hrun
      | cons u q =>
        simp only [runBody, stepTxAddLoop] at hrun
        cases hlk : st.lookupRec u with
        | none => simp only [hlk] at hrun; exact Option.noConfusion hrun
        | some r =>
          simp only [hlk] at hrun
          cases hblkc : r.is_block with
          | true =>
            rw [hblkc] at hrun
            simp only [if_true] at hrun
            cases hr1 : run env n (.blockMarkAsVoided u false) st with
            | none => simp only [hr1] at hrun; exact Option.noConfusion hrun
            | some p =>
              obtain ⟨st1, r1⟩ := p
              simp only [hr1] at hrun
              obtain ⟨hv1, hsk1⟩ := step _ st _ _ hv (skelEq_refl st) hr1
              have hv2 : ValidSt (st1.pushEvent (Event.updateBestTipsCache none)) := hv1
              have hsk2 : skelEq st (st1.pushEvent (Event.updateBestTipsCache none)) := hsk1
              cases hlk2 : (st1.pushEvent (Event.updateBestTipsCache none)).lookupRec u with
              | none => simp only [hlk2] at hrun; exact Option.noConfusion hrun
              | some r2 =>
                simp only [hlk2] at hrun
                cases hbm : oFinsetTruthy r2.meta.voided_by &&
                    decide (h ∈ r2.meta.voided_by.getD ∅) with
                | true =>
                  rw [hbm] at hrun
                  simp only [if_true] at hrun
                  exact Option.noConfusion hrun
                | false =>
                  rw [hbm] at hrun
                  simp only [Bool.false_eq_true, if_false] at hrun
                  by_cases hext : (if u ≠ root && oListTruthy r2.meta.conflict_with &&
                      !oFinsetTruthy r2.meta.voided_by then r2.meta.conflict_with.getD []
                      else []).all (fun d => ((st1.pushEvent (Event.updateBestTipsCache none)).lookupRec d).isSome) = true
                  case neg => rw [if_pos hext] at hrun; exact Option.noConfusion hrun
                  rw [if_neg (not_not_intro hext)] at hrun
                  have hv3 : ValidSt ((st1.pushEvent (Event.updateBestTipsCache none)).setMeta u fun m =>
                      { m with voided_by := (some (insert h (m.voided_by.getD ∅))) }) :=
                    valid_setMeta_truthy _ u _ (fun m => rfl)
                      (fun m => by simp [oFinsetTruthy, Finset.insert_ne_empty]) hv2
                  have hsk3 : skelEq st ((st1.pushEvent (Event.updateBestTipsCache none)).setMeta u fun m =>
                      { m with voided_by := (some (insert h (m.voided_by.getD ∅))) }) :=
                    skelEq_trans hsk2 (skelEq_setMeta _ u _ (fun m => rfl))
                  cases hcw2 : oListTruthy r2.meta.conflict_with with
                  | false =>
                    rw [hcw2] at hrun
                    simp only [Bool.false_eq_true, if_false] at hrun
                    cases havc : assertValidConsensus ((((st1.pushEvent (Event.updateBestTipsCache none)).setMeta u fun m =>
                        { m with voided_by := (some (insert h (m.voided_by.getD ∅))) }).saveTx
                        u).pushEvent (.delFromIndexes u)) u with
                    | none => simp only [havc] at hrun; exact Option.noConfusion hrun
                    | some uu =>
                      simp only [havc] at hrun
                      exact step _ ((((st1.pushEvent (Event.updateBestTipsCache none)).setMeta u fun m =>
                        { m with voided_by := (some (insert h (m.voided_by.getD ∅))) }).saveTx
                        u).pushEvent (.delFromIndexes u)) _ _ hv3 hsk3 hrun
                  | true =>
                    rw [hcw2] at hrun
                    simp only [if_true] at hrun
                    cases hblk2 : r2.is_block with
                    | true =>
                      rw [hblk2] at hrun
                      simp only [if_true] at hrun
                      exact Option.noConfusion hrun
                    | false =>
                      rw [hblk2] at hrun
                      simp only [Bool.false_eq_true, if_false] at hrun
                      cases hr4 : run env n (.markAsVoidedTx u) ((st1.pushEvent (Event.updateBestTipsCache none)).setMeta u fun m =>
                          { m with voided_by := (some (insert h (m.voided_by.getD ∅))) }) with
                      | none => simp only [hr4] at hrun; exact Option.noConfusion hrun
                      | some p4 =>
                        obtain ⟨st4, r4⟩ := p4
                        simp only [hr4] at hrun
                        obtain ⟨hv4, hsk4⟩ := step _ ((st1.pushEvent (Event.updateBestTipsCache none)).setMeta u fun m =>
                            { m with voided_by := (some (insert h (m.voided_by.getD ∅))) }) _ _
                          hv3 hsk3 hr4
                        have hv5 : ValidSt (st4.setMeta u fun m =>
                            { m with accumulated_weight := env.refreshAW u none }) :=
                          valid_of_coreEq hv4 (coreEq_setMeta st4 u _ (fun m => ⟨rfl, rfl⟩))
                        have hsk5 : skelEq st (st4.setMeta u fun m =>
                            { m with accumulated_weight := env.refreshAW u none }) :=
                          skelEq_trans hsk4 (skelEq_setMeta st4 u _ (fun m => rfl))
                        cases havc : assertValidConsensus (((st4.setMeta u fun m =>
                            { m with accumulated_weight := env.refreshAW u none }).saveTx
                            u).pushEvent (.delFromIndexes u)) u with
                        | none => simp only [havc] at hrun; exact Option.noConfusion hrun
                        | some uu =>
                          simp only [havc] at hrun
                          exact step _ (((st4.setMeta u fun m =>
                            { m with accumulated_weight := env.refreshAW u none }).saveTx
                            u).pushEvent (.delFromIndexes u)) _ _ hv5 hsk5 hrun
          | false =>
            rw [hblkc] at hrun
            simp only [Bool.false_eq_true, if_false] at hrun
            have hv2 : ValidSt st := hv
            have hsk2 : skelEq st st := skelEq_refl st
            cases hlk2 : (st).lookupRec u with
            | none => simp only [hlk2] at hrun; exact Option.noConfusion hrun
            | some r2 =>
              simp only [hlk2] at hrun
              cases hbm : oFinsetTruthy r2.meta.voided_by &&
                  decide (h ∈ r2.meta.voided_by.getD ∅) with
              | true =>
                rw [hbm] at hrun
                simp only [if_true] at hrun
                exact Option.noConfusion hrun
              | false =>
                rw [hbm] at hrun
                simp only [Bool.false_eq_true, if_false] at hrun
                by_cases hext : (if u ≠ root && oListTruthy r2.meta.conflict_with &&
                    !oFinsetTruthy r2.meta.voided_by then r2.meta.conflict_with.getD []
                    else []).all (fun d => ((st).lookupRec d).isSome) = true
                case neg => rw [if_pos hext] at hrun; exact Option.noConfusion hrun
                rw [if_neg (not_not_intro hext)] at hrun
                have hv3 : ValidSt ((st).setMeta u fun m =>
                    { m with voided_by := (some (insert h (m.voided_by.getD ∅))) }) :=
                  valid_setMeta_truthy _ u _ (fun m => rfl)
                    (fun m => by simp [oFinsetTruthy, Finset.insert_ne_empty]) hv2
                have hsk3 : skelEq st ((st).setMeta u fun m =>
                    { m with voided_by := (some (insert h (m.voided_by.getD ∅))) }) :=
                  skelEq_trans hsk2 (skelEq_setMeta _ u _ (fun m => rfl))
                cases hcw2 : oListTruthy r2.meta.conflict_with with
                | false =>
                  rw [hcw2] at hrun
                  simp only [Bool.false_eq_true, if_false] at hrun
                  cases havc : assertValidConsensus ((((st).setMeta u fun m =>
                      { m with voided_by := (some (insert h (m.voided_by.getD ∅))) }).saveTx
                      u).pushEvent (.delFromIndexes u)) u with
                  | none => simp only [havc] at hrun; exact Option.noConfusion hrun
                  | some uu =>
                    simp only [havc] at hrun
                    exact step _ ((((st).setMeta u fun m =>
                      { m with voided_by := (some (insert h (m.voided_by.getD ∅))) }).saveTx
                      u).pushEvent (.delFromIndexes u)) _ _ hv3 hsk3 hrun
                | true =>
                  rw [hcw2] at hrun
                  simp only [if_true] at hrun
                  cases hblk2 : r2.is_block with
                  | true =>
                    rw [hblk2] at hrun
                    simp only [if_true] at hrun
                    exact Option.noConfusion hrun
                  | false =>
                    rw [hblk2] at hrun
                    simp only [Bool.false_eq_true, if_false] at hrun
                    cases hr4 : run env n (.markAsVoidedTx u) ((st).setMeta u fun m =>
                        { m with voided_by := (some (insert h (m.voided_by.getD ∅))) }) with
                    | none => simp only [hr4] at hrun; exact Option.noConfusion hrun
                    | some p4 =>
                      obtain ⟨st4, r4⟩ := p4
                      simp only [hr4] at hrun
                      obtain ⟨hv4, hsk4⟩ := step _ ((st).setMeta u fun m =>
                          { m with voided_by := (some (insert h (m.voided_by.getD ∅))) }) _ _
                        hv3 hsk3 hr4
                      have hv5 : ValidSt (st4.setMeta u fun m =>
                          { m with accumulated_weight := env.refreshAW u none }) :=
                        valid_of_coreEq hv4 (coreEq_setMeta st4 u _ (fun m => ⟨rfl, rfl⟩))
                      have hsk5 : skelEq st (st4.setMeta u fun m =>
                          { m with accumulated_weight := env.refreshAW u none }) :=
                        skelEq_trans hsk4 (skelEq_setMeta st4 u _ (fun m => rfl))
                      cases havc : assertValidConsensus (((st4.setMeta u fun m =>
                          { m with accumulated_weight := env.refreshAW u none }).saveTx
                          u).pushEvent (.delFromIndexes u)) u with
                      | none => simp only [havc] at hrun; exact Option.noConfusion hrun
                      | some uu =>
                        simp only [havc] at hrun
                        exact step _ (((st4.setMeta u fun m =>
                          { m with accumulated_weight := env.refreshAW u none }).saveTx
                          u).pushEvent (.delFromIndexes u)) _ _ hv5 hsk5 hrun
    | txRemoveLoop h queue seen cl =>
      cases queue with
      | nil =>
        simp only [runBody, stepTxRemoveLoop] at hrun
        exact step _ _ _ _ hv (skelEq_refl st) hrun
      | cons u q =>
        simp only [runBody, stepTxRemoveLoop] at hrun
        cases hlk : st.lookupRec u with
        | none => simp only [hlk] at hrun; exact Option.noConfusion hrun
        | some r =>
          simp only [hlk] at hrun
          by_cases hbm : (oFinsetTruthy r.meta.voided_by &&
              decide (h ∈ r.meta.voided_by.getD ∅)) = true
          case neg =>
            rw [if_pos hbm] at hrun
            exact step _ st _ _ hv (skelEq_refl st) hrun
          rw [if_neg (not_not_intro hbm)] at hrun
          have hother : ∀ x, x ≠ u →
              ((if (r.meta.voided_by.getD ∅).erase h = ∅ then
              (st.setMeta u fun m =>
                { m with voided_by := (if (r.meta.voided_by.getD ∅).erase h = ∅
                  then none else some ((r.meta.voided_by.getD ∅).erase h)) }).pushEvent
                (.addToIndexes u)
            else st.setMeta u fun m =>
              { m with voided_by := (if (r.meta.voided_by.getD ∅).erase h = ∅
                then none else some ((r.meta.voided_by.getD ∅).erase h)) }).saveTx u).lookupRec x = st.lookupRec x := by
            intro x hx
            rw [lookupRec_saveTx]
            split <;> simp [lookupRec_setMeta_other _ _ _ _ hx]
          have hsk3 : skelEq st
              ((if (r.meta.voided_by.getD ∅).erase h = ∅ then
              (st.setMeta u fun m =>
                { m with voided_by := (if (r.meta.voided_by.getD ∅).erase h = ∅
                  then none else some ((r.meta.voided_by.getD ∅).erase h)) }).pushEvent
                (.addToIndexes u)
            else st.setMeta u fun m =>
              { m with voided_by := (if (r.meta.voided_by.getD ∅).erase h = ∅
                then none else some ((r.meta.voided_by.getD ∅).erase h)) }).saveTx u) := by
            split
            · exact skelEq_saveTx _ _ _ (skelEq_pushEvent _ _ _
                (skelEq_setMeta st u _ (fun m => rfl)))
            · exact skelEq_saveTx _ _ _ (skelEq_setMeta st u _ (fun m => rfl))
          cases havc : assertValidConsensus
              ((if (r.meta.voided_by.getD ∅).erase h = ∅ then
              (st.setMeta u fun m =>
                { m with voided_by := (if (r.meta.voided_by.getD ∅).erase h = ∅
                  then none else some ((r.meta.voided_by.getD ∅).erase h)) }).pushEvent
                (.addToIndexes u)
            else st.setMeta u fun m =>
              { m with voided_by := (if (r.meta.voided_by.getD ∅).erase h = ∅
                then none else some ((r.meta.voided_by.getD ∅).erase h)) }).saveTx u) u with
          | none => simp only [havc] at hrun; exact Option.noConfusion hrun
          | some uu =>
            simp only [havc] at hrun
            have hv3 : ValidSt
                ((if (r.meta.voided_by.getD ∅).erase h = ∅ then
              (st.setMeta u fun m =>
                { m with voided_by := (if (r.meta.voided_by.getD ∅).erase h = ∅
                  then none else some ((r.meta.voided_by.getD ∅).erase h)) }).pushEvent
                (.addToIndexes u)
            else st.setMeta u fun m =>
              { m with voided_by := (if (r.meta.voided_by.getD ∅).erase h = ∅
                then none else some ((r.meta.voided_by.getD ∅).erase h)) }).saveTx u) :=
              valid_of_avc st _ u hother hsk3 hv hs havc
            exact step _
              ((if (r.meta.voided_by.getD ∅).erase h = ∅ then
              (st.setMeta u fun m =>
                { m with voided_by := (if (r.meta.voided_by.getD ∅).erase h = ∅
                  then none else some ((r.meta.voided_by.getD ∅).erase h)) }).pushEvent
                (.addToIndexes u)
            else st.setMeta u fun m =>
              { m with voided_by := (if (r.meta.voided_by.getD ∅).erase h = ∅
                then none else some ((r.meta.voided_by.getD ∅).erase h)) }).saveTx u) _ _ hv3 hsk3 hrun
    | updateVoidedInfo t =>
      simp only [runBody, stepUpdateVoidedInfo] at hrun
      cases hlk : st.lookupRec t with
      | none => simp only [hlk] at hrun; exact Option.noConfusion hrun
      | some tx =>
        simp only [hlk] at hrun
        cases hblk : tx.is_block with
        | true =>
          rw [hblk] at hrun
          simp only [if_true] at hrun
          exact Option.noConfusion hrun
        | false =>
          rw [hblk] at hrun
          simp only [Bool.false_eq_true, if_false] at hrun
          cases hpl : uviParentLoop env st tx.parents ∅ with
          | none => simp only [hpl] at hrun; exact Option.noConfusion hrun
          | some v1 =>
            simp only [hpl] at hrun
            by_cases hg1 : env.SOFT_VOIDED_ID ∈ v1
            case pos => rw [if_pos hg1] at hrun; exact Option.noConfusion hrun
            rw [if_neg hg1] at hrun
            by_cases hg2 : env.soft_voided_tx_ids ∩ v1 = ∅
            case neg => rw [if_pos hg2] at hrun; exact Option.noConfusion hrun
            rw [if_neg (not_not_intro hg2)] at hrun
            cases hil : uviInputLoop env st tx.inputs v1 with
            | none => simp only [hil] at hrun; exact Option.noConfusion hrun
            | some v2 =>
              simp only [hil] at hrun
              by_cases hg3 : env.SOFT_VOIDED_ID ∈ v2
              case pos => rw [if_pos hg3] at hrun; exact Option.noConfusion hrun
              rw [if_neg hg3] at hrun
              by_cases hg4 : t ∈ v2
              case pos => rw [if_pos hg4] at hrun; exact Option.noConfusion hrun
              rw [if_neg hg4] at hrun
              cases hawl : uviAwLoop env tx.weight (iterFinset v2) st with
              | none => simp only [hawl] at hrun; exact Option.noConfusion hrun
              | some st1 =>
                simp only [hawl] at hrun
                have hcore1 := uviAwLoop_coreEq env tx.weight (iterFinset v2) st st1 hawl
                have hv1 := valid_of_coreEq hv hcore1
                have hsk1 := skelEq_of_coreEq hcore1
                cases hlk1 : st1.lookupRec t with
                | none => simp only [hlk1] at hrun; exact Option.noConfusion hrun
                | some tx1 =>
                  simp only [hlk1] at hrun
                  by_cases hg5 : (!oFinsetTruthy tx1.meta.voided_by ||
                      decide (tx1.meta.voided_by = some {t})) = true
                  case neg => rw [if_pos hg5] at hrun; exact Option.noConfusion hrun
                  rw [if_neg (not_not_intro hg5)] at hrun
                  by_cases hg6 : tx1.meta.accumulated_weight = tx.weight
                  case neg => rw [if_pos hg6] at hrun; exact Option.noConfusion hrun
                  rw [if_neg (not_not_intro hg6)] at hrun
                  have hv2 : ValidSt (if ¬ uviSelfVoided env t tx1.meta.conflict_with v2 = ∅ then
                      ((st1.setMeta t fun m =>
                        { m with voided_by := (some (uviSelfVoided env t
                          tx1.meta.conflict_with v2)) }).saveTx t).pushEvent
                        (Event.delFromIndexes t)
                    else st1) := by
                    split
                    · rename_i hne4
                      exact valid_pushEvent _ _ (valid_saveTx _ _
                        (valid_setMeta_truthy st1 t _ (fun m => rfl)
                          (fun m => by simp [oFinsetTruthy, hne4]) hv1))
                    · exact hv1
                  have hsk2 : skelEq st (if ¬ uviSelfVoided env t tx1.meta.conflict_with v2 = ∅ then
                      ((st1.setMeta t fun m =>
                        { m with voided_by := (some (uviSelfVoided env t
                          tx1.meta.conflict_with v2)) }).saveTx t).pushEvent
                        (Event.delFromIndexes t)
                    else st1) := by
                    split
                    · exact skelEq_pushEvent _ _ _ (skelEq_saveTx _ _ _
                        (skelEq_trans hsk1 (skelEq_setMeta st1 t _ (fun m => rfl))))
                    · exact hsk1
                  cases hr1 : run env n (.uviCheckLoop t (iterFinset
                      (uviSelfVoided env t tx1.meta.conflict_with v2)))
                      (if ¬ uviSelfVoided env t tx1.meta.conflict_with v2 = ∅ then
                      ((st1.setMeta t fun m =>
                        { m with voided_by := (some (uviSelfVoided env t
                          tx1.meta.conflict_with v2)) }).saveTx t).pushEvent
                        (Event.delFromIndexes t)
                    else st1) with
                  | none => simp only [hr1] at hrun; exact Option.noConfusion hrun
                  | some p =>
                    obtain ⟨st3, r3⟩ := p
                    simp only [hr1] at hrun
                    obtain ⟨hv3, hsk3⟩ := step _
                      (if ¬ uviSelfVoided env t tx1.meta.conflict_with v2 = ∅ then
                      ((st1.setMeta t fun m =>
                        { m with voided_by := (some (uviSelfVoided env t
                          tx1.meta.conflict_with v2)) }).saveTx t).pushEvent
                        (Event.delFromIndexes t)
                    else st1) _ _ hv2 hsk2 hr1
                    cases hlk3 : st3.lookupRec t with
                    | none => simp only [hlk3] at hrun; exact Option.noConfusion hrun
                    | some tx3 =>
                      simp only [hlk3] at hrun
                      cases hr2 : run env n
                          (.uviMarkLoop (tx3.meta.conflict_with.getD [])) st3 with
                      | none => simp only [hr2] at hrun; exact Option.noConfusion hrun
                      | some p2 =>
                        obtain ⟨st4, r4⟩ := p2
                        simp only [hr2] at hrun
                        obtain ⟨hv4, hsk4⟩ := step _ st3 _ _ hv3 hsk3 hr2
                        cases hlk4 : st4.lookupRec t with
                        | none => simp only [hlk4] at hrun; exact Option.noConfusion hrun
                        | some tx4 =>
                          simp only [hlk4] at hrun
                          by_cases hg7 : tx4.meta.voided_by = some {t}
                          · rw [if_pos hg7] at hrun
                            cases hr3 : run env n (.checkConflicts t) st4 with
                            | none =>
                              simp only [hr3] at hrun
                              exact Option.noConfusion hrun
                            | some p3 =>
                              obtain ⟨st5, r5⟩ := p3
                              simp only [hr3] at hrun
                              obtain ⟨hv5, hsk5⟩ := step _ st4 _ _ hv4 hsk4 hr3
                              cases havc : assertValidConsensus st5 t with
                              | none =>
                                simp only [havc] at hrun
                                exact Option.noConfusion hrun
                              | some uu =>
                                simp only [havc] at hrun
                                cases hrun
                                exact ⟨hv5, hsk5⟩
                          · rw [if_neg hg7] at hrun
                            cases havc : assertValidConsensus st4 t with
                            | none =>
                              simp only [havc] at hrun
                              exact Option.noConfusion hrun
                            | some uu =>
                              simp only [havc] at hrun
                              cases hrun
                              exact ⟨hv4, hsk4⟩

/-- C2: exclusive execution among conflicts. Starting from a state where
no two conflicting records are both executed, conflict lists are
symmetric and blocks carry no conflicts, every completed consensus
operation — `update_voided_info`, `mark_as_winner`, `mark_as_voided`,
and the node walks of `add_voided_by` / `remove_voided_by`, all
interpreted by `run` — ends in a state where for every transaction `t`
and every `h` in `conflict_with(t)` it is never the case that both
`voided_by(t)` and `voided_by(h)` are empty: at most one member of any
conflict set is executed, enforced by the `assert_valid_consensus`
checks after each `voided_by` mutation (consensus.py:862-871). -/
theorem claimC2_exclusive_execution (env : Env) (n : Nat) (c : Call)
    (st st' : St) (res : Bool)
    (hv : ValidSt st) (hs : SymmSt st) (hb : BlockNoCw st)
    (hrun : run env n c st = some (st', res)) : ValidSt st' :=
  (run_preserves_valid env n c st st' res hv hs hb hrun).1

/-- State of the C2 witness: one stored conflict-free transaction. -/
def stC2 : St := { recs := [(1, {})] }

/-- C2 witness: a benign `check_conflicts` run from a trivially valid
store ends valid. -/
theorem claimC2_witness : ValidSt stC2 :=
  claimC2_exclusive_execution { SOFT_VOIDED_ID := 0 } 1 (.checkConflicts 1)
    stC2 stC2 true
    (by
      intro t rt hlk x hmem rh hlkh hcon
      have hrt : rt = ({} : Record) := by
        simp only [stC2, St.lookupRec, assocFind] at hlk
        by_cases h1 : (1 : Hash) = t
        · simp only [h1, if_true, Option.some.injEq] at hlk
          exact hlk.symm
        · simp only [h1, if_false] at hlk
          exact Option.noConfusion hlk
      rw [hrt] at hmem
      exact absurd hmem (by simp))
    (by
      intro t rt hlk x hmem rh hlkh
      have hrt : rt = ({} : Record) := by
        simp only [stC2, St.lookupRec, assocFind] at hlk
        by_cases h1 : (1 : Hash) = t
        · simp only [h1, if_true, Option.some.injEq] at hlk
          exact hlk.symm
        · simp only [h1, if_false] at hlk
          exact Option.noConfusion hlk
      rw [hrt] at hmem
      exact absurd hmem (by simp))
    (by
      intro b rb hlk hblk
      have hrb : rb = ({} : Record) := by
        simp only [stC2, St.lookupRec, assocFind] at hlk
        by_cases h1 : (1 : Hash) = b
        · simp only [h1, if_true, Option.some.injEq] at hlk
          exact hlk.symm
        · simp only [h1, if_false] at hlk
          exact Option.noConfusion hlk
      rw [hrb] at hblk
      exact absurd hblk (by decide))
    (by decide)

end Hathor
